import Mathlib

/-!
# Shortest paths with an indexed binary heap (`dijkstra.go`)

A shallow embedding of `src/dijkstra.go` together with the three functions of Go's
`container/heap` that the program calls (`heap.Init`, `heap.Fix`, `heap.Pop`, with their
helpers `up` and `down`).

Modelling conventions.

* A `*Vertex` is represented by the id of the vertex it points to.  `readFile` allocates
  exactly one record per id and stores it in `VertexMap` under that id, so ids and pointers
  correspond one to one; a pointer whose id is not a key of `VertexMap` plays the role of
  `nil`.
* A `float64` is a `Score R`: a finite value of a linearly ordered ring `R`, or `+∞`
  (`NaN` and `-∞` are outside the model).  The one arithmetic operation of the program, the
  sum `workingVertex.Length + tuple.Distance` in `dijkstra`, is modelled twice: as the exact
  sum (`relax`, `dijkstraLoop`, `dijkstra`, `run`), and as the `float64` sum, which is the
  exact sum rounded and `+∞` on overflow (`relaxFloat`, `dijkstraLoopFloat`, `dijkstraFloat`,
  `runFloat`).  The statements that `Length` is the minimum path weight (C1), and that it
  is finite exactly for the vertices that can be reached (C2), fail under rounding and
  overflow and are made on the second; the other statements are made on the first.
* Go's `int` is `Int`.
* A run-time panic (index out of range, nil dereference) is the result `none`.
* Loops run on a fuel argument that the caller sets to the loop's variant; the theorems show
  that this fuel is never exhausted.
-/

namespace Dijkstra

set_option autoImplicit false
set_option linter.unusedSectionVars false
set_option linter.unusedVariables false
set_option exponentiation.threshold 2048

/-- The values of a `float64`: the finite values `R` and `+∞` (written `⊤`). -/
abbrev Score (R : Type) := WithTop R

/-- Go struct `NodeTuple`: an outgoing edge. -/
structure NodeTuple (R : Type) where
  HeadVertexId : Int
  HeadVertex : Int
  Distance : Score R

/-- Go struct `Vertex`. -/
structure Vertex (R : Type) where
  Id : Int
  Edges : List (NodeTuple R)
  DGS : Score R
  Index : Int
  Length : Score R

/-- The program's global state: the map `VertexMap` (its key set `keys`, and the record `mem id`
that the pointer stored under `id` points to) and the heap slice `vh` of vertex pointers. -/
structure State (R : Type) where
  keys : List Int
  mem : Int → Vertex R
  vh : List Int

variable {R : Type} [LinearOrderedRing R]

/-- The lookup `VertexMap[id]` followed by a dereference; `none` when the pointer is nil. -/
def State.VertexMap (st : State R) (id : Int) : Option (Vertex R) :=
  if id ∈ st.keys then some (st.mem id) else none

/-- Write the record `r` through the pointer `p`. -/
def State.store (st : State R) (p : Int) (r : Vertex R) : State R :=
  { st with mem := Function.update st.mem p r }

/-- The slice element `vh[i]`; `none` when `i` is out of range. -/
def State.vhAt (st : State R) (i : Int) : Option Int :=
  if i < 0 then none else st.vh.get? i.toNat

/-- Method `(v *Vertex) AddEdge`. -/
def Vertex.AddEdge (v : Vertex R) (i : NodeTuple R) : Vertex R :=
  { v with Edges := v.Edges ++ [i] }

namespace VertexHeap

/-- Method `Len`. -/
def Len (st : State R) : Int := st.vh.length

/-- Method `Less`: `vh[i].DGS < vh[j].DGS`. -/
def Less (st : State R) (i j : Int) : Option Bool := do
  let a ← st.vhAt i
  let b ← st.vhAt j
  let va ← st.VertexMap a
  let vb ← st.VertexMap b
  pure (decide (va.DGS < vb.DGS))

/-- Method `Swap`: exchange `vh[i]` and `vh[j]`, then set `vh[i].Index = i` and
`vh[j].Index = j`. -/
def Swap (st : State R) (i j : Int) : Option (State R) := do
  let a ← st.vhAt i
  let b ← st.vhAt j
  let st1 : State R := { st with vh := (st.vh.set i.toNat b).set j.toNat a }
  let p ← st1.vhAt i
  let vp ← st1.VertexMap p
  let st2 := st1.store p { vp with Index := i }
  let q ← st2.vhAt j
  let vq ← st2.VertexMap q
  pure (st2.store q { vq with Index := j })

/-- Method `Push`: set the vertex's `Index` to the old length and append it. -/
def Push (st : State R) (x : Int) : Option (State R) := do
  let n := Len st
  let r ← st.VertexMap x
  let st1 := st.store x { r with Index := n }
  pure { st1 with vh := st1.vh ++ [x] }

/-- Method `Pop`: take the last element, set its `Index` to `-1`, shorten the slice. -/
def Pop (st : State R) : Option (State R × Int) := do
  let n := Len st
  let this_vertex ← st.vhAt (n - 1)
  let r ← st.VertexMap this_vertex
  let st1 := st.store this_vertex { r with Index := -1 }
  pure ({ st1 with vh := st1.vh.take (n - 1).toNat }, this_vertex)

end VertexHeap

namespace heap

/-- The loop of `container/heap.up`, on `fuel` iterations. -/
def upLoop : Nat → State R → Int → Option (State R)
  | 0, _, _ => none
  | fuel + 1, st, j =>
    let i := (j - 1).tdiv 2
    if i = j then some st
    else do
      let lt ← VertexHeap.Less st j i
      if !lt then some st
      else do
        let st1 ← VertexHeap.Swap st i j
        upLoop fuel st1 i

/-- Function `container/heap.up`. -/
def up (st : State R) (j : Int) : Option (State R) :=
  upLoop (j.toNat + 1) st j

/-- The loop of `container/heap.down`, on `fuel` iterations; returns the final `i`. -/
def downLoop : Nat → State R → Int → Int → Option (State R × Int)
  | 0, _, _, _ => none
  | fuel + 1, st, i, n =>
    let j1 := 2 * i + 1
    if j1 ≥ n ∨ j1 < 0 then some (st, i)
    else do
      let j2 := j1 + 1
      let right ← (if j2 < n then VertexHeap.Less st j2 j1 else pure false)
      let j := if right then j2 else j1
      let lt ← VertexHeap.Less st j i
      if !lt then some (st, i)
      else do
        let st1 ← VertexHeap.Swap st i j
        downLoop fuel st1 j n

/-- Function `container/heap.down`: returns whether the element moved (`i > i0`). -/
def down (st : State R) (i0 n : Int) : Option (State R × Bool) := do
  let (st1, i) ← downLoop (n.toNat + 1) st i0 n
  pure (st1, decide (i > i0))

/-- The loop of `container/heap.Init`: `down(h, i, n)` for `i = k - 1, ..., 0`. -/
def initLoop (n : Int) : Nat → State R → Option (State R)
  | 0, st => some st
  | k + 1, st => do
    let (st1, _) ← down st (k : Int) n
    initLoop n k st1

/-- Function `container/heap.Init`. -/
def Init (st : State R) : Option (State R) :=
  let n := VertexHeap.Len st
  initLoop n (n.tdiv 2 - 1 + 1).toNat st

/-- Function `container/heap.Fix`. -/
def Fix (st : State R) (i : Int) : Option (State R) := do
  let (st1, moved) ← down st i (VertexHeap.Len st)
  if !moved then up st1 i else pure st1

/-- Function `container/heap.Pop`. -/
def Pop (st : State R) : Option (State R × Int) := do
  let n := VertexHeap.Len st - 1
  let st1 ← VertexHeap.Swap st 0 n
  let (st2, _) ← down st1 0 n
  VertexHeap.Pop st2

end heap

/-- Method `(vh *VertexHeap) update`: overwrite `v.DGS`, then `heap.Fix(vh, v.Index)`. -/
def VertexHeap.update (st : State R) (v : Int) (DGS : Score R) : Option (State R) := do
  let r ← st.VertexMap v
  let st1 := st.store v { r with DGS := DGS }
  heap.Fix st1 r.Index

/-- The `range VertexMap` loop of `makeVertexHeap`, the vertices coming in the order `order`;
`i` is the loop counter, and `vh` holds the entries written so far. -/
def fillLoop : List Int → Int → State R → Option (State R)
  | [], _, st => some st
  | v :: rest, i, st => do
    let r ← st.VertexMap v
    let st1 := st.store v { r with Index := i }
    fillLoop rest (i + 1) { st1 with vh := st1.vh ++ [v] }

/-- Function `makeVertexHeap`; `order` is the order in which `range VertexMap` yields the
vertices. -/
def makeVertexHeap (order : List Int) (st : State R) : Option (State R) := do
  let st1 ← fillLoop order 0 { st with vh := [] }
  heap.Init st1

/-- One pass of the inner loop of `dijkstra`: relax the edge `tuple` of `workingVertex`. -/
def relax (workingVertex : Int) (st : State R) (tuple : NodeTuple R) : Option (State R) := do
  let v := tuple.HeadVertex
  let w ← st.VertexMap workingVertex
  let test_DGS := w.Length + tuple.Distance
  let r ← st.VertexMap v
  if r.DGS > test_DGS then VertexHeap.update st v test_DGS else pure st

/-- The outer loop of `dijkstra`, on `fuel` iterations.  The last argument is a log of the
extractions made so far (vertex and its `DGS` when extracted); it does not influence the run. -/
def dijkstraLoop : Nat → State R → Int → List (Int × Score R) →
    Option (State R × List (Int × Score R))
  | 0, st, _, log => if VertexHeap.Len st > 0 then none else some (st, log)
  | fuel + 1, st, workingVertex, log =>
    if VertexHeap.Len st > 0 then do
      let w ← st.VertexMap workingVertex
      let st1 ← w.Edges.foldlM (relax workingVertex) st
      let (st2, u) ← heap.Pop st1
      let r ← st2.VertexMap u
      let st3 := st2.store u { r with Length := r.DGS }
      dijkstraLoop fuel st3 u (log ++ [(u, r.DGS)])
    else some (st, log)

/-- Function `dijkstra`, returning the final state and the log of extractions. -/
def dijkstraTrace (st : State R) (id : Int) : Option (State R × List (Int × Score R)) := do
  let workingVertex := id
  let r ← st.VertexMap workingVertex
  let st1 := st.store workingVertex { r with DGS := 0 }
  let r1 ← st1.VertexMap workingVertex
  let st2 := st1.store workingVertex { r1 with Length := 0 }
  let r2 ← st2.VertexMap workingVertex
  let st3 ← VertexHeap.update st2 workingVertex r2.DGS
  dijkstraLoop st3.vh.length st3 workingVertex []

/-- Function `dijkstra`: the final state. -/
def dijkstra (st : State R) (id : Int) : Option (State R) :=
  (dijkstraTrace st id).map Prod.fst

/-- The state after `makeVertexHeap` and `dijkstra(id)`. -/
def run (order : List Int) (st : State R) (id : Int) : Option (State R) :=
  (makeVertexHeap order st).bind fun st1 => dijkstra st1 id

/-! ### Predicates used in the statements -/

/-- The pointer held in slot `i` of the heap slice (`0` when `i` is out of range). -/
def State.ptr (st : State R) (i : Nat) : Int := st.vh.getD i 0

/-- The `DGS` of the vertex held in slot `i` of the heap slice. -/
def State.key (st : State R) (i : Nat) : Score R := (st.mem (st.ptr i)).DGS

/-- Position consistency: every slot of the heap holds a vertex of the map whose `Index` is the
slot's index. -/
def PosConsistent (st : State R) : Prop :=
  ∀ i, i < st.vh.length → st.ptr i ∈ st.keys ∧ (st.mem (st.ptr i)).Index = (i : Int)

/-- Every vertex of the map that is not in the heap has `Index = -1`. -/
def OutOfHeap (st : State R) : Prop :=
  ∀ k ∈ st.keys, k ∉ st.vh → (st.mem k).Index = -1

/-- Heap order on the first `n` slots: every non-root slot's `DGS` is at least its parent's. -/
def HeapOrderedUpTo (st : State R) (n : Nat) : Prop :=
  ∀ i, i < n → 0 < i → st.key ((i - 1) / 2) ≤ st.key i

/-- Heap order on the whole heap slice. -/
def HeapOrdered (st : State R) : Prop := HeapOrderedUpTo st st.vh.length

/-- Two records that differ at most in `Index`. -/
def SameData (r r' : Vertex R) : Prop :=
  r'.Id = r.Id ∧ r'.Edges = r.Edges ∧ r'.DGS = r.DGS ∧ r'.Length = r.Length

/-- What the heap operations leave alone: the key set, the set of heap entries, the records
of vertices outside the heap, and every field but `Index` of every record. -/
def Frame (st st' : State R) : Prop :=
  st'.keys = st.keys ∧ st'.vh.length = st.vh.length ∧ (∀ p, p ∈ st'.vh ↔ p ∈ st.vh) ∧
    (∀ p, p ∉ st.vh → st'.mem p = st.mem p) ∧ ∀ p, SameData (st.mem p) (st'.mem p)

/-- Heap order for all parent-child pairs below `n` whose parent is at least `lo` and is not
`i`, together with: the parent of `i` (when it counts) is at most the children of `i`. -/
def HeapExcept (key : Nat → Score R) (lo n i : Nat) : Prop :=
  (∀ c, c < n → 0 < c → lo ≤ (c - 1) / 2 → (c - 1) / 2 ≠ i → key ((c - 1) / 2) ≤ key c) ∧
    (0 < i → lo ≤ (i - 1) / 2 → ∀ c, c < n → 0 < c → (c - 1) / 2 = i →
      key ((i - 1) / 2) ≤ key c)

/-- Heap order for all parent-child pairs below `n` whose parent is at least `lo`. -/
def HeapFrom (key : Nat → Score R) (lo n : Nat) : Prop :=
  ∀ c, c < n → 0 < c → lo ≤ (c - 1) / 2 → key ((c - 1) / 2) ≤ key c

/-- Heap order for all parent-child pairs below `n` whose child is not `j`, together with: the
parent of `j` is at most the children of `j`. -/
def UpExcept (key : Nat → Score R) (n j : Nat) : Prop :=
  (∀ c, c < n → 0 < c → c ≠ j → key ((c - 1) / 2) ≤ key c) ∧
    (0 < j → ∀ c, c < n → 0 < c → (c - 1) / 2 = j → key ((j - 1) / 2) ≤ key c)

/-- The keys of `key` with slots `a` and `b` exchanged. -/
def swapKey (key : Nat → Score R) (a b : Nat) : Nat → Score R :=
  fun k => if k = a then key b else if k = b then key a else key k


/-- The state after the assignment `v.DGS = x`. -/
def State.setDGS (st : State R) (v : Int) (x : Score R) : State R :=
  st.store v { (st.mem v) with DGS := x }

/-- The state after the assignment `v.Length = x`. -/
def State.setLength (st : State R) (v : Int) (x : Score R) : State R :=
  st.store v { (st.mem v) with Length := x }

/-- What the search needs of the state between two steps: the heap is position consistent
and ordered, vertices outside the heap have `Index = -1`, and every edge points to a vertex
of the map. -/
def StructInv (st : State R) : Prop :=
  PosConsistent st ∧ HeapOrdered st ∧ OutOfHeap st ∧
    ∀ k ∈ st.keys, ∀ e ∈ (st.mem k).Edges, e.HeadVertex ∈ st.keys

/-- What relaxing edges leaves alone: the key set, the set of heap entries, and the fields
`Id`, `Edges` and `Length` of every record. -/
def DataFrame (st st' : State R) : Prop :=
  st'.keys = st.keys ∧ st'.vh.length = st.vh.length ∧ (∀ p, p ∈ st'.vh ↔ p ∈ st.vh) ∧
    ∀ p, (st'.mem p).Id = (st.mem p).Id ∧ (st'.mem p).Edges = (st.mem p).Edges ∧
      (st'.mem p).Length = (st.mem p).Length

/-- One pass of the outer loop of `dijkstra` as a relation between the state `st` at the top
of the loop (working vertex `w`) and the state `st3` at the end of the pass (`u` is the
vertex extracted).  The intermediate state `st1` is the one after the edges of `w` have been
relaxed. -/
def Iter (st : State R) (w : Int) (st3 : State R) (u : Int) : Prop :=
  ∃ st1 : State R,
    DataFrame st st1 ∧
    (∀ p, (st1.mem p).DGS ≤ (st.mem p).DGS) ∧
    (∀ e ∈ (st.mem w).Edges, (st1.mem e.HeadVertex).DGS ≤ (st.mem w).Length + e.Distance) ∧
    (∀ p, (st1.mem p).DGS = (st.mem p).DGS ∨ ∃ e ∈ (st.mem w).Edges, e.HeadVertex = p ∧
      (st1.mem p).DGS = (st.mem w).Length + e.Distance ∧
      (st.mem w).Length + e.Distance < (st.mem p).DGS) ∧
    u ∈ st1.vh ∧ u ∈ st.keys ∧ (∀ p ∈ st1.vh, (st1.mem u).DGS ≤ (st1.mem p).DGS) ∧
    st3.keys = st.keys ∧ st3.vh.length + 1 = st1.vh.length ∧
    (∀ p, p ∈ st3.vh ↔ p ∈ st1.vh ∧ p ≠ u) ∧
    (∀ p, (st3.mem p).Id = (st1.mem p).Id ∧ (st3.mem p).Edges = (st1.mem p).Edges ∧
      (st3.mem p).DGS = (st1.mem p).DGS) ∧
    (∀ p, p ≠ u → (st3.mem p).Length = (st1.mem p).Length) ∧
    (st3.mem u).Length = (st1.mem u).DGS ∧ (st3.mem u).Index = -1

/-- A directed path in the graph of `st`: `Walk st s v x` says that some sequence of edges
leads from `s` to `v`, each edge starting at a vertex of the map where the previous one ends,
with total weight `x`. -/
inductive Walk (st : State R) (s : Int) : Int → Score R → Prop
  | nil : Walk st s s 0
  | cons (u : Int) (x : Score R) (e : NodeTuple R) : Walk st s u x → u ∈ st.keys →
      e ∈ (st.mem u).Edges → Walk st s e.HeadVertex (x + e.Distance)

/-- The graph as `readFile` builds it: the keys of the map are distinct, every vertex has
`DGS = +∞` and `Index = -1`, and every edge's `HeadVertex` is the vertex of the map whose id
is `HeadVertexId`. -/
def LoaderBuilt (st : State R) : Prop :=
  st.keys.Nodup ∧ ∀ k ∈ st.keys, (st.mem k).DGS = ⊤ ∧ (st.mem k).Index = -1 ∧
    ∀ e ∈ (st.mem k).Edges, e.HeadVertex = e.HeadVertexId ∧ e.HeadVertex ∈ st.keys

/-- Every edge weight is at least `0`. -/
def NonNegWeights (st : State R) : Prop :=
  ∀ k ∈ st.keys, ∀ e ∈ (st.mem k).Edges, 0 ≤ e.Distance

/-- Every edge weight is finite. -/
def FiniteWeights (st : State R) : Prop :=
  ∀ k ∈ st.keys, ∀ e ∈ (st.mem k).Edges, e.Distance ≠ ⊤

/-- A vertex counts as done when it has left the heap or is the source. -/
def Done (st : State R) (s u : Int) : Prop := u ∉ st.vh ∨ u = s

/-- The invariant of the outer loop of `dijkstra(s)` at the top of the loop, `w` being the
working vertex and `st0` a state with the graph the search started from. -/
structure DInv (st0 : State R) (s : Int) (st : State R) (w : Int) : Prop where
  keys_eq : st.keys = st0.keys
  edges_eq : ∀ p, (st.mem p).Edges = (st0.mem p).Edges
  s_mem : s ∈ st.keys
  w_done : Done st s w
  len_eq : ∀ u ∈ st.keys, Done st s u → (st.mem u).Length = (st.mem u).DGS
  relaxed : ∀ u ∈ st.keys, Done st s u → u ≠ w → ∀ e ∈ (st.mem u).Edges,
    (st.mem e.HeadVertex).DGS ≤ (st.mem u).Length + e.Distance
  done_le : ∀ u ∈ st.keys, Done st s u → (st.mem u).DGS ≤ (st.mem w).DGS
  le_heap : ∀ v ∈ st.vh, (st.mem w).DGS ≤ (st.mem v).DGS
  tight : ∀ v ∈ st.keys, v ≠ s → (st.mem v).DGS ≠ ⊤ → ∃ u ∈ st.keys, Done st s u ∧
    ∃ e ∈ (st.mem u).Edges, e.HeadVertex = v ∧ (st.mem v).DGS = (st.mem u).Length + e.Distance
  src : (st.mem s).DGS = 0
  reach : ∀ v ∈ st.keys, (st.mem v).DGS ≠ ⊤ → Walk st0 s v (st.mem v).DGS

/-- The log of extractions is in non-decreasing order of `DGS`. -/
def LogMonotone (log : List (Int × Score R)) : Prop :=
  (log.map Prod.snd).Pairwise (fun a b => a ≤ b)

/-- The state `stI` in which `dijkstra(s)` enters its loop, in terms of the loader-built
state `st`: same graph, every vertex in the heap, the source at `DGS = 0` and `Length = 0`,
every other vertex still at `DGS = +∞`. -/
def InitState (st : State R) (s : Int) (stI : State R) : Prop :=
  stI.keys = st.keys ∧ (∀ k ∈ st.keys, k ∈ stI.vh) ∧ stI.vh.Perm st.keys ∧
    (∀ p, (stI.mem p).Edges = (st.mem p).Edges) ∧
    (stI.mem s).DGS = 0 ∧ (stI.mem s).Length = 0 ∧
    (∀ p ∈ st.keys, p ≠ s → (stI.mem p).DGS = ⊤) ∧
    ∀ p, p ≠ s → (stI.mem p).Length = (st.mem p).Length

/-- `x` is the minimum total weight of the directed paths from `s` to `v` in the graph of
`st`, and `+∞` when there is no such path. -/
def IsShortest (st : State R) (s v : Int) (x : Score R) : Prop :=
  (∀ y, Walk st s v y → x ≤ y) ∧ ((∃ y, Walk st s v y) → Walk st s v x) ∧
    ((¬ ∃ y, Walk st s v y) → x = ⊤)

/-! ### Concrete graphs -/

/-- A vertex as `readFile` creates it (`DGS = +∞`, `Index = -1`, `Length = -1`), with edges
given as pairs of target id and weight. -/
def loaderVertex (id : Int) (edges : List (Int × Int)) : Vertex ℤ :=
  { Id := id
    Edges := edges.map fun e => ⟨e.1, e.1, ((e.2 : ℤ) : Score ℤ)⟩
    DGS := ⊤
    Index := -1
    Length := ((-1 : ℤ) : Score ℤ) }

/-- Scenario S4 of the specification: lines `1 2,1`, `2`, `3 1,1`. -/
def scenarioS4 : State ℤ :=
  { keys := [1, 2, 3]
    mem := fun k =>
      if k = 1 then loaderVertex 1 [(2, 1)]
      else if k = 3 then loaderVertex 3 [(1, 1)]
      else loaderVertex k []
    vh := [] }

/-- Scenario S3 of the specification: lines `1 2,1 3,4`, `2 3,2`, `3`. -/
def scenarioS3 : State ℤ :=
  { keys := [1, 2, 3]
    mem := fun k =>
      if k = 1 then loaderVertex 1 [(2, 1), (3, 4)]
      else if k = 2 then loaderVertex 2 [(3, 2)]
      else loaderVertex k []
    vh := [] }

/-- A graph with a negative edge back to the source: lines `1 2,1 3,10`, `2 1,-5`, `3`.
With source 1, relaxing the edges of vertex 2 calls `update` on vertex 1 after vertex 1 has
left the heap. -/
def negativeGraph : State ℤ :=
  { keys := [1, 2, 3]
    mem := fun k =>
      if k = 1 then loaderVertex 1 [(2, 1), (3, 10)]
      else if k = 2 then loaderVertex 2 [(1, -5)]
      else loaderVertex k []
    vh := [] }

/-- A heap of three vertices with scores `1`, `3`, `2` in slots `0`, `1`, `2`. -/
def smallHeap : State ℤ :=
  { keys := [10, 20, 30]
    mem := fun k =>
      if k = 10 then { Id := 10, Edges := [], DGS := ((1 : ℤ) : Score ℤ), Index := 0, Length := ⊤ }
      else if k = 20 then
        { Id := 20, Edges := [], DGS := ((3 : ℤ) : Score ℤ), Index := 1, Length := ⊤ }
      else { Id := k, Edges := [], DGS := ((2 : ℤ) : Score ℤ), Index := 2, Length := ⊤ }
    vh := [10, 20, 30] }

/-! ### The loader `readFile`

The calls of `strings.Fields`, `strings.Split` and `strconv.ParseFloat` are library calls
whose results are part of the input of the model: a line is given by its fields, an edge
token by its first part and by what `ParseFloat` returns on its second part.
`strconv.Atoi` is embedded from the Go standard library for a 64-bit `int`.  Opening the file
and scanning it are outside the model: `readFile` is given the lines that the scanner
yields, and its two `log.Fatal` exits (the file cannot be opened; the scanner reports an
error, such as a line longer than its buffer of 64 KiB) are not modelled. -/

/-- What a `strconv` conversion returns: the value, and whether `err != nil`. -/
structure Conv (α : Type) where
  value : α
  failed : Bool

/-- The value of the byte `ch - '0'` when it is a decimal digit. -/
def digitValue (c : Char) : Option Nat :=
  if 48 ≤ c.toNat ∧ c.toNat ≤ 57 then some (c.toNat - 48) else none

/-- The digit loop of `strconv.ParseUint(s, 10, 64)`, `n` being the value read so far:
`none` for a syntax error, `some none` for a range error, `some (some n)` for the value. -/
def parseUintLoop : List Char → Nat → Option (Option Nat)
  | [], n => some (some n)
  | c :: rest, n =>
    match digitValue c with
    | none => none
    | some d => if 2 ^ 64 ≤ n * 10 + d then some none else parseUintLoop rest (n * 10 + d)

/-- The `Err` field of the `*NumError` that a failed `strconv` conversion returns. -/
inductive NumError where
  | ErrSyntax
  | ErrRange
  deriving DecidableEq

/-- Function `strconv.ParseInt(s, 10, 0)` for a 64-bit `int`: the value and the error (`none`
for `nil`).  A syntax error (no digit, or a byte that is not a digit) returns `0`; a range
error returns the largest `int`, or the smallest one when the string starts with `-`. -/
def ParseInt (s : List Char) : Int × Option NumError :=
  let neg := s.head? = some '-'
  let body := if s.head? = some '+' ∨ s.head? = some '-' then s.tail else s
  if body = [] then (0, some NumError.ErrSyntax)
  else
    match parseUintLoop body 0 with
    | none => (0, some NumError.ErrSyntax)
    | some none =>
      if neg then (-(2 ^ 63), some NumError.ErrRange) else (2 ^ 63 - 1, some NumError.ErrRange)
    | some (some un) =>
      if neg then
        (if 2 ^ 63 < un then (-(2 ^ 63), some NumError.ErrRange) else (-(un : Int), none))
      else (if 2 ^ 63 ≤ un then (2 ^ 63 - 1, some NumError.ErrRange) else ((un : Int), none))

/-- Function `strconv.Atoi`: the value and the error of `ParseInt(s, 10, 0)` (the fast path
that `Atoi` takes on short strings returns the same value and the same kind of error);
`failed` says whether `err != nil`. -/
def Atoi (s : List Char) : Conv Int :=
  ⟨(ParseInt s).1, (ParseInt s).2.isSome⟩

/-- An edge token `thisLine[i]`, `i ≥ 1`, after `strings.Split(thisLine[i], ",")`: its part 0,
and what `strconv.ParseFloat` returns on its part 1 (`none` when the token has no comma, so
that `weightedEdge[1]` is out of range). -/
structure EdgeToken (R : Type) where
  idPart : List Char
  weightPart : Option (Conv (Score R))

/-- A line after `strings.Fields`: field 0 (`none` when the line has no field, so that
`thisLine[0]` is out of range) and the edge tokens that follow it. -/
structure Line (R : Type) where
  head : Option (List Char)
  edges : List (EdgeToken R)

/-- The record `Vertex{id, []NodeTuple{}, math.Inf(1), -1, -1}`. -/
def newVertex (id : Int) : Vertex R :=
  { Id := id, Edges := [], DGS := ⊤, Index := -1, Length := ((-1 : R) : Score R) }

/-- The lookup `VertexMap[id]` of `readFile`, creating the vertex when it is absent. -/
def getOrCreate (st : State R) (id : Int) : State R :=
  if id ∈ st.keys then st
  else { st with keys := st.keys ++ [id], mem := Function.update st.mem id (newVertex id) }

/-- The inner loop of `readFile` over the edge tokens of the line of vertex `w`.  The result
carries `true` when a conversion error was reported and `readFile` returned early. -/
def readEdges (w : Int) : List (EdgeToken R) → State R → Option (State R × Bool)
  | [], st => some (st, false)
  | tok :: rest, st => do
    let edgeId := Atoi tok.idPart
    let weightOfEdge ← tok.weightPart
    if weightOfEdge.failed then some (st, true)
    else
      let st1 := getOrCreate st edgeId.value
      let st2 := st1.store w
        ((st1.mem w).AddEdge ⟨edgeId.value, edgeId.value, weightOfEdge.value⟩)
      readEdges w rest st2

/-- The outer loop of `readFile` over the lines. -/
def readLines : List (Line R) → State R → Option (State R × Bool)
  | [], st => some (st, false)
  | line :: rest, st => do
    let field0 ← line.head
    let thisVertexId := Atoi field0
    if thisVertexId.failed then some (st, true)
    else
      let st1 := getOrCreate st thisVertexId.value
      let (st2, failed) ← readEdges thisVertexId.value line.edges st1
      if failed then some (st2, true) else readLines rest st2

/-- Function `readFile`, from the empty `VertexMap` and the nil heap slice. -/
def readFile (lines : List (Line R)) : Option (State R × Bool) :=
  readLines lines { keys := [], mem := fun id => newVertex id, vh := [] }

/-- A heap of two vertices (scores `3` and `2`) next to a vertex 10 that has left the heap
(`Index = -1`, score `1`). -/
def settledHeap : State ℤ :=
  { keys := [10, 20, 30]
    mem := fun k =>
      if k = 10 then
        { Id := 10, Edges := [], DGS := ((1 : ℤ) : Score ℤ), Index := -1, Length := ((1 : ℤ) : Score ℤ) }
      else if k = 20 then
        { Id := 20, Edges := [], DGS := ((3 : ℤ) : Score ℤ), Index := 1, Length := ⊤ }
      else { Id := k, Edges := [], DGS := ((2 : ℤ) : Score ℤ), Index := 0, Length := ⊤ }
    vh := [30, 20] }

/-- Scenario S7 of the specification: lines `1 2,1 3,1`, `2 4,1`, `3 4,1`, `4`. -/
def scenarioS7 : State ℤ :=
  { keys := [1, 2, 3, 4]
    mem := fun k =>
      if k = 1 then loaderVertex 1 [(2, 1), (3, 1)]
      else if k = 2 then loaderVertex 2 [(4, 1)]
      else if k = 3 then loaderVertex 3 [(4, 1)]
      else loaderVertex k []
    vh := [] }

/-- Scenario S7 with the lines in another order and the edges of vertex 1 exchanged. -/
def scenarioS7shuffled : State ℤ :=
  { keys := [4, 3, 2, 1]
    mem := fun k =>
      if k = 1 then loaderVertex 1 [(3, 1), (2, 1)]
      else if k = 2 then loaderVertex 2 [(4, 1)]
      else if k = 3 then loaderVertex 3 [(4, 1)]
      else loaderVertex k []
    vh := [] }

/-! ### The search with a record of its writes

`dijkstraEvents` is `dijkstra` with one more output: the list, in order, of the calls of
`update` and of the assignments to a `Length` field, each with the `Index` that the vertex
concerned has at that moment.  The record does not influence the run
(`dijkstraEvents_fst`). -/

/-- An event of the run: `update v i` is a call `vh.update(v, _)` made while `v.Index = i`;
`setLength v i x` is an assignment `v.Length = x` made while `v.Index = i`. -/
inductive Event (R : Type) where
  | update (v : Int) (index : Int) : Event R
  | setLength (v : Int) (index : Int) (x : Score R) : Event R

/-- The pass `relax` of the inner loop, recording the call of `update`. -/
def relaxE (workingVertex : Int) (acc : State R × List (Event R)) (tuple : NodeTuple R) :
    Option (State R × List (Event R)) := do
  let v := tuple.HeadVertex
  let w ← acc.1.VertexMap workingVertex
  let test_DGS := w.Length + tuple.Distance
  let r ← acc.1.VertexMap v
  if r.DGS > test_DGS then do
    let st1 ← VertexHeap.update acc.1 v test_DGS
    pure (st1, acc.2 ++ [Event.update v r.Index])
  else pure acc

/-- The outer loop of `dijkstra`, recording the events. -/
def dijkstraLoopE : Nat → State R → Int → List (Event R) → Option (State R × List (Event R))
  | 0, st, _, ev => if VertexHeap.Len st > 0 then none else some (st, ev)
  | fuel + 1, st, workingVertex, ev =>
    if VertexHeap.Len st > 0 then do
      let w ← st.VertexMap workingVertex
      let (st1, ev1) ← w.Edges.foldlM (relaxE workingVertex) (st, ev)
      let (st2, u) ← heap.Pop st1
      let r ← st2.VertexMap u
      let st3 := st2.store u { r with Length := r.DGS }
      dijkstraLoopE fuel st3 u (ev1 ++ [Event.setLength u r.Index r.DGS])
    else some (st, ev)

/-- Function `dijkstra`, recording the events. -/
def dijkstraEvents (st : State R) (id : Int) : Option (State R × List (Event R)) := do
  let workingVertex := id
  let r ← st.VertexMap workingVertex
  let st1 := st.store workingVertex { r with DGS := 0 }
  let r1 ← st1.VertexMap workingVertex
  let st2 := st1.store workingVertex { r1 with Length := 0 }
  let r2 ← st2.VertexMap workingVertex
  let st3 ← VertexHeap.update st2 workingVertex r2.DGS
  dijkstraLoopE st3.vh.length st3 workingVertex
    [Event.setLength workingVertex r1.Index 0, Event.update workingVertex r2.Index]

/-- The assignments to `Length` among the events: vertex and its `Index` at that moment. -/
def lengthWrites : List (Event R) → List (Int × Int)
  | [] => []
  | Event.update _ _ :: rest => lengthWrites rest
  | Event.setLength v i _ :: rest => (v, i) :: lengthWrites rest

/-- The calls of `update` among the events: vertex and its `Index` at that moment. -/
def updateCalls : List (Event R) → List (Int × Int)
  | [] => []
  | Event.update v i :: rest => (v, i) :: updateCalls rest
  | Event.setLength _ _ _ :: rest => updateCalls rest

/-- The events of one relaxation pass over the edges of `w` from the state `st`: each is a
call of `update` on the head of an edge of `w` whose candidate score is below the head's
score at the start of the pass, with `Index = -1` exactly when the head is out of the
heap. -/
def UpdEvents (st : State R) (w : Int) (upd : List (Event R)) : Prop :=
  ∀ x ∈ upd, ∃ e ∈ (st.mem w).Edges, ∃ i : Int, x = Event.update e.HeadVertex i ∧
    (st.mem w).Length + e.Distance < (st.mem e.HeadVertex).DGS ∧
    (e.HeadVertex ∈ st.vh → i ≠ -1) ∧ (e.HeadVertex ∉ st.vh → i = -1)

/-- Scenario S5 of the specification: lines `1 2,1`, `2 3,1`, `3 1,1`. -/
def scenarioS5 : State ℤ :=
  { keys := [1, 2, 3]
    mem := fun k =>
      if k = 1 then loaderVertex 1 [(2, 1)]
      else if k = 2 then loaderVertex 2 [(3, 1)]
      else if k = 3 then loaderVertex 3 [(1, 1)]
      else loaderVertex k []
    vh := [] }

/-- The lines of `dijkstra` before its loop: `workingVertex := VertexMap[id]`, the two
assignments `DGS = 0` and `Length = 0`, and the call `vh.update(workingVertex, 0)`. -/
def dijkstraInit (st : State R) (id : Int) : Option (State R) := do
  let workingVertex := id
  let r ← st.VertexMap workingVertex
  let st1 := st.store workingVertex { r with DGS := 0 }
  let r1 ← st1.VertexMap workingVertex
  let st2 := st1.store workingVertex { r1 with Length := 0 }
  let r2 ← st2.VertexMap workingVertex
  VertexHeap.update st2 workingVertex r2.DGS

/-- Scenario S6 of the specification: lines `1 2,0 3,0`, `2 3,0`, `3`. -/
def scenarioS6 : State ℤ :=
  { keys := [1, 2, 3]
    mem := fun k =>
      if k = 1 then loaderVertex 1 [(2, 0), (3, 0)]
      else if k = 2 then loaderVertex 2 [(3, 0)]
      else loaderVertex k []
    vh := [] }

/-! ### The reference driver of the specification

The driver that section 4.C of the specification describes, on the same heap operations:
extract the minimum, set its length, then relax its edges, updating a neighbour only when it
is still in the heap and the candidate is strictly smaller than its score. -/

/-- Reference driver, step 2b for one edge `(u → v, w)`: `candidate = u.length + w`; if
`v.position ≠ sentinel` and `candidate < v.score` then `decrease_key(v, candidate)`. -/
def referenceRelax (u : Int) (st : State R) (e : NodeTuple R) : Option (State R) := do
  let ur ← st.VertexMap u
  let candidate := ur.Length + e.Distance
  let vr ← st.VertexMap e.HeadVertex
  if vr.Index ≠ -1 ∧ candidate < vr.DGS then VertexHeap.update st e.HeadVertex candidate
  else pure st

/-- Reference driver, step 2, on `fuel` iterations: until the heap is empty, extract the
minimum vertex `u`, set `u.length = u.score`, and relax the outgoing edges of `u`. -/
def referenceLoop : Nat → State R → Option (State R)
  | 0, st => if VertexHeap.Len st > 0 then none else some st
  | fuel + 1, st =>
    if VertexHeap.Len st > 0 then do
      let (st1, u) ← heap.Pop st
      let r ← st1.VertexMap u
      let st2 := st1.store u { r with Length := r.DGS }
      let st3 ← r.Edges.foldlM (referenceRelax u) st2
      referenceLoop fuel st3
    else some st

/-- Reference driver, step 1 in its second form (the heap is built with every score at `+∞`,
then `decrease_key(s, 0)`), followed by step 2. -/
def referenceDijkstra (st : State R) (s : Int) : Option (State R) := do
  let st1 ← VertexHeap.update st s 0
  referenceLoop st1.vh.length st1

/-- The state after `makeVertexHeap` and the reference driver. -/
def referenceRun (order : List Int) (st : State R) (s : Int) : Option (State R) :=
  (makeVertexHeap order st).bind fun st1 => referenceDijkstra st1 s

/-- The invariant of the reference driver at the top of its loop. -/
structure RInv (st0 : State R) (s : Int) (st : State R) : Prop where
  keys_eq : st.keys = st0.keys
  edges_eq : ∀ p, (st.mem p).Edges = (st0.mem p).Edges
  s_mem : s ∈ st.keys
  nonneg : ∀ v ∈ st.keys, 0 ≤ (st.mem v).DGS
  src : (st.mem s).DGS = 0
  len_eq : ∀ u ∈ st.keys, u ∉ st.vh → (st.mem u).Length = (st.mem u).DGS
  relaxed : ∀ u ∈ st.keys, u ∉ st.vh → ∀ e ∈ (st.mem u).Edges,
    (st.mem e.HeadVertex).DGS ≤ (st.mem u).Length + e.Distance
  settled_le : ∀ u ∈ st.keys, u ∉ st.vh → ∀ v ∈ st.vh, (st.mem u).DGS ≤ (st.mem v).DGS
  reach : ∀ v ∈ st.keys, (st.mem v).DGS ≠ ⊤ → Walk st0 s v (st.mem v).DGS

/-! ### The search in `float64` arithmetic

The program has one arithmetic operation, the sum `workingVertex.Length + tuple.Distance`
in the inner loop of `dijkstra`.  In Go this is a `float64` addition: when one operand is
`+∞` the sum is `+∞`; otherwise it is the exact sum rounded to the nearest `float64`, ties
going to the even significand, and `+∞` when the rounded value leaves the finite range.
The definitions `relax`, `dijkstraLoop`, `dijkstra` and `run` above form the sum exactly.
The definitions of this section are the same functions with the sum formed by `addFloat`,
which passes the exact sum through a rounding function `rnd`; `round64` is the rounding of
`float64` on whole numbers, so that with `rnd = round64` the functions are the program on a
graph whose weights are whole numbers. -/

/-- The number of low-order bits that `n` has beyond 53 bits: the largest `k` below `1024`
with `2^(52+k) ≤ n`, and `0` when there is none.  It is found by bisection: `k` goes up by
`512`, `256`, ..., `1` in turn, each time the bound still holds. -/
def excessBits (n : Nat) : Nat :=
  [512, 256, 128, 64, 32, 16, 8, 4, 2, 1].foldl
    (fun k j => if 2 ^ (52 + k + j) ≤ n then k + j else k) 0

/-- The `float64` nearest to the natural number `n`.  A `float64` has a significand of 53
bits: the `k` low-order bits that `n` has beyond 53 are dropped, and the significand `q` that
is left goes up by one when the dropped part `r` is more than half of `2^k`, or is exactly
half and `q` is odd.  The result is `+∞` when the rounded value reaches `2^1024`. -/
def roundNat64 (n : Nat) : Score ℤ :=
  let k := excessBits n
  let q := n / 2 ^ k
  let r := n % 2 ^ k
  let m := if 2 ^ k < 2 * r ∨ (2 * r = 2 ^ k ∧ q % 2 = 1) then q + 1 else q
  if 2 ^ 1024 ≤ m * 2 ^ k then ⊤ else (((m * 2 ^ k : Nat) : ℤ) : Score ℤ)

/-- The `float64` nearest to the whole number `x`; rounding is symmetric about `0`.  Below
the finite range Go gives `-∞`, which a `Score` does not hold: the smallest finite `float64`
stands in its place there (no sum is negative when the weights are not). -/
def round64 (x : ℤ) : Score ℤ :=
  if 0 ≤ x then roundNat64 x.toNat
  else
    match roundNat64 (-x).toNat with
    | some y => ((-y : ℤ) : Score ℤ)
    | none => ((-((2 ^ 1024 - 2 ^ 971 : ℕ) : ℤ) : ℤ) : Score ℤ)

/-- The `float64` sum of two scores: `+∞` when one of them is `+∞`, and the exact sum rounded
by `rnd` otherwise. -/
def addFloat (rnd : R → Score R) (a b : Score R) : Score R :=
  match a, b with
  | some x, some y => rnd (x + y)
  | _, _ => ⊤

/-- One pass of the inner loop of `dijkstra`, with the sum formed in `float64`. -/
def relaxFloat (rnd : R → Score R) (workingVertex : Int) (st : State R)
    (tuple : NodeTuple R) : Option (State R) := do
  let v := tuple.HeadVertex
  let w ← st.VertexMap workingVertex
  let test_DGS := addFloat rnd w.Length tuple.Distance
  let r ← st.VertexMap v
  if r.DGS > test_DGS then VertexHeap.update st v test_DGS else pure st

/-- The outer loop of `dijkstra`, on `fuel` iterations, with the sums formed in `float64`. -/
def dijkstraLoopFloat (rnd : R → Score R) : Nat → State R → Int → Option (State R)
  | 0, st, _ => if VertexHeap.Len st > 0 then none else some st
  | fuel + 1, st, workingVertex =>
    if VertexHeap.Len st > 0 then do
      let w ← st.VertexMap workingVertex
      let st1 ← w.Edges.foldlM (relaxFloat rnd workingVertex) st
      let (st2, u) ← heap.Pop st1
      let r ← st2.VertexMap u
      let st3 := st2.store u { r with Length := r.DGS }
      dijkstraLoopFloat rnd fuel st3 u
    else some st

/-- Function `dijkstra`, with the sums formed in `float64`. -/
def dijkstraFloat (rnd : R → Score R) (st : State R) (id : Int) : Option (State R) := do
  let workingVertex := id
  let r ← st.VertexMap workingVertex
  let st1 := st.store workingVertex { r with DGS := 0 }
  let r1 ← st1.VertexMap workingVertex
  let st2 := st1.store workingVertex { r1 with Length := 0 }
  let r2 ← st2.VertexMap workingVertex
  let st3 ← VertexHeap.update st2 workingVertex r2.DGS
  dijkstraLoopFloat rnd st3.vh.length st3 workingVertex

/-- The state after `makeVertexHeap` and `dijkstra(id)`, with the sums formed in `float64`. -/
def runFloat (rnd : R → Score R) (order : List Int) (st : State R) (id : Int) :
    Option (State R) :=
  (makeVertexHeap order st).bind fun st1 => dijkstraFloat rnd st1 id

/-- The graph of the lines `1 2,1e16`, `2 3,1`: the path from 1 to 3 weighs `10^16 + 1`, which
is not a `float64`. -/
def roundingGraph : State ℤ :=
  { keys := [1, 2, 3]
    mem := fun k =>
      if k = 1 then loaderVertex 1 [(2, 10 ^ 16)]
      else if k = 2 then loaderVertex 2 [(3, 1)]
      else loaderVertex k []
    vh := [] }

/-- The graph of the lines `1 2,0x1p1023`, `2 3,0x1p1023`: both weights are the finite
`float64` `2^1023`, and their sum `2^1024` is beyond the finite range. -/
def overflowGraph : State ℤ :=
  { keys := [1, 2, 3]
    mem := fun k =>
      if k = 1 then loaderVertex 1 [(2, ((2 ^ 1023 : ℕ) : ℤ))]
      else if k = 2 then loaderVertex 2 [(3, ((2 ^ 1023 : ℕ) : ℤ))]
      else loaderVertex k []
    vh := [] }


/-- One pass of the outer loop of `dijkstra` in `float64` arithmetic, as a relation between
the state `st` at the top of the loop (working vertex `w`) and the state `st3` at the end of
the pass (`u` is the vertex extracted): `Iter` with the sums formed by `addFloat`. -/
def IterFloat (rnd : R → Score R) (st : State R) (w : Int) (st3 : State R) (u : Int) : Prop :=
  ∃ st1 : State R,
    DataFrame st st1 ∧
    (∀ p, (st1.mem p).DGS ≤ (st.mem p).DGS) ∧
    (∀ e ∈ (st.mem w).Edges,
      (st1.mem e.HeadVertex).DGS ≤ addFloat rnd (st.mem w).Length e.Distance) ∧
    (∀ p, (st1.mem p).DGS = (st.mem p).DGS ∨ ∃ e ∈ (st.mem w).Edges, e.HeadVertex = p ∧
      (st1.mem p).DGS = addFloat rnd (st.mem w).Length e.Distance ∧
      addFloat rnd (st.mem w).Length e.Distance < (st.mem p).DGS) ∧
    u ∈ st1.vh ∧ u ∈ st.keys ∧ (∀ p ∈ st1.vh, (st1.mem u).DGS ≤ (st1.mem p).DGS) ∧
    st3.keys = st.keys ∧ st3.vh.length + 1 = st1.vh.length ∧
    (∀ p, p ∈ st3.vh ↔ p ∈ st1.vh ∧ p ≠ u) ∧
    (∀ p, (st3.mem p).Id = (st1.mem p).Id ∧ (st3.mem p).Edges = (st1.mem p).Edges ∧
      (st3.mem p).DGS = (st1.mem p).DGS) ∧
    (∀ p, p ≠ u → (st3.mem p).Length = (st1.mem p).Length) ∧
    (st3.mem u).Length = (st1.mem u).DGS ∧ (st3.mem u).Index = -1

/-- An invariant of the outer loop of `dijkstra(s)` in `float64` arithmetic, at the top of
the loop, `w` being the working vertex and `st0` a state with the graph the search started
from.  It speaks of which scores and lengths are finite, not of their values. -/
structure FInv (rnd : R → Score R) (st0 : State R) (s : Int) (st : State R) (w : Int) :
    Prop where
  keys_eq : st.keys = st0.keys
  edges_eq : ∀ p, (st.mem p).Edges = (st0.mem p).Edges
  s_mem : s ∈ st.keys
  w_done : Done st s w
  dgs_nonneg : ∀ p ∈ st.keys, 0 ≤ (st.mem p).DGS
  len_nonneg : ∀ u ∈ st.keys, Done st s u → 0 ≤ (st.mem u).Length
  src_dgs : (st.mem s).DGS = 0
  src_len : (st.mem s).Length = 0
  reach_dgs : ∀ v ∈ st.keys, (st.mem v).DGS ≠ ⊤ → ∃ y, Walk st0 s v y
  reach_len : ∀ u ∈ st.keys, Done st s u → (st.mem u).Length ≠ ⊤ → ∃ y, Walk st0 s u y
  fin_relaxed : ∀ u ∈ st.keys, Done st s u → u ≠ w → ∀ e ∈ (st.mem u).Edges,
    addFloat rnd (st.mem u).Length e.Distance ≠ ⊤ → (st.mem e.HeadVertex).DGS ≠ ⊤
  top_heap : (st.mem w).Length = ⊤ → ∀ p ∈ st.vh, (st.mem p).DGS = ⊤
  top_all : ∀ u ∈ st.keys, Done st s u → (st.mem u).Length = ⊤ → (st.mem w).Length = ⊤
  len_top : ∀ u ∈ st.keys, Done st s u → (st.mem u).Length = ⊤ → (st.mem u).DGS = ⊤


/-! ## Theorems -/

/-! ### Reading and writing the state -/

theorem VertexMap_of_mem (st : State R) {p : Int} (h : p ∈ st.keys) :
    st.VertexMap p = some (st.mem p) := by
  simp [State.VertexMap, h]

theorem VertexMap_eq_some (st : State R) {p : Int} {r : Vertex R}
    (h : st.VertexMap p = some r) : p ∈ st.keys ∧ r = st.mem p := by
  unfold State.VertexMap at h
  split at h
  · rename_i hk
    exact ⟨hk, by simpa using h.symm⟩
  · simp at h

theorem vhAt_natCast (st : State R) (i : Nat) (h : i < st.vh.length) :
    st.vhAt (i : Int) = some (st.ptr i) := by
  simp [State.vhAt, State.ptr, List.getD, h]

theorem vhAt_of_eq (st : State R) (i : Int) (a : Nat) (hi : i = a) (h : a < st.vh.length) :
    st.vhAt i = some (st.ptr a) := by
  subst hi; exact vhAt_natCast st a h

theorem vhAt_neg (st : State R) (i : Int) (h : i < 0) : st.vhAt i = none := by
  simp [State.vhAt, h]

theorem ptr_mem (st : State R) (i : Nat) (h : i < st.vh.length) : st.ptr i ∈ st.vh := by
  simp only [State.ptr, List.getD_eq_getElem?_getD, List.getElem?_eq_getElem h, Option.getD_some]
  exact List.getElem_mem h

theorem exists_ptr_of_mem (st : State R) {p : Int} (h : p ∈ st.vh) :
    ∃ i, i < st.vh.length ∧ st.ptr i = p := by
  obtain ⟨i, hi, rfl⟩ := List.getElem_of_mem h
  exact ⟨i, hi, by simp [State.ptr, List.getD, hi]⟩

theorem ptr_inj (st : State R) (hpos : PosConsistent st) {a b : Nat} (ha : a < st.vh.length)
    (hb : b < st.vh.length) (h : st.ptr a = st.ptr b) : a = b := by
  have h1 := (hpos a ha).2
  have h2 := (hpos b hb).2
  rw [h] at h1
  have : (a : Int) = b := h1.symm.trans h2
  exact_mod_cast this

theorem Less_spec (st : State R) (hpos : PosConsistent st) (i j : Int) (a b : Nat)
    (hi : i = a) (hj : j = b) (ha : a < st.vh.length) (hb : b < st.vh.length) :
    VertexHeap.Less st i j = some (decide (st.key a < st.key b)) := by
  simp [VertexHeap.Less, vhAt_of_eq st i a hi ha, vhAt_of_eq st j b hj hb,
    VertexMap_of_mem st (hpos a ha).1, VertexMap_of_mem st (hpos b hb).1, State.key]

theorem Swap_eq (st : State R) (hpos : PosConsistent st) (i j : Int) (a b : Nat)
    (hi : i = a) (hj : j = b) (ha : a < st.vh.length) (hb : b < st.vh.length) :
    VertexHeap.Swap st i j = some
      { keys := st.keys
        mem := Function.update
          (Function.update st.mem (st.ptr b) { (st.mem (st.ptr b)) with Index := a })
          (st.ptr a)
          { (Function.update st.mem (st.ptr b) { (st.mem (st.ptr b)) with Index := a } (st.ptr a))
              with Index := b }
        vh := (st.vh.set a (st.ptr b)).set b (st.ptr a) } := by
  subst hi hj
  have h1 : State.vhAt (⟨st.keys, st.mem, (st.vh.set a (st.ptr b)).set b (st.ptr a)⟩ : State R)
      (a : Int) = some (st.ptr b) := by
    by_cases hab : a = b
    · subst hab
      simp [State.vhAt, ha]
    · simp [State.vhAt, ha, List.getElem?_set, hab, Ne.symm hab]
  have h2 : ∀ m, State.vhAt (⟨st.keys, m, (st.vh.set a (st.ptr b)).set b (st.ptr a)⟩ : State R)
      (b : Int) = some (st.ptr a) := by
    intro m
    simp [State.vhAt, hb]
  simp only [VertexHeap.Swap, vhAt_natCast st a ha, vhAt_natCast st b hb, Option.bind_eq_bind,
    Option.some_bind, Int.toNat_ofNat, h1, State.store, h2, Option.pure_def]
  simp [State.VertexMap, (hpos a ha).1, (hpos b hb).1]

theorem mem_vh_iff (st : State R) (p : Int) :
    p ∈ st.vh ↔ ∃ i, i < st.vh.length ∧ st.ptr i = p :=
  ⟨exists_ptr_of_mem st, fun ⟨i, hi, h⟩ => h ▸ ptr_mem st i hi⟩

theorem sameData_refl (r : Vertex R) : SameData r r := ⟨rfl, rfl, rfl, rfl⟩

theorem sameData_trans {r1 r2 r3 : Vertex R} (h12 : SameData r1 r2) (h23 : SameData r2 r3) :
    SameData r1 r3 :=
  ⟨h23.1.trans h12.1, h23.2.1.trans h12.2.1, h23.2.2.1.trans h12.2.2.1,
    h23.2.2.2.trans h12.2.2.2⟩

theorem frame_refl (st : State R) : Frame st st :=
  ⟨rfl, rfl, fun _ => Iff.rfl, fun _ _ => rfl, fun _ => sameData_refl _⟩

theorem frame_trans {s1 s2 s3 : State R} (h12 : Frame s1 s2) (h23 : Frame s2 s3) :
    Frame s1 s3 := by
  obtain ⟨k1, l1, m1, o1, d1⟩ := h12
  obtain ⟨k2, l2, m2, o2, d2⟩ := h23
  refine ⟨k2.trans k1, l2.trans l1, fun p => (m2 p).trans (m1 p), fun p hp => ?_,
    fun p => sameData_trans (d1 p) (d2 p)⟩
  rw [o2 p (fun h => hp ((m1 p).1 h)), o1 p hp]

theorem frame_key_eq {st st' : State R} (h : Frame st st') (k k' : Nat)
    (hp : st'.ptr k = st.ptr k') : st'.key k = st.key k' := by
  unfold State.key
  rw [hp]
  exact (h.2.2.2.2 _).2.2.1

theorem swapMem_index (mem : Int → Vertex R) (pa pb : Int) (a b : Int) :
    (∀ p, SameData (mem p) (Function.update (Function.update mem pb { (mem pb) with Index := a })
      pa { (Function.update mem pb { (mem pb) with Index := a } pa) with Index := b } p)) ∧
    (Function.update (Function.update mem pb { (mem pb) with Index := a })
      pa { (Function.update mem pb { (mem pb) with Index := a } pa) with Index := b } pa).Index
      = b ∧
    (pb ≠ pa → (Function.update (Function.update mem pb { (mem pb) with Index := a })
      pa { (Function.update mem pb { (mem pb) with Index := a } pa) with Index := b } pb).Index
      = a) ∧
    (∀ p, p ≠ pa → p ≠ pb → Function.update (Function.update mem pb { (mem pb) with Index := a })
      pa { (Function.update mem pb { (mem pb) with Index := a } pa) with Index := b } p
      = mem p) := by
  refine ⟨fun p => ?_, ?_, fun h => ?_, fun p h1 h2 => ?_⟩
  · by_cases h1 : p = pa
    · subst h1
      rw [Function.update_same]
      by_cases h2 : p = pb
      · subst h2
        rw [Function.update_same]
        exact ⟨rfl, rfl, rfl, rfl⟩
      · rw [Function.update_noteq h2]
        exact ⟨rfl, rfl, rfl, rfl⟩
    · rw [Function.update_noteq h1]
      by_cases h2 : p = pb
      · subst h2
        rw [Function.update_same]
        exact ⟨rfl, rfl, rfl, rfl⟩
      · rw [Function.update_noteq h2]
        exact ⟨rfl, rfl, rfl, rfl⟩
  · rw [Function.update_same]
  · rw [Function.update_noteq h, Function.update_same]
  · rw [Function.update_noteq h1, Function.update_noteq h2]

theorem Swap_spec (st : State R) (hpos : PosConsistent st) (i j : Int) (a b : Nat)
    (hi : i = a) (hj : j = b) (ha : a < st.vh.length) (hb : b < st.vh.length) :
    ∃ st', VertexHeap.Swap st i j = some st' ∧ PosConsistent st' ∧ Frame st st' ∧
      (∀ k, st'.ptr k = if k = a then st.ptr b else if k = b then st.ptr a else st.ptr k) := by
  refine ⟨_, Swap_eq st hpos i j a b hi hj ha hb, ?_⟩
  obtain ⟨hsd, hia, hib, hother⟩ := swapMem_index st.mem (st.ptr a) (st.ptr b) a b
  generalize Function.update (Function.update st.mem (st.ptr b)
    { (st.mem (st.ptr b)) with Index := a }) (st.ptr a)
    { (Function.update st.mem (st.ptr b) { (st.mem (st.ptr b)) with Index := a } (st.ptr a))
        with Index := b } = m2 at hsd hia hib hother ⊢
  have hptr : ∀ k, State.ptr (⟨st.keys, m2, (st.vh.set a (st.ptr b)).set b (st.ptr a)⟩ : State R)
      k = if k = a then st.ptr b else if k = b then st.ptr a else st.ptr k := by
    intro k
    by_cases hka : k = a
    · subst hka
      by_cases hkb : k = b
      · subst hkb; simp [State.ptr, List.getElem?_set, ha]
      · simp [State.ptr, List.getElem?_set, ha, hkb, Ne.symm hkb]
    · by_cases hkb : k = b
      · subst hkb; simp [State.ptr, List.getElem?_set, hb, hka]
      · simp [State.ptr, List.getElem?_set, hka, hkb, Ne.symm hka, Ne.symm hkb]
  have hlen : ((st.vh.set a (st.ptr b)).set b (st.ptr a)).length = st.vh.length := by simp
  refine ⟨?_, ⟨rfl, hlen, ?_, ?_, hsd⟩, hptr⟩
  · intro k hk
    have hk' : k < st.vh.length := hlen ▸ hk
    rw [hptr k]
    show _ ∈ st.keys ∧ (m2 _).Index = _
    by_cases hka : k = a
    · subst hka
      rw [if_pos rfl]
      refine ⟨(hpos b hb).1, ?_⟩
      by_cases hkb : k = b
      · subst hkb; exact hia
      · exact hib (fun h => hkb (ptr_inj st hpos hb ha h).symm)
    · rw [if_neg hka]
      by_cases hkb : k = b
      · subst hkb
        rw [if_pos rfl]
        exact ⟨(hpos a ha).1, hia⟩
      · rw [if_neg hkb]
        refine ⟨(hpos k hk').1, ?_⟩
        rw [hother _ (fun h => hka (ptr_inj st hpos hk' ha h))
          (fun h => hkb (ptr_inj st hpos hk' hb h))]
        exact (hpos k hk').2
  · intro p
    rw [mem_vh_iff, mem_vh_iff]
    show (∃ k, k < ((st.vh.set a (st.ptr b)).set b (st.ptr a)).length ∧ _) ↔ _
    rw [hlen]
    constructor
    · rintro ⟨k, hk, rfl⟩
      rw [hptr k]
      split_ifs
      · exact ⟨b, hb, rfl⟩
      · exact ⟨a, ha, rfl⟩
      · exact ⟨k, hk, rfl⟩
    · rintro ⟨k, hk, rfl⟩
      by_cases hka : k = a
      · subst hka
        refine ⟨b, hb, ?_⟩
        rw [hptr b]
        by_cases h : b = k
        · rw [if_pos h, h]
        · rw [if_neg h, if_pos rfl]
      · by_cases hkb : k = b
        · subst hkb
          exact ⟨a, ha, by rw [hptr a, if_pos rfl]⟩
        · exact ⟨k, hk, by rw [hptr k, if_neg hka, if_neg hkb]⟩
  · intro p hp
    exact hother p (fun h => hp (h ▸ ptr_mem st a ha)) (fun h => hp (h ▸ ptr_mem st b hb))

theorem Swap_key {st st' : State R} {a b : Nat} (hf : Frame st st')
    (hp : ∀ k, st'.ptr k = if k = a then st.ptr b else if k = b then st.ptr a else st.ptr k) :
    ∀ k, st'.key k = swapKey st.key a b k := by
  intro k
  unfold swapKey
  split_ifs with h1 h2
  · exact frame_key_eq hf k b (by rw [hp k, if_pos h1])
  · exact frame_key_eq hf k a (by rw [hp k, if_neg h1, if_pos h2])
  · exact frame_key_eq hf k k (by rw [hp k, if_neg h1, if_neg h2])

/-! ### Heap order: the pure steps of `down` and `up` -/

theorem heapExcept_done (key : Nat → Score R) (lo n i : Nat) (hex : HeapExcept key lo n i)
    (hch : ∀ c, c < n → 0 < c → (c - 1) / 2 = i → key i ≤ key c) : HeapFrom key lo n := by
  intro c hc h0 hlo
  by_cases hp : (c - 1) / 2 = i
  · rw [hp]; exact hch c hc h0 hp
  · exact hex.1 c hc h0 hlo hp

theorem heapExcept_swap (key : Nat → Score R) (lo n i j : Nat) (hlo : lo ≤ i) (hj : j < n)
    (hj0 : 0 < j) (hji : (j - 1) / 2 = i) (hlt : key j < key i)
    (hmin : ∀ c, c < n → 0 < c → (c - 1) / 2 = i → key j ≤ key c)
    (hex : HeapExcept key lo n i) : HeapExcept (swapKey key i j) lo n j := by
  have hij : i < j := by omega
  constructor
  · intro c hc h0 hl hp
    by_cases hcj : c = j
    · subst hcj
      rw [hji]
      simp only [swapKey, if_true]
      rw [if_neg (by omega)]
      exact hlt.le
    · by_cases hci : c = i
      · subst hci
        have hpi : (c - 1) / 2 ≠ c := by omega
        simp only [swapKey, if_true]
        rw [if_neg hpi, if_neg hp]
        exact hex.2 h0 hl j hj hj0 hji
      · by_cases hpi : (c - 1) / 2 = i
        · simp only [swapKey]
          rw [if_pos hpi, if_neg hci, if_neg hcj]
          exact hmin c hc h0 hpi
        · simp only [swapKey]
          rw [if_neg hpi, if_neg hp, if_neg hci, if_neg hcj]
          exact hex.1 c hc h0 hl hpi
  · intro _ _ c hc h0 hp
    rw [hji]
    have hci : c ≠ i := by omega
    have hcj : c ≠ j := by omega
    simp only [swapKey, if_true]
    rw [if_neg hci, if_neg hcj]
    have := hex.1 c hc h0 (by omega) (by omega)
    rwa [hp] at this

theorem upExcept_done (key : Nat → Score R) (n j : Nat) (h : UpExcept key n j)
    (hle : 0 < j → key ((j - 1) / 2) ≤ key j) : HeapFrom key 0 n := by
  intro c hc h0 _
  by_cases hcj : c = j
  · subst hcj; exact hle h0
  · exact h.1 c hc h0 hcj

theorem upExcept_swap (key : Nat → Score R) (n j : Nat) (hj0 : 0 < j) (hj : j < n)
    (hlt : key j < key ((j - 1) / 2)) (h : UpExcept key n j) :
    UpExcept (swapKey key ((j - 1) / 2) j) n ((j - 1) / 2) := by
  have hij : (j - 1) / 2 < j := by omega
  constructor
  · intro c hc h0 hci
    by_cases hcj : c = j
    · subst hcj
      simp only [swapKey, if_true]
      rw [if_neg (by omega)]
      exact hlt.le
    · by_cases hpi : (c - 1) / 2 = (j - 1) / 2
      · simp only [swapKey]
        rw [if_pos hpi, if_neg hci, if_neg hcj]
        have := h.1 c hc h0 hcj
        rw [hpi] at this
        exact hlt.le.trans this
      · by_cases hpj : (c - 1) / 2 = j
        · simp only [swapKey]
          rw [if_neg hpi, if_pos hpj, if_neg hci, if_neg hcj]
          exact h.2 hj0 c hc h0 hpj
        · simp only [swapKey]
          rw [if_neg hpi, if_neg hpj, if_neg hci, if_neg hcj]
          exact h.1 c hc h0 hcj
  · intro hi0 c hc h0 hp
    have hg1 : ((j - 1) / 2 - 1) / 2 ≠ (j - 1) / 2 := by omega
    have hg2 : ((j - 1) / 2 - 1) / 2 ≠ j := by omega
    have hci : c ≠ (j - 1) / 2 := by omega
    have hgi := h.1 ((j - 1) / 2) (by omega) hi0 (by omega)
    simp only [swapKey]
    rw [if_neg hg1, if_neg hg2, if_neg hci]
    by_cases hcj : c = j
    · rw [if_pos hcj]; exact hgi
    · rw [if_neg hcj]
      have := h.1 c hc h0 hcj
      rw [hp] at this
      exact hgi.trans this

theorem heapFrom_congr {key key' : Nat → Score R} (h : ∀ k, key' k = key k) (lo n : Nat)
    (hf : HeapFrom key lo n) : HeapFrom key' lo n := by
  intro c hc h0 hl
  rw [h, h]; exact hf c hc h0 hl

theorem heapExcept_congr {key key' : Nat → Score R} (h : ∀ k, key' k = key k) (lo n i : Nat)
    (hf : HeapExcept key lo n i) : HeapExcept key' lo n i := by
  constructor
  · intro c hc h0 hl hp
    rw [h, h]; exact hf.1 c hc h0 hl hp
  · intro hi hl c hc h0 hp
    rw [h, h]; exact hf.2 hi hl c hc h0 hp

theorem upExcept_congr {key key' : Nat → Score R} (h : ∀ k, key' k = key k) (n j : Nat)
    (hf : UpExcept key n j) : UpExcept key' n j := by
  constructor
  · intro c hc h0 hp
    rw [h, h]; exact hf.1 c hc h0 hp
  · intro hi c hc h0 hp
    rw [h, h]; exact hf.2 hi c hc h0 hp

/-! ### `down` -/

theorem downLoop_spec : ∀ (fuel : Nat) (st : State R) (i n lo : Nat), PosConsistent st →
    n ≤ st.vh.length → n - i < fuel → lo ≤ i → HeapExcept st.key lo n i →
    ∃ (st' : State R) (i' : Nat), heap.downLoop fuel st (i : Int) (n : Int) = some (st', (i' : Int)) ∧
      PosConsistent st' ∧ Frame st st' ∧ HeapFrom st'.key lo n ∧
      (∀ k, (k < i ∨ n ≤ k) → st'.ptr k = st.ptr k) ∧ i ≤ i' := by
  intro fuel
  induction fuel with
  | zero => intro st i n lo _ _ hf; omega
  | succ fuel ih =>
    intro st i n lo hpos hn hfuel hlo hex
    simp only [heap.downLoop]
    by_cases h1 : n ≤ 2 * i + 1
    · have hc : (2 * (i : Int) + 1 ≥ n ∨ 2 * (i : Int) + 1 < 0) := Or.inl (by omega)
      rw [if_pos hc]
      refine ⟨st, i, rfl, hpos, frame_refl _, ?_, fun _ _ => rfl, le_refl _⟩
      exact heapExcept_done _ lo n i hex (fun c hc h0 hp => by omega)
    · have hc : ¬ (2 * (i : Int) + 1 ≥ n ∨ 2 * (i : Int) + 1 < 0) := by omega
      rw [if_neg hc]
      have hj1 : 2 * i + 1 < st.vh.length := by omega
      have hi : i < st.vh.length := by omega
      -- the smaller child
      obtain ⟨j, hjn, hjp, hj0, hright, hmin⟩ : ∃ j : Nat, j < n ∧ (j - 1) / 2 = i ∧ 0 < j ∧
          ((if 2 * (i : Int) + 1 + 1 < n then VertexHeap.Less st (2 * (i : Int) + 1 + 1)
              (2 * (i : Int) + 1) else pure false) =
            some (decide ((j : Int) = 2 * (i : Int) + 1 + 1))) ∧
          (∀ c, c < n → 0 < c → (c - 1) / 2 = i → st.key j ≤ st.key c) := by
        by_cases h2 : 2 * i + 2 < n
        · have hc2 : 2 * (i : Int) + 1 + 1 < n := by omega
          rw [if_pos hc2, Less_spec st hpos _ _ (2 * i + 2) (2 * i + 1) (by push_cast; ring)
            (by push_cast; ring) (by omega) hj1]
          by_cases hlt : st.key (2 * i + 2) < st.key (2 * i + 1)
          · refine ⟨2 * i + 2, h2, by omega, by omega, ?_, ?_⟩
            · simp [hlt]; omega
            · intro c hc h0 hp
              have : c = 2 * i + 1 ∨ c = 2 * i + 2 := by omega
              rcases this with rfl | rfl
              · exact hlt.le
              · exact le_refl _
          · refine ⟨2 * i + 1, by omega, by omega, by omega, ?_, ?_⟩
            · simp [hlt]
            · intro c hc h0 hp
              have : c = 2 * i + 1 ∨ c = 2 * i + 2 := by omega
              rcases this with rfl | rfl
              · exact le_refl _
              · exact not_lt.1 hlt
        · have hc2 : ¬ 2 * (i : Int) + 1 + 1 < n := by omega
          rw [if_neg hc2]
          refine ⟨2 * i + 1, by omega, by omega, by omega, ?_, ?_⟩
          · simp
          · intro c hc h0 hp
            have : c = 2 * i + 1 := by omega
            subst this
            exact le_refl _
      rw [hright]
      have hjv : (if decide ((j : Int) = 2 * (i : Int) + 1 + 1) = true then 2 * (i : Int) + 1 + 1
          else 2 * (i : Int) + 1) = (j : Int) := by
        by_cases h : (j : Int) = 2 * (i : Int) + 1 + 1
        · simp [h]
        · have : (j : Int) = 2 * (i : Int) + 1 := by omega
          simp [this]
      simp only [Option.bind_eq_bind, Option.some_bind, hjv]
      rw [Less_spec st hpos _ _ j i rfl rfl (by omega) hi]
      simp only [Option.some_bind]
      by_cases hlt : st.key j < st.key i
      · simp only [hlt, decide_True, Bool.not_true, Bool.false_eq_true, if_false]
        obtain ⟨st1, hsw, hpos1, hfr1, hptr1⟩ :=
          Swap_spec st hpos (i : Int) (j : Int) i j rfl rfl hi (by omega)
        rw [hsw]
        simp only [Option.some_bind]
        have hkey1 := Swap_key hfr1 hptr1
        have hex1 : HeapExcept st1.key lo n j :=
          heapExcept_congr hkey1 lo n j
            (heapExcept_swap st.key lo n i j hlo hjn hj0 hjp hlt hmin hex)
        obtain ⟨st2, i2, hrun, hpos2, hfr2, hfrom2, hptr2, hle2⟩ :=
          ih st1 j n lo hpos1 (by rw [hfr1.2.1]; exact hn) (by omega) (by omega) hex1
        refine ⟨st2, i2, hrun, hpos2, frame_trans hfr1 hfr2, hfrom2, ?_, by omega⟩
        intro k hk
        rw [hptr2 k (by omega), hptr1 k, if_neg (by omega), if_neg (by omega)]
      · simp only [hlt, decide_False, Bool.not_false, if_true]
        refine ⟨st, i, rfl, hpos, frame_refl _, ?_, fun _ _ => rfl, le_refl _⟩
        refine heapExcept_done _ lo n i hex (fun c hc h0 hp => ?_)
        exact (not_lt.1 hlt).trans (hmin c hc h0 hp)

theorem down_spec (st : State R) (i n lo : Nat) (hpos : PosConsistent st)
    (hn : n ≤ st.vh.length) (hlo : lo ≤ i) (hex : HeapExcept st.key lo n i) :
    ∃ (st' : State R) (b : Bool), heap.down st (i : Int) (n : Int) = some (st', b) ∧
      PosConsistent st' ∧ Frame st st' ∧ HeapFrom st'.key lo n ∧
      (∀ k, (k < i ∨ n ≤ k) → st'.ptr k = st.ptr k) := by
  obtain ⟨st', i', hrun, hpos', hfr, hfrom, hptr, _⟩ :=
    downLoop_spec (n + 1) st i n lo hpos hn (by omega) hlo hex
  refine ⟨st', decide ((i' : Int) > i), ?_, hpos', hfr, hfrom, hptr⟩
  simp [heap.down, hrun]

/-- When no child of slot `i` is smaller than slot `i`, `down` leaves the state as it is and
reports that nothing moved. -/
theorem down_noop (st : State R) (i n : Nat) (hpos : PosConsistent st)
    (hn : n ≤ st.vh.length) (hi : i < n)
    (hch : ∀ c, c < n → 0 < c → (c - 1) / 2 = i → st.key i ≤ st.key c) :
    heap.down st (i : Int) (n : Int) = some (st, false) := by
  have hloop : heap.downLoop (n + 1) st (i : Int) (n : Int) = some (st, (i : Int)) := by
    simp only [heap.downLoop]
    by_cases h1 : n ≤ 2 * i + 1
    · have hc : (2 * (i : Int) + 1 ≥ n ∨ 2 * (i : Int) + 1 < 0) := Or.inl (by omega)
      rw [if_pos hc]
    · have hc : ¬ (2 * (i : Int) + 1 ≥ n ∨ 2 * (i : Int) + 1 < 0) := by omega
      rw [if_neg hc]
      have hj1 : 2 * i + 1 < st.vh.length := by omega
      have hil : i < st.vh.length := by omega
      by_cases h2 : 2 * i + 2 < n
      · have hc2 : 2 * (i : Int) + 1 + 1 < n := by omega
        rw [if_pos hc2, Less_spec st hpos _ _ (2 * i + 2) (2 * i + 1) (by push_cast; ring)
          (by push_cast; ring) (by omega) hj1]
        simp only [Option.bind_eq_bind, Option.some_bind]
        by_cases hlt : st.key (2 * i + 2) < st.key (2 * i + 1)
        · simp only [hlt, decide_True, if_true]
          rw [Less_spec st hpos _ _ (2 * i + 2) i (by push_cast; ring) rfl (by omega) hil]
          have := hch (2 * i + 2) h2 (by omega) (by omega)
          simp [not_lt.2 this]
        · simp only [hlt, decide_False, Bool.false_eq_true, if_false]
          rw [Less_spec st hpos _ _ (2 * i + 1) i (by push_cast; ring) rfl (by omega) hil]
          have := hch (2 * i + 1) (by omega) (by omega) (by omega)
          simp [not_lt.2 this]
      · have hc2 : ¬ 2 * (i : Int) + 1 + 1 < n := by omega
        rw [if_neg hc2]
        simp only [Option.bind_eq_bind, Option.pure_def, Option.some_bind, Bool.false_eq_true,
          if_false]
        rw [Less_spec st hpos _ _ (2 * i + 1) i (by push_cast; ring) rfl (by omega) hil]
        have := hch (2 * i + 1) (by omega) (by omega) (by omega)
        simp [not_lt.2 this]
  simp [heap.down, hloop]

/-- With a negative index `down` does nothing: the first test `j1 < 0` leaves the loop. -/
theorem down_neg (st : State R) (i n : Int) (hi : i < 0) :
    heap.down st i n = some (st, false) := by
  have hloop : heap.downLoop (n.toNat + 1) st i n = some (st, i) := by
    simp only [heap.downLoop]
    rw [if_pos (Or.inr (by omega))]
  simp [heap.down, hloop]

/-! ### `up` -/

theorem parent_natCast (j : Nat) : ((j : Int) - 1).tdiv 2 = (((j - 1) / 2 : Nat) : Int) := by
  cases j with
  | zero => decide
  | succ k =>
    have h : ((k + 1 : Nat) : Int) - 1 = (k : Int) := by push_cast; ring
    rw [h, Int.tdiv_eq_ediv (by omega) (by omega)]
    simp

theorem upLoop_spec : ∀ (fuel : Nat) (st : State R) (j : Nat), PosConsistent st →
    j < st.vh.length → j < fuel → UpExcept st.key st.vh.length j →
    ∃ st' : State R, heap.upLoop fuel st (j : Int) = some st' ∧ PosConsistent st' ∧
      Frame st st' ∧ HeapFrom st'.key 0 st.vh.length ∧
      (∀ k, j < k → st'.ptr k = st.ptr k) := by
  intro fuel
  induction fuel with
  | zero => intro st j _ _ hf; omega
  | succ fuel ih =>
    intro st j hpos hj hfuel hex
    simp only [heap.upLoop]
    rw [parent_natCast]
    by_cases h0 : j = 0
    · subst h0
      simp only [Nat.zero_sub, Nat.zero_div, if_true]
      exact ⟨st, rfl, hpos, frame_refl _, upExcept_done _ _ 0 hex (fun h => by omega),
        fun _ _ => rfl⟩
    · have hne : ¬ ((((j - 1) / 2 : Nat) : Int) = (j : Int)) := by omega
      rw [if_neg hne]
      have hi : (j - 1) / 2 < st.vh.length := by omega
      rw [Less_spec st hpos _ _ j ((j - 1) / 2) rfl rfl hj hi]
      simp only [Option.bind_eq_bind, Option.some_bind]
      by_cases hlt : st.key j < st.key ((j - 1) / 2)
      · simp only [hlt, decide_True, Bool.not_true, Bool.false_eq_true, if_false]
        obtain ⟨st1, hsw, hpos1, hfr1, hptr1⟩ :=
          Swap_spec st hpos _ (j : Int) ((j - 1) / 2) j rfl rfl hi hj
        rw [hsw]
        simp only [Option.some_bind]
        have hkey1 := Swap_key hfr1 hptr1
        have hex1 : UpExcept st1.key st.vh.length ((j - 1) / 2) :=
          upExcept_congr hkey1 _ _ (upExcept_swap st.key _ j (by omega) hj hlt hex)
        rw [← hfr1.2.1] at hex1
        obtain ⟨st2, hrun, hpos2, hfr2, hfrom2, hptr2⟩ :=
          ih st1 ((j - 1) / 2) hpos1 (by rw [hfr1.2.1]; exact hi) (by omega) hex1
        rw [hfr1.2.1] at hfrom2
        refine ⟨st2, hrun, hpos2, frame_trans hfr1 hfr2, hfrom2, ?_⟩
        intro k hk
        rw [hptr2 k (by omega), hptr1 k, if_neg (by omega), if_neg (by omega)]
      · simp only [hlt, decide_False, Bool.not_false, if_true]
        exact ⟨st, rfl, hpos, frame_refl _,
          upExcept_done _ _ j hex (fun _ => not_lt.1 hlt), fun _ _ => rfl⟩

theorem up_spec (st : State R) (j : Nat) (hpos : PosConsistent st) (hj : j < st.vh.length)
    (hex : UpExcept st.key st.vh.length j) :
    ∃ st' : State R, heap.up st (j : Int) = some st' ∧ PosConsistent st' ∧
      Frame st st' ∧ HeapFrom st'.key 0 st.vh.length ∧
      (∀ k, j < k → st'.ptr k = st.ptr k) := by
  unfold heap.up
  rw [Int.toNat_ofNat]
  exact upLoop_spec (j + 1) st j hpos hj (by omega) hex

/-- At index `-1` the function `up` does nothing: the parent index `(-1 - 1) / 2` is `-1`
again, so the loop is left at once. -/
theorem up_neg_one (st : State R) : heap.up st (-1) = some st := by
  simp [heap.up, heap.upLoop]

/-! ### Basic consequences of the invariants -/

theorem nodup_of_posConsistent (st : State R) (hpos : PosConsistent st) : st.vh.Nodup := by
  rw [List.nodup_iff_getElem?_ne_getElem?]
  intro i j hij hj h
  have hi : i < st.vh.length := by omega
  have : st.ptr i = st.ptr j := by simp [State.ptr, h]
  have := ptr_inj st hpos hi hj this
  omega

theorem perm_of_frame {st st' : State R} (hpos : PosConsistent st) (hpos' : PosConsistent st')
    (hfr : Frame st st') : st'.vh.Perm st.vh :=
  (List.perm_ext_iff_of_nodup (nodup_of_posConsistent st' hpos')
    (nodup_of_posConsistent st hpos)).2 hfr.2.2.1

theorem root_le (key : Nat → Score R) (n : Nat) (h : HeapFrom key 0 n) :
    ∀ k, k < n → key 0 ≤ key k := by
  intro k
  induction k using Nat.strong_induction_on with
  | _ k ih =>
    intro hk
    by_cases h0 : k = 0
    · subst h0; exact le_refl _
    · exact (ih ((k - 1) / 2) (by omega) (by omega)).trans (h k hk (by omega) (Nat.zero_le _))

theorem outOfHeap_of_frame {st st' : State R} (hfr : Frame st st') (hout : OutOfHeap st) :
    OutOfHeap st' := by
  intro k hk hnot
  rw [hfr.1] at hk
  have hn : k ∉ st.vh := fun h => hnot ((hfr.2.2.1 k).2 h)
  rw [hfr.2.2.2.1 k hn]
  exact hout k hk hn

/-! ### `heap.Fix` and `update` -/

theorem setDGS_ptr (st : State R) (v : Int) (x : Score R) (k : Nat) :
    (st.setDGS v x).ptr k = st.ptr k := rfl

theorem setDGS_key (st : State R) (v : Int) (x : Score R) (k : Nat) :
    (st.setDGS v x).key k = if st.ptr k = v then x else st.key k := by
  unfold State.key
  rw [setDGS_ptr]
  simp only [State.setDGS, State.store]
  by_cases h : st.ptr k = v
  · rw [if_pos h, h, Function.update_same]
  · rw [if_neg h, Function.update_noteq h]

theorem setDGS_posConsistent (st : State R) (hpos : PosConsistent st) (v : Int) (x : Score R) :
    PosConsistent (st.setDGS v x) := by
  intro k hk
  have hk' : k < st.vh.length := hk
  refine ⟨(hpos k hk').1, ?_⟩
  rw [setDGS_ptr]
  simp only [State.setDGS, State.store]
  by_cases h : st.ptr k = v
  · rw [h, Function.update_same]
    show (st.mem v).Index = _
    rw [← h]; exact (hpos k hk').2
  · rw [Function.update_noteq h]; exact (hpos k hk').2

theorem heapFrom_zero_iff (st : State R) : HeapFrom st.key 0 st.vh.length ↔ HeapOrdered st :=
  ⟨fun h i hi h0 => h i hi h0 (Nat.zero_le _), fun h i hi h0 _ => h i hi h0⟩

theorem update_eq_fix (st : State R) (v : Int) (x : Score R) (hv : v ∈ st.keys) :
    VertexHeap.update st v x = heap.Fix (st.setDGS v x) (st.mem v).Index := by
  simp [VertexHeap.update, VertexMap_of_mem st hv, State.setDGS]

theorem update_in_heap (st : State R) (hpos : PosConsistent st) (hord : HeapOrdered st)
    (v : Int) (hv : v ∈ st.vh) (x : Score R) (hx : x ≤ (st.mem v).DGS) :
    ∃ st' : State R, VertexHeap.update st v x = some st' ∧ PosConsistent st' ∧
      HeapOrdered st' ∧ Frame (st.setDGS v x) st' := by
  obtain ⟨i, hi, rfl⟩ := exists_ptr_of_mem st hv
  have hpos1 := setDGS_posConsistent st hpos (st.ptr i) x
  have hkey : ∀ k, k < st.vh.length →
      (st.setDGS (st.ptr i) x).key k = if k = i then x else st.key k := by
    intro k hk
    rw [setDGS_key]
    by_cases h : k = i
    · subst h; simp
    · rw [if_neg h, if_neg (fun e => h (ptr_inj st hpos hk hi e))]
  have hxi : x ≤ st.key i := hx
  have hlen : (st.setDGS (st.ptr i) x).vh.length = st.vh.length := rfl
  rw [update_eq_fix st _ x (hpos i hi).1, (hpos i hi).2]
  have hdown : heap.down (st.setDGS (st.ptr i) x) (i : Int) (st.vh.length : Int) =
      some (st.setDGS (st.ptr i) x, false) := by
    refine down_noop _ i st.vh.length hpos1 (le_of_eq hlen.symm) hi ?_
    intro c hc h0 hp
    rw [hkey i hi, if_pos rfl, hkey c hc, if_neg (by omega)]
    have := hord c hc h0
    rw [hp] at this
    exact hxi.trans this
  have hex : UpExcept (st.setDGS (st.ptr i) x).key st.vh.length i := by
    constructor
    · intro c hc h0 hci
      rw [hkey c hc, if_neg hci, hkey _ (by omega)]
      have := hord c hc h0
      by_cases hp : (c - 1) / 2 = i
      · rw [if_pos hp]; rw [hp] at this; exact hxi.trans this
      · rw [if_neg hp]; exact this
    · intro hi0 c hc h0 hp
      rw [hkey c hc, if_neg (by omega), hkey _ (by omega), if_neg (by omega)]
      have h1 := hord c hc h0
      rw [hp] at h1
      exact (hord i hi hi0).trans h1
  obtain ⟨st', hup, hpos', hfr, hfrom, _⟩ :=
    up_spec (st.setDGS (st.ptr i) x) i hpos1 hi hex
  refine ⟨st', ?_, hpos', ?_, hfr⟩
  · simp [heap.Fix, VertexHeap.Len, hlen, hdown, hup]
  · rw [← heapFrom_zero_iff, hfr.2.1]; exact hfrom

theorem update_out_of_heap (st : State R) (v : Int) (hv : v ∈ st.keys)
    (hidx : (st.mem v).Index = -1) (x : Score R) :
    VertexHeap.update st v x = some (st.setDGS v x) := by
  rw [update_eq_fix st v x hv, hidx]
  simp [heap.Fix, down_neg, up_neg_one]

/-! ### `heap.Pop` -/

theorem VertexHeap_Pop_eq (st : State R) (hpos : PosConsistent st) (n : Nat)
    (hn : st.vh.length = n + 1) :
    VertexHeap.Pop st = some
      (⟨st.keys, Function.update st.mem (st.ptr n) { (st.mem (st.ptr n)) with Index := -1 },
        st.vh.take n⟩, st.ptr n) := by
  have h1 : VertexHeap.Len st - 1 = (n : Int) := by simp [VertexHeap.Len, hn]
  simp only [VertexHeap.Pop, h1, vhAt_natCast st n (by omega), Option.bind_eq_bind,
    Option.some_bind, VertexMap_of_mem st (hpos n (by omega)).1, State.store, Int.toNat_ofNat,
    Option.pure_def]

theorem ptr_take (keys : List Int) (mem : Int → Vertex R) (vh : List Int) (n k : Nat)
    (hk : k < n) : State.ptr (⟨keys, mem, vh.take n⟩ : State R) k
      = State.ptr (⟨keys, mem, vh⟩ : State R) k := by
  simp [State.ptr, List.getElem?_take, hk]

theorem pop_spec (st : State R) (hpos : PosConsistent st) (hord : HeapOrdered st)
    (hne : 0 < st.vh.length) :
    ∃ st' : State R, heap.Pop st = some (st', st.ptr 0) ∧ PosConsistent st' ∧ HeapOrdered st' ∧
      st'.keys = st.keys ∧ st'.vh.length + 1 = st.vh.length ∧
      (∀ p, p ∈ st'.vh ↔ p ∈ st.vh ∧ p ≠ st.ptr 0) ∧
      (∀ p, p ∉ st.vh → st'.mem p = st.mem p) ∧ (∀ p, SameData (st.mem p) (st'.mem p)) ∧
      (st'.mem (st.ptr 0)).Index = -1 ∧ (∀ k, k < st.vh.length → st.key 0 ≤ st.key k) := by
  obtain ⟨n, hn⟩ : ∃ n, st.vh.length = n + 1 := ⟨st.vh.length - 1, by omega⟩
  have hlenI : VertexHeap.Len st - 1 = (n : Int) := by simp [VertexHeap.Len, hn]
  obtain ⟨st1, hsw, hpos1, hfr1, hptr1⟩ :=
    Swap_spec st hpos 0 (n : Int) 0 n rfl rfl hne (by omega)
  have hkey1 := Swap_key hfr1 hptr1
  have hlen1 : st1.vh.length = n + 1 := by rw [hfr1.2.1, hn]
  have hex1 : HeapExcept st1.key 0 n 0 := by
    constructor
    · intro c hc h0 _ hp
      rw [hkey1, hkey1]
      simp only [swapKey]
      rw [if_neg hp, if_neg (by omega), if_neg (by omega), if_neg (by omega)]
      exact hord c (by omega) h0
    · intro h; omega
  obtain ⟨st2, b, hdown, hpos2, hfr2, hfrom2, hptr2⟩ :=
    down_spec st1 0 n 0 hpos1 (by omega) (le_refl _) hex1
  have hlen2 : st2.vh.length = n + 1 := by rw [hfr2.2.1, hlen1]
  have hu : st2.ptr n = st.ptr 0 := by
    rw [hptr2 n (Or.inr (le_refl _)), hptr1 n]
    by_cases h : n = 0
    · rw [if_pos h, h]
    · rw [if_neg h, if_pos rfl]
  have hfr : Frame st st2 := frame_trans hfr1 hfr2
  have hpop := VertexHeap_Pop_eq st2 hpos2 n hlen2
  rw [hu] at hpop
  have hlen3 : (st2.vh.take n).length = n := by simp [hlen2]
  have hptr3 : ∀ k, k < n → State.ptr (⟨st2.keys,
      Function.update st2.mem (st.ptr 0) { (st2.mem (st.ptr 0)) with Index := -1 },
      st2.vh.take n⟩ : State R) k = st2.ptr k := fun k hk => ptr_take _ _ _ n k hk
  have hne2 : ∀ k, k < n → st2.ptr k ≠ st.ptr 0 := by
    intro k hk h
    rw [← hu] at h
    have := ptr_inj st2 hpos2 (by omega) (by omega) h
    omega
  refine ⟨⟨st2.keys, Function.update st2.mem (st.ptr 0)
    { (st2.mem (st.ptr 0)) with Index := -1 }, st2.vh.take n⟩, ?_, ?_, ?_, ?_, ?_, ?_, ?_, ?_,
    ?_, ?_⟩
  · simp only [heap.Pop, hlenI, hsw, Option.bind_eq_bind, Option.some_bind]
    have e : ((0 : Nat) : Int) = 0 := rfl
    rw [← e, hdown]
    simp only [Option.some_bind]
    exact hpop
  · -- position consistency
    intro k hk
    have hk' : k < n := hlen3 ▸ hk
    rw [hptr3 k hk']
    show State.ptr st2 k ∈ st2.keys ∧ (Function.update st2.mem _ _ (State.ptr st2 k)).Index = _
    rw [Function.update_noteq (hne2 k hk')]
    exact hpos2 k (by omega)
  · -- heap order
    intro k hk h0
    have hk' : k < n := hlen3 ▸ hk
    have hkeyk : ∀ m, m < n → State.key (⟨st2.keys,
        Function.update st2.mem (st.ptr 0) { (st2.mem (st.ptr 0)) with Index := -1 },
        st2.vh.take n⟩ : State R) m = st2.key m := by
      intro m hm
      unfold State.key
      rw [hptr3 m hm]
      show (Function.update st2.mem _ _ (State.ptr st2 m)).DGS = _
      rw [Function.update_noteq (hne2 m hm)]
    rw [hkeyk k hk', hkeyk _ (by omega)]
    exact hfrom2 k hk' h0 (Nat.zero_le _)
  · exact hfr.1
  · show (st2.vh.take n).length + 1 = _
    rw [hlen3, hn]
  · intro p
    rw [← hfr.2.2.1 p, mem_vh_iff, mem_vh_iff]
    show (∃ k, k < (st2.vh.take n).length ∧ _) ↔ _
    rw [hlen3, hlen2]
    constructor
    · rintro ⟨k, hk, rfl⟩
      rw [hptr3 k hk]
      exact ⟨⟨k, by omega, rfl⟩, hne2 k hk⟩
    · rintro ⟨⟨k, hk, rfl⟩, hne3⟩
      have hkn : k < n := by
        rcases Nat.lt_or_ge k n with h | h
        · exact h
        · exact absurd (by rw [show k = n by omega]; exact hu) hne3
      exact ⟨k, hkn, hptr3 k hkn⟩
  · intro p hp
    have hp0 : p ≠ st.ptr 0 := fun h => hp (h ▸ ptr_mem st 0 hne)
    show Function.update st2.mem _ _ p = _
    rw [Function.update_noteq hp0]
    exact hfr.2.2.2.1 p hp
  · intro p
    show SameData (st.mem p) (Function.update st2.mem _ _ p)
    by_cases h : p = st.ptr 0
    · rw [h, Function.update_same]
      have := hfr.2.2.2.2 (st.ptr 0)
      exact ⟨this.1, this.2.1, this.2.2.1, this.2.2.2⟩
    · rw [Function.update_noteq h]; exact hfr.2.2.2.2 p
  · show (Function.update st2.mem _ _ (st.ptr 0)).Index = -1
    rw [Function.update_same]
  · exact root_le st.key st.vh.length ((heapFrom_zero_iff st).2 hord)

/-! ### `makeVertexHeap` -/

theorem fillLoop_spec : ∀ (order : List Int) (st : State R), PosConsistent st → order.Nodup →
    (∀ v ∈ order, v ∈ st.keys ∧ v ∉ st.vh) →
    ∃ st' : State R, fillLoop order (st.vh.length : Int) st = some st' ∧ PosConsistent st' ∧
      st'.keys = st.keys ∧ st'.vh = st.vh ++ order ∧ (∀ p, SameData (st.mem p) (st'.mem p)) ∧
      (∀ p, p ∉ order → st'.mem p = st.mem p) := by
  intro order
  induction order with
  | nil =>
    intro st hpos _ _
    exact ⟨st, rfl, hpos, rfl, by simp, fun _ => sameData_refl _, fun _ _ => rfl⟩
  | cons v rest ih =>
    intro st hpos hnd hin
    have hv := hin v (List.mem_cons_self _ _)
    have hnd' := List.nodup_cons.1 hnd
    have hpos1 : PosConsistent (⟨st.keys,
        Function.update st.mem v { (st.mem v) with Index := (st.vh.length : Int) },
        st.vh ++ [v]⟩ : State R) := by
      intro k hk
      have hk' : k < st.vh.length + 1 := by simpa using hk
      by_cases hkl : k < st.vh.length
      · have hp : State.ptr (⟨st.keys,
            Function.update st.mem v { (st.mem v) with Index := (st.vh.length : Int) },
            st.vh ++ [v]⟩ : State R) k = st.ptr k := by
          simp [State.ptr, List.getElem?_append_left hkl]
        rw [hp]
        have hne : st.ptr k ≠ v := fun h => hv.2 (h ▸ ptr_mem st k hkl)
        show _ ∧ (Function.update st.mem _ _ (st.ptr k)).Index = _
        rw [Function.update_noteq hne]
        exact hpos k hkl
      · have hkeq : k = st.vh.length := by omega
        have hp : State.ptr (⟨st.keys,
            Function.update st.mem v { (st.mem v) with Index := (st.vh.length : Int) },
            st.vh ++ [v]⟩ : State R) k = v := by
          subst hkeq
          simp [State.ptr]
        rw [hp]
        show _ ∧ (Function.update st.mem _ _ v).Index = _
        rw [Function.update_same, hkeq]
        exact ⟨hv.1, rfl⟩
    obtain ⟨st', hrun, hpos', hk', hvh', hsd', hmem'⟩ := ih _ hpos1 hnd'.2 (by
      intro u hu
      have := hin u (List.mem_cons_of_mem _ hu)
      refine ⟨this.1, ?_⟩
      show u ∉ st.vh ++ [v]
      rw [List.mem_append, List.mem_singleton]
      rintro (h | h)
      · exact this.2 h
      · exact hnd'.1 (h ▸ hu))
    refine ⟨st', ?_, hpos', hk', ?_, ?_, ?_⟩
    · simp only [fillLoop, VertexMap_of_mem st hv.1, Option.bind_eq_bind, Option.some_bind,
        State.store]
      have e : ((st.vh.length : Int) + 1) = (((st.vh ++ [v]).length : Nat) : Int) := by simp
      rw [e]
      exact hrun
    · rw [hvh']; simp
    · intro p
      refine sameData_trans ?_ (hsd' p)
      show SameData (st.mem p) (Function.update st.mem _ _ p)
      by_cases h : p = v
      · rw [h, Function.update_same]; exact ⟨rfl, rfl, rfl, rfl⟩
      · rw [Function.update_noteq h]; exact sameData_refl _
    · intro p hp
      rw [List.mem_cons, not_or] at hp
      rw [hmem' p hp.2]
      show Function.update st.mem _ _ p = _
      rw [Function.update_noteq hp.1]

theorem initLoop_spec (n : Nat) : ∀ (k : Nat) (st : State R), PosConsistent st →
    st.vh.length = n → HeapFrom st.key k n →
    ∃ st' : State R, heap.initLoop (n : Int) k st = some st' ∧ PosConsistent st' ∧
      Frame st st' ∧ HeapFrom st'.key 0 n := by
  intro k
  induction k with
  | zero => intro st hpos _ h; exact ⟨st, rfl, hpos, frame_refl _, h⟩
  | succ k ih =>
    intro st hpos hn hfrom
    have hex : HeapExcept st.key k n k := by
      constructor
      · intro c hc h0 hl hp
        exact hfrom c hc h0 (by omega)
      · intro h0 hl; omega
    obtain ⟨st1, b, hdown, hpos1, hfr1, hfrom1, _⟩ :=
      down_spec st k n k hpos (by omega) (le_refl _) hex
    obtain ⟨st2, hrun, hpos2, hfr2, hfrom2⟩ := ih st1 hpos1 (by rw [hfr1.2.1, hn]) hfrom1
    refine ⟨st2, ?_, hpos2, frame_trans hfr1 hfr2, hfrom2⟩
    simp only [heap.initLoop, hdown, Option.bind_eq_bind, Option.some_bind]
    exact hrun

theorem Init_spec (st : State R) (hpos : PosConsistent st) :
    ∃ st' : State R, heap.Init st = some st' ∧ PosConsistent st' ∧ Frame st st' ∧
      HeapOrdered st' := by
  obtain ⟨st', hrun, hpos', hfr, hfrom⟩ :=
    initLoop_spec st.vh.length (st.vh.length / 2) st hpos rfl
      (fun c hc h0 hl => by omega)
  refine ⟨st', ?_, hpos', hfr, ?_⟩
  · unfold heap.Init VertexHeap.Len
    have e : ((st.vh.length : Int).tdiv 2 - 1 + 1).toNat = st.vh.length / 2 := by
      rw [Int.tdiv_eq_ediv (by omega) (by omega)]
      omega
    simp only [e]
    exact hrun
  · rw [← heapFrom_zero_iff, hfr.2.1]; exact hfrom

theorem makeVertexHeap_spec (order : List Int) (st : State R) (hnd : order.Nodup)
    (hin : ∀ v ∈ order, v ∈ st.keys) :
    ∃ st' : State R, makeVertexHeap order st = some st' ∧ PosConsistent st' ∧
      HeapOrdered st' ∧ st'.keys = st.keys ∧ st'.vh.Perm order ∧
      (∀ p, SameData (st.mem p) (st'.mem p)) ∧ (∀ p, p ∉ order → st'.mem p = st.mem p) := by
  have hpos0 : PosConsistent (⟨st.keys, st.mem, []⟩ : State R) := by
    intro k hk; simp at hk
  obtain ⟨st1, hfill, hpos1, hk1, hvh1, hsd1, hmem1⟩ :=
    fillLoop_spec order ⟨st.keys, st.mem, []⟩ hpos0 hnd
      (fun v hv => ⟨hin v hv, by simp⟩)
  obtain ⟨st2, hinit, hpos2, hfr2, hord2⟩ := Init_spec st1 hpos1
  have hvh1' : st1.vh = order := by rw [hvh1]; simp
  refine ⟨st2, ?_, hpos2, hord2, hfr2.1.trans hk1, ?_, fun p => sameData_trans (hsd1 p) (hfr2.2.2.2.2 p),
    ?_⟩
  · simp only [makeVertexHeap, Option.bind_eq_bind]
    have e : fillLoop order 0 ({ st with vh := [] } : State R) = some st1 := hfill
    rw [e]
    exact hinit
  · rw [← hvh1']; exact perm_of_frame hpos1 hpos2 hfr2
  · intro p hp
    rw [hfr2.2.2.2.1 p (by rw [hvh1']; exact hp)]
    exact hmem1 p hp

/-! ### Relaxing the edges of the working vertex -/

theorem setDGS_mem_same (st : State R) (v : Int) (x : Score R) :
    (st.setDGS v x).mem v = { (st.mem v) with DGS := x } := by
  simp [State.setDGS, State.store]

theorem setDGS_mem_ne (st : State R) (v : Int) (x : Score R) {p : Int} (h : p ≠ v) :
    (st.setDGS v x).mem p = st.mem p := by
  simp [State.setDGS, State.store, Function.update_noteq h]

theorem setDGS_dataFrame (st : State R) (v : Int) (x : Score R) :
    DataFrame st (st.setDGS v x) := by
  refine ⟨rfl, rfl, fun _ => Iff.rfl, fun p => ?_⟩
  by_cases h : p = v
  · subst h; rw [setDGS_mem_same]; exact ⟨rfl, rfl, rfl⟩
  · rw [setDGS_mem_ne st v x h]; exact ⟨rfl, rfl, rfl⟩

theorem dataFrame_refl (st : State R) : DataFrame st st :=
  ⟨rfl, rfl, fun _ => Iff.rfl, fun _ => ⟨rfl, rfl, rfl⟩⟩

theorem dataFrame_trans {s1 s2 s3 : State R} (h12 : DataFrame s1 s2) (h23 : DataFrame s2 s3) :
    DataFrame s1 s3 := by
  obtain ⟨k1, l1, m1, d1⟩ := h12
  obtain ⟨k2, l2, m2, d2⟩ := h23
  refine ⟨k2.trans k1, l2.trans l1, fun p => (m2 p).trans (m1 p), fun p => ?_⟩
  exact ⟨(d2 p).1.trans (d1 p).1, (d2 p).2.1.trans (d1 p).2.1, (d2 p).2.2.trans (d1 p).2.2⟩

theorem dataFrame_of_frame {st st' : State R} (h : Frame st st') : DataFrame st st' :=
  ⟨h.1, h.2.1, h.2.2.1, fun p => ⟨(h.2.2.2.2 p).1, (h.2.2.2.2 p).2.1, (h.2.2.2.2 p).2.2.2⟩⟩

theorem structInv_edges {st st' : State R} (hd : DataFrame st st')
    (h : ∀ k ∈ st.keys, ∀ e ∈ (st.mem k).Edges, e.HeadVertex ∈ st.keys) :
    ∀ k ∈ st'.keys, ∀ e ∈ (st'.mem k).Edges, e.HeadVertex ∈ st'.keys := by
  intro k hk e he
  rw [hd.1] at hk ⊢
  rw [(hd.2.2.2 k).2.1] at he
  exact h k hk e he

theorem relax_spec (st : State R) (hS : StructInv st) (w : Int) (hw : w ∈ st.keys)
    (e : NodeTuple R) (he : e.HeadVertex ∈ st.keys) :
    ∃ st' : State R, relax w st e = some st' ∧ StructInv st' ∧ DataFrame st st' ∧
      (st'.mem e.HeadVertex).DGS
        = min (st.mem e.HeadVertex).DGS ((st.mem w).Length + e.Distance) ∧
      ∀ p, p ≠ e.HeadVertex → (st'.mem p).DGS = (st.mem p).DGS := by
  obtain ⟨hpos, hord, hout, hedges⟩ := hS
  simp only [relax, VertexMap_of_mem st hw, VertexMap_of_mem st he, Option.bind_eq_bind,
    Option.some_bind, gt_iff_lt]
  by_cases hg : (st.mem w).Length + e.Distance < (st.mem e.HeadVertex).DGS
  · rw [if_pos hg]
    have hd0 := setDGS_dataFrame st e.HeadVertex ((st.mem w).Length + e.Distance)
    by_cases hv : e.HeadVertex ∈ st.vh
    · obtain ⟨st', hup, hpos', hord', hfr⟩ :=
        update_in_heap st hpos hord e.HeadVertex hv _ hg.le
      have hd : DataFrame st st' := dataFrame_trans hd0 (dataFrame_of_frame hfr)
      refine ⟨st', hup, ⟨hpos', hord', ?_, structInv_edges hd hedges⟩, hd, ?_, ?_⟩
      · refine outOfHeap_of_frame hfr ?_
        intro k hk hnot
        have hne : k ≠ e.HeadVertex := fun h => hnot (h ▸ hv)
        rw [setDGS_mem_ne st _ _ hne]
        exact hout k hk hnot
      · rw [(hfr.2.2.2.2 _).2.2.1, setDGS_mem_same, min_eq_right hg.le]
      · intro p hp
        rw [(hfr.2.2.2.2 _).2.2.1, setDGS_mem_ne st _ _ hp]
    · rw [update_out_of_heap st _ he (hout _ he hv)]
      refine ⟨_, rfl, ⟨setDGS_posConsistent st hpos _ _, ?_, ?_, structInv_edges hd0 hedges⟩,
        hd0, ?_, ?_⟩
      · intro k hk h0
        have hk' : k < st.vh.length := hk
        have h1 : st.ptr k ≠ e.HeadVertex := fun h => hv (h ▸ ptr_mem st k hk')
        have h2 : st.ptr ((k - 1) / 2) ≠ e.HeadVertex :=
          fun h => hv (h ▸ ptr_mem st _ (by omega))
        rw [setDGS_key, setDGS_key, if_neg h1, if_neg h2]
        exact hord k hk' h0
      · intro k hk hnot
        by_cases h : k = e.HeadVertex
        · subst h; rw [setDGS_mem_same]; exact hout _ hk hnot
        · rw [setDGS_mem_ne st _ _ h]; exact hout k hk hnot
      · rw [setDGS_mem_same, min_eq_right hg.le]
      · intro p hp
        rw [setDGS_mem_ne st _ _ hp]
  · rw [if_neg hg]
    exact ⟨st, rfl, ⟨hpos, hord, hout, hedges⟩, dataFrame_refl st,
      (min_eq_left (not_lt.1 hg)).symm, fun _ _ => rfl⟩

theorem relaxAll_spec (w : Int) : ∀ (es : List (NodeTuple R)) (st : State R), StructInv st →
    w ∈ st.keys → (∀ e ∈ es, e.HeadVertex ∈ st.keys) →
    ∃ st' : State R, es.foldlM (relax w) st = some st' ∧ StructInv st' ∧ DataFrame st st' ∧
      (∀ p, (st'.mem p).DGS ≤ (st.mem p).DGS) ∧
      (∀ e ∈ es, (st'.mem e.HeadVertex).DGS ≤ (st.mem w).Length + e.Distance) ∧
      (∀ p, (st'.mem p).DGS = (st.mem p).DGS ∨ ∃ e ∈ es, e.HeadVertex = p ∧
        (st'.mem p).DGS = (st.mem w).Length + e.Distance ∧
        (st.mem w).Length + e.Distance < (st.mem p).DGS) := by
  intro es
  induction es with
  | nil =>
    intro st hS _ _
    exact ⟨st, rfl, hS, dataFrame_refl st, fun _ => le_refl _, fun _ h => by simp at h,
      fun _ => Or.inl rfl⟩
  | cons e es ih =>
    intro st hS hw hes
    obtain ⟨st1, hrel, hS1, hd1, hmin1, hne1⟩ :=
      relax_spec st hS w hw e (hes e (List.mem_cons_self _ _))
    obtain ⟨st2, hrun, hS2, hd2, hle2, hrelaxed2, hcase2⟩ :=
      ih st1 hS1 (by rw [hd1.1]; exact hw)
        (fun e' he' => by rw [hd1.1]; exact hes e' (List.mem_cons_of_mem _ he'))
    have hL : (st1.mem w).Length = (st.mem w).Length := (hd1.2.2.2 w).2.2
    have hle1 : ∀ p, (st1.mem p).DGS ≤ (st.mem p).DGS := by
      intro p
      by_cases h : p = e.HeadVertex
      · subst h; rw [hmin1]; exact min_le_left _ _
      · rw [hne1 p h]
    refine ⟨st2, ?_, hS2, dataFrame_trans hd1 hd2, fun p => (hle2 p).trans (hle1 p), ?_, ?_⟩
    · simp only [List.foldlM_cons, hrel, Option.bind_eq_bind, Option.some_bind]
      exact hrun
    · intro e' he'
      rcases List.mem_cons.1 he' with rfl | h
      · refine (hle2 _).trans ?_
        rw [hmin1]; exact min_le_right _ _
      · rw [← hL]; exact hrelaxed2 e' h
    · intro p
      rcases hcase2 p with h2 | ⟨e', he', hp, heq, hlt⟩
      · by_cases h : p = e.HeadVertex
        · by_cases hg : (st.mem w).Length + e.Distance < (st.mem e.HeadVertex).DGS
          · right
            refine ⟨e, List.mem_cons_self _ _, h.symm, ?_, ?_⟩
            · rw [h2, h, hmin1, min_eq_right hg.le]
            · rw [h]; exact hg
          · left
            rw [h2, h, hmin1, min_eq_left (not_lt.1 hg)]
        · left; rw [h2, hne1 p h]
      · right
        refine ⟨e', List.mem_cons_of_mem _ he', hp, by rw [heq, hL], ?_⟩
        rw [← hL]
        exact lt_of_lt_of_le hlt (hle1 p)

/-! ### The outer loop of `dijkstra` -/

theorem setLength_mem_same (st : State R) (v : Int) (x : Score R) :
    (st.setLength v x).mem v = { (st.mem v) with Length := x } := by
  simp [State.setLength, State.store]

theorem setLength_mem_ne (st : State R) (v : Int) (x : Score R) {p : Int} (h : p ≠ v) :
    (st.setLength v x).mem p = st.mem p := by
  simp [State.setLength, State.store, Function.update_noteq h]

theorem setLength_sameIndex (st : State R) (v : Int) (x : Score R) (p : Int) :
    ((st.setLength v x).mem p).Index = (st.mem p).Index ∧
    ((st.setLength v x).mem p).DGS = (st.mem p).DGS ∧
    ((st.setLength v x).mem p).Edges = (st.mem p).Edges ∧
    ((st.setLength v x).mem p).Id = (st.mem p).Id := by
  by_cases h : p = v
  · subst h; rw [setLength_mem_same]; exact ⟨rfl, rfl, rfl, rfl⟩
  · rw [setLength_mem_ne st v x h]; exact ⟨rfl, rfl, rfl, rfl⟩

theorem setLength_structInv (st : State R) (hS : StructInv st) (v : Int) (x : Score R) :
    StructInv (st.setLength v x) := by
  obtain ⟨hpos, hord, hout, hedges⟩ := hS
  refine ⟨?_, ?_, ?_, ?_⟩
  · intro k hk
    have := hpos k hk
    exact ⟨this.1, (setLength_sameIndex st v x _).1.trans this.2⟩
  · intro k hk h0
    have := hord k hk h0
    show ((st.setLength v x).mem (st.ptr _)).DGS ≤ ((st.setLength v x).mem (st.ptr _)).DGS
    rw [(setLength_sameIndex st v x _).2.1, (setLength_sameIndex st v x _).2.1]
    exact this
  · intro k hk hnot
    exact (setLength_sameIndex st v x k).1.trans (hout k hk hnot)
  · intro k hk e he
    rw [(setLength_sameIndex st v x k).2.2.1] at he
    exact hedges k hk e he

theorem body_spec (st : State R) (hS : StructInv st) (w : Int) (hw : w ∈ st.keys)
    (hne : 0 < st.vh.length) :
    ∃ (st1 st2 : State R) (u : Int),
      (st.mem w).Edges.foldlM (relax w) st = some st1 ∧ heap.Pop st1 = some (st2, u) ∧
      u ∈ st2.keys ∧ StructInv (st2.setLength u (st2.mem u).DGS) ∧
      Iter st w (st2.setLength u (st2.mem u).DGS) u := by
  obtain ⟨st1, hrel, hS1, hd1, hle1, hrelaxed1, hcase1⟩ :=
    relaxAll_spec w (st.mem w).Edges st hS hw (hS.2.2.2 w hw)
  obtain ⟨hpos1, hord1, hout1, hedges1⟩ := hS1
  have hne1 : 0 < st1.vh.length := by rw [hd1.2.1]; exact hne
  obtain ⟨st2, hpop, hpos2, hord2, hk2, hlen2, hmem2, hout2, hsd2, hidx2, hmin2⟩ :=
    pop_spec st1 hpos1 hord1 hne1
  have hu1 : st1.ptr 0 ∈ st1.vh := ptr_mem st1 0 hne1
  have huk : st1.ptr 0 ∈ st1.keys := (hpos1 0 hne1).1
  have hS2 : StructInv st2 := by
    refine ⟨hpos2, hord2, ?_, ?_⟩
    · intro k hk hnot
      rw [hk2] at hk
      by_cases h : k = st1.ptr 0
      · rw [h]; exact hidx2
      · have : k ∉ st1.vh := fun hin => hnot ((hmem2 k).2 ⟨hin, h⟩)
        rw [hout2 k this]
        exact hout1 k hk this
    · intro k hk e he
      rw [hk2] at hk ⊢
      rw [(hsd2 k).2.1] at he
      exact hedges1 k hk e he
  refine ⟨st1, st2, st1.ptr 0, hrel, hpop, hk2 ▸ huk, setLength_structInv st2 hS2 _ _, ?_⟩
  refine ⟨st1, hd1, hle1, hrelaxed1, hcase1, hu1, hd1.1 ▸ huk, ?_, hk2.trans hd1.1, hlen2,
    hmem2, ?_, ?_, ?_, ?_⟩
  · intro p hp
    obtain ⟨k, hk, rfl⟩ := exists_ptr_of_mem st1 hp
    exact hmin2 k hk
  · intro p
    have := setLength_sameIndex st2 (st1.ptr 0) (st2.mem (st1.ptr 0)).DGS p
    exact ⟨this.2.2.2.trans (hsd2 p).1, this.2.2.1.trans (hsd2 p).2.1,
      this.2.1.trans (hsd2 p).2.2.1⟩
  · intro p hp
    rw [setLength_mem_ne st2 _ _ hp]
    exact (hsd2 p).2.2.2
  · rw [setLength_mem_same]
    exact (hsd2 _).2.2.1
  · exact (setLength_sameIndex st2 _ _ _).1.trans hidx2

theorem iter_perm {st st3 : State R} {w u : Int} (hpos : PosConsistent st)
    (hpos3 : PosConsistent st3) (h : Iter st w st3 u) : (u :: st3.vh).Perm st.vh := by
  obtain ⟨st1, hd1, _, _, _, hu1, _, _, _, _, hmem3, _⟩ := h
  refine (List.perm_ext_iff_of_nodup ?_ (nodup_of_posConsistent st hpos)).2 ?_
  · rw [List.nodup_cons]
    exact ⟨fun hin => ((hmem3 u).1 hin).2 rfl, nodup_of_posConsistent st3 hpos3⟩
  · intro p
    rw [List.mem_cons, hmem3 p, ← hd1.2.2.1 p]
    constructor
    · rintro (rfl | h)
      · exact hu1
      · exact h.1
    · intro hp
      by_cases hpu : p = u
      · exact Or.inl hpu
      · exact Or.inr ⟨hp, hpu⟩

theorem dijkstraLoop_spec (P : State R → Int → List (Int × Score R) → Prop)
    (hstep : ∀ (st : State R) (w : Int) (log : List (Int × Score R)) (st3 : State R) (u : Int),
      StructInv st → w ∈ st.keys → P st w log → Iter st w st3 u →
      P st3 u (log ++ [(u, (st3.mem u).DGS)])) :
    ∀ (fuel : Nat) (st : State R) (w : Int) (log : List (Int × Score R)), StructInv st →
      w ∈ st.keys → st.vh.length ≤ fuel → P st w log →
      ∃ (st' : State R) (w' : Int) (ext : List (Int × Score R)),
        dijkstraLoop fuel st w log = some (st', log ++ ext) ∧ StructInv st' ∧ st'.vh = [] ∧
        st'.keys = st.keys ∧ w' ∈ st'.keys ∧ P st' w' (log ++ ext) ∧
        (ext.map Prod.fst).Perm st.vh := by
  intro fuel
  induction fuel with
  | zero =>
    intro st w log hS hw hlen hP
    have h0 : st.vh = [] := List.length_eq_zero.1 (by omega)
    refine ⟨st, w, [], ?_, hS, h0, rfl, hw, by simpa using hP, by simp [h0]⟩
    simp [dijkstraLoop, VertexHeap.Len, h0]
  | succ fuel ih =>
    intro st w log hS hw hlen hP
    by_cases h0 : 0 < st.vh.length
    · obtain ⟨st1, st2, u, hrel, hpop, huk, hS3, hiter⟩ := body_spec st hS w hw h0
      have hP3 := hstep st w log _ u hS hw hP hiter
      have hk3 : (st2.setLength u (st2.mem u).DGS).keys = st.keys := by
        obtain ⟨_, _, _, _, _, _, _, _, hk, _⟩ := hiter
        exact hk
      have hlen3 : (st2.setLength u (st2.mem u).DGS).vh.length ≤ fuel := by
        obtain ⟨_, hd, _, _, _, _, _, _, _, hl, _⟩ := hiter
        have := hd.2.1
        omega
      obtain ⟨st', w', ext, hrun, hS', hvh', hk', hw', hP', hperm⟩ :=
        ih _ u _ hS3 huk hlen3 hP3
      have hdgs : ((st2.setLength u (st2.mem u).DGS).mem u).DGS = (st2.mem u).DGS :=
        (setLength_sameIndex st2 u _ u).2.1
      rw [hdgs] at hrun hP'
      refine ⟨st', w', (u, (st2.mem u).DGS) :: ext, ?_, hS', hvh', hk'.trans hk3, hw', ?_, ?_⟩
      · have hL : VertexHeap.Len st > 0 := by
          unfold VertexHeap.Len; omega
        simp only [dijkstraLoop, hL, if_true, VertexMap_of_mem st hw, Option.bind_eq_bind,
          Option.some_bind, hrel, hpop, VertexMap_of_mem st2 huk]
        rw [show log ++ (u, (st2.mem u).DGS) :: ext = log ++ [(u, (st2.mem u).DGS)] ++ ext by
          simp]
        exact hrun
      · rw [show log ++ (u, (st2.mem u).DGS) :: ext = log ++ [(u, (st2.mem u).DGS)] ++ ext by
          simp]
        exact hP'
      · simp only [List.map_cons]
        exact (List.Perm.cons u hperm).trans (iter_perm hS.1 hS3.1 hiter)
    · have h0' : st.vh = [] := List.length_eq_zero.1 (by omega)
      refine ⟨st, w, [], ?_, hS, h0', rfl, hw, by simpa using hP, by simp [h0']⟩
      simp [dijkstraLoop, VertexHeap.Len, h0']

/-! ### The invariant of the search -/

theorem dinv_step (st0 : State R) (s : Int) (hnn : NonNegWeights st0) (st : State R) (w : Int)
    (st3 : State R) (u : Int) (hw : w ∈ st.keys) (inv : DInv st0 s st w)
    (hiter : Iter st w st3 u) :
    DInv st0 s st3 u ∧ (st.mem w).DGS ≤ (st3.mem u).DGS := by
  obtain ⟨st1, hd, hle1, hrelaxed, hcase, hu1, huk, hmin, hk3, hlen3, hmem3, hsd3, hlenne,
    hLu, hidx⟩ := hiter
  have hLw : (st.mem w).Length = (st.mem w).DGS := inv.len_eq w hw inv.w_done
  have hwnn : ∀ e ∈ (st.mem w).Edges, (st.mem w).DGS ≤ (st.mem w).Length + e.Distance := by
    intro e he
    rw [hLw]
    have h0 : (0 : Score R) ≤ e.Distance := by
      have hw0 : w ∈ st0.keys := inv.keys_eq ▸ hw
      exact hnn w hw0 e (inv.edges_eq w ▸ he)
    exact le_add_of_nonneg_right h0
  -- done vertices keep their score while the edges of `w` are relaxed
  have hA : ∀ p ∈ st.keys, Done st s p → (st1.mem p).DGS = (st.mem p).DGS := by
    intro p hp hdone
    rcases hcase p with h | ⟨e, he, _, _, hlt⟩
    · exact h
    · exact absurd (lt_of_lt_of_le hlt ((inv.done_le p hp hdone).trans (hwnn e he)))
        (lt_irrefl _)
  -- heap entries stay above the working vertex
  have hB : ∀ v ∈ st.vh, (st.mem w).DGS ≤ (st1.mem v).DGS := by
    intro v hv
    rcases hcase v with h | ⟨e, he, _, heq, _⟩
    · rw [h]; exact inv.le_heap v hv
    · rw [heq]; exact hwnn e he
  have hC : ∀ p, Done st3 s p → p ≠ u → Done st s p := by
    intro p hdone hpu
    rcases hdone with h | h
    · left
      intro hin
      exact h ((hmem3 p).2 ⟨(hd.2.2.1 p).2 hin, hpu⟩)
    · exact Or.inr h
  have hC' : ∀ p, Done st s p → Done st3 s p := by
    intro p hdone
    rcases hdone with h | h
    · left
      intro hin
      exact h ((hd.2.2.1 p).1 ((hmem3 p).1 hin).1)
    · exact Or.inr h
  have hDGS3 : ∀ p, (st3.mem p).DGS = (st1.mem p).DGS := fun p => (hsd3 p).2.2
  have hE3 : ∀ p, (st3.mem p).Edges = (st.mem p).Edges :=
    fun p => (hsd3 p).2.1.trans (hd.2.2.2 p).2.1
  have hD : ∀ p ∈ st.keys, Done st s p → (st3.mem p).Length = (st.mem p).Length := by
    intro p hp hdone
    by_cases hpu : p = u
    · rw [hpu, hLu, ← hpu, hA p hp hdone, inv.len_eq p hp hdone]
    · rw [hlenne p hpu]; exact (hd.2.2.2 p).2.2
  have hu : u ∈ st.vh := (hd.2.2.1 u).1 hu1
  refine ⟨⟨hk3.trans inv.keys_eq, fun p => (hE3 p).trans (inv.edges_eq p), hk3 ▸ inv.s_mem,
    Or.inl (fun hin => ((hmem3 u).1 hin).2 rfl), ?_, ?_, ?_, ?_, ?_, ?_, ?_⟩, ?_⟩
  · -- len_eq
    intro p hp hdone
    rw [hk3] at hp
    by_cases hpu : p = u
    · rw [hpu, hLu, hDGS3]
    · have hdn := hC p hdone hpu
      rw [hD p hp hdn, hDGS3, hA p hp hdn]
      exact inv.len_eq p hp hdn
  · -- relaxed
    intro p hp hdone hpu e he
    rw [hk3] at hp
    rw [hE3] at he
    have hdn := hC p hdone hpu
    rw [hDGS3, hD p hp hdn]
    by_cases hpw : p = w
    · subst hpw; exact hrelaxed e he
    · exact (hle1 _).trans (inv.relaxed p hp hdn hpw e he)
  · -- done_le
    intro p hp hdone
    rw [hk3] at hp
    by_cases hpu : p = u
    · rw [hpu]
    · have hdn := hC p hdone hpu
      rw [hDGS3, hDGS3, hA p hp hdn]
      exact (inv.done_le p hp hdn).trans (hB u hu)
  · -- le_heap
    intro v hv
    rw [hDGS3, hDGS3]
    exact hmin v ((hmem3 v).1 hv).1
  · -- tight
    intro v hv hvs hfin
    rw [hk3] at hv
    rw [hDGS3] at hfin ⊢
    rcases hcase v with h | ⟨e, he, hev, heq, _⟩
    · rw [h] at hfin ⊢
      obtain ⟨p, hp, hdn, e, he, hev, heq⟩ := inv.tight v hv hvs hfin
      refine ⟨p, hk3 ▸ hp, hC' p hdn, e, (hE3 p).symm ▸ he, hev, ?_⟩
      rw [hD p hp hdn]; exact heq
    · refine ⟨w, hk3 ▸ hw, hC' w inv.w_done, e, (hE3 w).symm ▸ he, hev, ?_⟩
      rw [hD w hw inv.w_done]; exact heq
  · -- src
    rw [hDGS3, hA s inv.s_mem (Or.inr rfl)]; exact inv.src
  · -- reach
    intro v hv hfin
    rw [hk3] at hv
    rw [hDGS3] at hfin ⊢
    rcases hcase v with h | ⟨e, he, hev, heq, _⟩
    · rw [h] at hfin ⊢
      exact inv.reach v hv hfin
    · rw [heq] at hfin ⊢
      have hwfin : (st.mem w).DGS ≠ ⊤ := by
        intro htop
        rw [hLw, htop] at hfin
        exact hfin (WithTop.top_add _)
      have hwalk := inv.reach w hw hwfin
      have := Walk.cons w _ e hwalk (inv.keys_eq ▸ hw) (inv.edges_eq w ▸ he)
      rw [hev] at this
      rw [hLw]
      exact this
  · rw [hDGS3]; exact hB u hu

/-! ### From the loader-built graph to the loop -/

theorem dijkstraTrace_eq (st : State R) (s : Int) (hs : s ∈ st.keys) :
    dijkstraTrace st s = (VertexHeap.update (st.setLength s 0) s 0).bind
      fun st3 => dijkstraLoop st3.vh.length st3 s [] := by
  simp [dijkstraTrace, VertexHeap.update, State.VertexMap, hs, State.store, State.setLength]

theorem init_update (st0 st : State R) (s : Int) (hS : StructInv st) (hs : s ∈ st.keys)
    (hk : st.keys = st0.keys) (hperm : st.vh.Perm st0.keys)
    (hsd : ∀ p, SameData (st0.mem p) (st.mem p))
    (htop : ∀ k ∈ st0.keys, (st0.mem k).DGS = ⊤) :
    ∃ stI : State R, VertexHeap.update (st.setLength s 0) s 0 = some stI ∧
      StructInv stI ∧ InitState st0 s stI := by
  have hS1 := setLength_structInv st hS s 0
  have hsv : s ∈ st.vh := hperm.mem_iff.2 (hk ▸ hs)
  have hds : (0 : Score R) ≤ ((st.setLength s 0).mem s).DGS := by
    rw [(setLength_sameIndex st s 0 s).2.1, (hsd s).2.2.1, htop s (hk ▸ hs)]
    exact le_top
  obtain ⟨stI, hup, hposI, hordI, hfr⟩ :=
    update_in_heap (st.setLength s 0) hS1.1 hS1.2.1 s hsv 0 hds
  have hdf : DataFrame (st.setLength s 0) stI :=
    dataFrame_trans (setDGS_dataFrame _ s 0) (dataFrame_of_frame hfr)
  have hvhI : ∀ p, p ∈ stI.vh ↔ p ∈ st.vh := hdf.2.2.1
  have hkI : stI.keys = st.keys := hdf.1
  have hall : ∀ k ∈ st.keys, k ∈ stI.vh := fun k hkk => (hvhI k).2 (hperm.mem_iff.2 (hk ▸ hkk))
  refine ⟨stI, hup, ⟨hposI, hordI, ?_, ?_⟩, hkI.trans hk, fun k hkk => hall k (hk ▸ hkk), ?_, ?_,
    ?_, ?_, ?_, ?_⟩
  · intro k hkk hnot
    rw [hkI] at hkk
    exact absurd (hall k hkk) hnot
  · refine structInv_edges hdf ?_
    exact hS1.2.2.2
  · have h1 : stI.vh.Perm st.vh :=
      (List.perm_ext_iff_of_nodup (nodup_of_posConsistent stI hposI)
        (nodup_of_posConsistent st hS.1)).2 hvhI
    exact h1.trans hperm
  · intro p
    rw [(hdf.2.2.2 p).2.1, (setLength_sameIndex st s 0 p).2.2.1]
    exact (hsd p).2.1
  · rw [(hfr.2.2.2.2 s).2.2.1, setDGS_mem_same]
  · rw [(hdf.2.2.2 s).2.2, setLength_mem_same]
  · intro p hp hps
    rw [(hfr.2.2.2.2 p).2.2.1, setDGS_mem_ne _ s 0 hps, (setLength_sameIndex st s 0 p).2.1,
      (hsd p).2.2.1]
    exact htop p hp
  · intro p hps
    rw [(hdf.2.2.2 p).2.2, setLength_mem_ne st s 0 hps]
    exact (hsd p).2.2.2

theorem dijkstra_init (st0 st : State R) (s : Int) (hS : StructInv st) (hs : s ∈ st.keys)
    (hk : st.keys = st0.keys) (hperm : st.vh.Perm st0.keys)
    (hsd : ∀ p, SameData (st0.mem p) (st.mem p))
    (htop : ∀ k ∈ st0.keys, (st0.mem k).DGS = ⊤) :
    ∃ stI : State R, dijkstraTrace st s = dijkstraLoop stI.vh.length stI s [] ∧
      StructInv stI ∧ InitState st0 s stI := by
  obtain ⟨stI, hup, hSI, hI⟩ := init_update st0 st s hS hs hk hperm hsd htop
  exact ⟨stI, by rw [dijkstraTrace_eq st s hs, hup]; rfl, hSI, hI⟩

/-- The whole run, for any property `P` of the loop that holds on entry and that one pass of
the loop preserves. -/
theorem run_generic (P : State R → Int → List (Int × Score R) → Prop)
    (hstep : ∀ (st : State R) (w : Int) (log : List (Int × Score R)) (st3 : State R) (u : Int),
      StructInv st → w ∈ st.keys → P st w log → Iter st w st3 u →
      P st3 u (log ++ [(u, (st3.mem u).DGS)]))
    (order : List Int) (st : State R) (s : Int) (hLB : LoaderBuilt st) (hs : s ∈ st.keys)
    (horder : order.Perm st.keys)
    (hinit : ∀ stI : State R, StructInv stI → InitState st s stI → P stI s []) :
    ∃ (stH st' : State R) (w' : Int) (log : List (Int × Score R)),
      makeVertexHeap order st = some stH ∧ dijkstraTrace stH s = some (st', log) ∧
      StructInv st' ∧ st'.vh = [] ∧ st'.keys = st.keys ∧ w' ∈ st'.keys ∧ P st' w' log ∧
      (log.map Prod.fst).Perm st.keys := by
  have hnd : order.Nodup := horder.nodup_iff.2 hLB.1
  obtain ⟨stH, hmk, hposH, hordH, hkH, hpermH, hsdH, _⟩ :=
    makeVertexHeap_spec order st hnd (fun v hv => horder.mem_iff.1 hv)
  have hSH : StructInv stH := by
    refine ⟨hposH, hordH, ?_, ?_⟩
    · intro k hk hnot
      rw [hkH] at hk
      exact absurd (hpermH.mem_iff.2 (horder.mem_iff.2 hk)) hnot
    · intro k hk e he
      rw [hkH] at hk ⊢
      rw [(hsdH k).2.1] at he
      exact ((hLB.2 k hk).2.2 e he).2
  obtain ⟨stI, htr, hSI, hI⟩ := dijkstra_init st stH s hSH (hkH ▸ hs) hkH
    (hpermH.trans horder) hsdH (fun k hk => (hLB.2 k hk).1)
  obtain ⟨st', w', ext, hrun, hS', hvh', hk', hw', hP', hperm⟩ :=
    dijkstraLoop_spec P hstep stI.vh.length stI s [] hSI (hI.1 ▸ hs) (le_refl _)
      (hinit stI hSI hI)
  refine ⟨stH, st', w', ext, hmk, ?_, hS', hvh', hk'.trans hI.1, hw', by simpa using hP', ?_⟩
  · rw [htr, hrun]; simp
  · exact hperm.trans hI.2.2.1

/-! ### The search on a graph with non-negative weights -/

theorem dinv_init (st : State R) (s : Int) (hs : s ∈ st.keys) (stI : State R)
    (hI : InitState st s stI) : DInv st s stI s := by
  obtain ⟨hk, hall, hperm, hE, hd0, hl0, htop, _⟩ := hI
  have hdone : ∀ u ∈ stI.keys, Done stI s u → u = s := by
    intro u hu hdn
    rcases hdn with h | h
    · exact absurd (hall u (hk ▸ hu)) h
    · exact h
  refine ⟨hk, hE, hk ▸ hs, Or.inr rfl, ?_, ?_, ?_, ?_, ?_, hd0, ?_⟩
  · intro u hu hdn
    rw [hdone u hu hdn, hd0, hl0]
  · intro u hu hdn hne
    exact absurd (hdone u hu hdn) hne
  · intro u hu hdn
    rw [hdone u hu hdn]
  · intro v hv
    rw [hd0]
    by_cases h : v = s
    · rw [h, hd0]
    · have hvk : v ∈ st.keys := hperm.mem_iff.1 hv
      rw [htop v hvk h]
      exact le_top
  · intro v hv hvs hfin
    exact absurd (htop v (hk ▸ hv) hvs) hfin
  · intro v hv hfin
    by_cases h : v = s
    · rw [h, hd0]; exact Walk.nil
    · exact absurd (htop v (hk ▸ hv) h) hfin

theorem walk_mem_keys (st : State R) (s : Int) (hs : s ∈ st.keys)
    (hedges : ∀ k ∈ st.keys, ∀ e ∈ (st.mem k).Edges, e.HeadVertex ∈ st.keys) {v : Int}
    {x : Score R} (h : Walk st s v x) : v ∈ st.keys := by
  induction h with
  | nil => exact hs
  | cons u x e _ hu he _ => exact hedges u hu e he

theorem walk_finite (st : State R) (s : Int) (hfin : FiniteWeights st) {v : Int}
    {x : Score R} (h : Walk st s v x) : x ≠ ⊤ := by
  induction h with
  | nil => exact WithTop.zero_ne_top
  | cons u x e _ hu he ih => exact WithTop.add_ne_top.2 ⟨ih, hfin u hu e he⟩

/-- The run of `makeVertexHeap` and `dijkstra(s)` on a loader-built graph with non-negative
weights: it returns, the heap is empty, the loop invariant holds of the final state, and the
log of extractions is monotone. -/
theorem search_spec (order : List Int) (st : State R) (s : Int) (hLB : LoaderBuilt st)
    (hnn : NonNegWeights st) (hs : s ∈ st.keys) (horder : order.Perm st.keys) :
    ∃ (stH st' : State R) (w' : Int) (log : List (Int × Score R)),
      makeVertexHeap order st = some stH ∧ dijkstraTrace stH s = some (st', log) ∧
      StructInv st' ∧ st'.vh = [] ∧ st'.keys = st.keys ∧ w' ∈ st'.keys ∧
      (DInv st s st' w' ∧ LogMonotone log ∧ ∀ x ∈ log, x.2 ≤ (st'.mem w').DGS) ∧
      (log.map Prod.fst).Perm st.keys := by
  refine run_generic
    (fun st1 w log => DInv st s st1 w ∧ LogMonotone log ∧ ∀ x ∈ log, x.2 ≤ (st1.mem w).DGS)
    ?_ order st s hLB hs horder ?_
  · intro st1 w log st3 u _ hw hP hiter
    obtain ⟨inv, hmono, hbound⟩ := hP
    obtain ⟨inv3, hle⟩ := dinv_step st s hnn st1 w st3 u hw inv hiter
    refine ⟨inv3, ?_, ?_⟩
    · unfold LogMonotone at hmono ⊢
      rw [List.map_append, List.pairwise_append]
      refine ⟨hmono, by simp, ?_⟩
      intro a ha b hb
      simp only [List.map_cons, List.map_nil, List.mem_singleton] at hb
      obtain ⟨x, hx, rfl⟩ := List.mem_map.1 ha
      rw [hb]
      exact (hbound x hx).trans hle
    · intro x hx
      rcases List.mem_append.1 hx with h | h
      · exact (hbound x h).trans hle
      · simp only [List.mem_singleton] at h
        rw [h]
  · intro stI _ hI
    exact ⟨dinv_init st s hs stI hI, by simp [LogMonotone], by simp⟩

/-- What the invariant says once the heap is empty. -/
theorem dinv_final (st0 : State R) (s : Int) (hnn : NonNegWeights st0) (st : State R)
    (w : Int) (hw : w ∈ st.keys) (hvh : st.vh = [])
    (hedges : ∀ k ∈ st0.keys, ∀ e ∈ (st0.mem k).Edges, e.HeadVertex ∈ st0.keys)
    (inv : DInv st0 s st w) :
    (st.mem s).Length = 0 ∧
    (∀ u ∈ st0.keys, ∀ e ∈ (st0.mem u).Edges,
      (st.mem e.HeadVertex).Length ≤ (st.mem u).Length + e.Distance) ∧
    (∀ v x, Walk st0 s v x → (st.mem v).Length ≤ x) ∧
    (∀ v ∈ st0.keys, (st.mem v).Length ≠ ⊤ → Walk st0 s v (st.mem v).Length) ∧
    (∀ v ∈ st0.keys, v ≠ s → (st.mem v).Length ≠ ⊤ → ∃ u ∈ st0.keys,
      (st.mem u).Length ≠ ⊤ ∧ ∃ e ∈ (st0.mem u).Edges, e.HeadVertex = v ∧
        (st.mem v).Length = (st.mem u).Length + e.Distance) := by
  have hdone : ∀ u, Done st s u := fun u => Or.inl (by rw [hvh]; simp)
  have hlen : ∀ u ∈ st0.keys, (st.mem u).Length = (st.mem u).DGS :=
    fun u hu => inv.len_eq u (inv.keys_eq ▸ hu) (hdone u)
  have hs0 : s ∈ st0.keys := inv.keys_eq ▸ inv.s_mem
  have hsrc : (st.mem s).Length = 0 := by rw [hlen s hs0, inv.src]
  have htri : ∀ u ∈ st0.keys, ∀ e ∈ (st0.mem u).Edges,
      (st.mem e.HeadVertex).Length ≤ (st.mem u).Length + e.Distance := by
    intro u hu e he
    have hh := hedges u hu e he
    have huk : u ∈ st.keys := inv.keys_eq ▸ hu
    rw [hlen _ hh]
    by_cases huw : u = w
    · have h1 := inv.done_le e.HeadVertex (inv.keys_eq ▸ hh) (hdone _)
      rw [huw, hlen w (inv.keys_eq ▸ hw)]
      exact h1.trans (le_add_of_nonneg_right (hnn u hu e he))
    · exact inv.relaxed u huk (hdone u) huw e (by rw [inv.edges_eq]; exact he)
  refine ⟨hsrc, htri, ?_, ?_, ?_⟩
  · intro v x hwalk
    induction hwalk with
    | nil => rw [hsrc]
    | cons u x e _ hu he ih => exact (htri u hu e he).trans (add_le_add_right ih _)
  · intro v hv hfin
    rw [hlen v hv] at hfin ⊢
    exact inv.reach v (inv.keys_eq ▸ hv) hfin
  · intro v hv hvs hfin
    rw [hlen v hv] at hfin
    obtain ⟨u, hu, _, e, he, hev, heq⟩ := inv.tight v (inv.keys_eq ▸ hv) hvs hfin
    have hu0 : u ∈ st0.keys := inv.keys_eq ▸ hu
    refine ⟨u, hu0, ?_, e, by rw [← inv.edges_eq]; exact he, hev, by rw [hlen v hv]; exact heq⟩
    intro htop
    rw [heq, htop] at hfin
    exact hfin (WithTop.top_add _)

/-! ## The claims -/

theorem run_eq_of_trace (order : List Int) (st stH st' : State R) (s : Int)
    (log : List (Int × Score R)) (h1 : makeVertexHeap order st = some stH)
    (h2 : dijkstraTrace stH s = some (st', log)) : run order st s = some st' := by
  simp [run, dijkstra, h1, h2]

/-- The final state of a run on a loader-built graph with non-negative weights. -/
theorem search_final (order : List Int) (st : State R) (s : Int) (hLB : LoaderBuilt st)
    (hnn : NonNegWeights st) (hs : s ∈ st.keys) (horder : order.Perm st.keys) :
    ∃ st' : State R, run order st s = some st' ∧
      (st'.mem s).Length = 0 ∧
      (∀ u ∈ st.keys, ∀ e ∈ (st.mem u).Edges,
        (st'.mem e.HeadVertex).Length ≤ (st'.mem u).Length + e.Distance) ∧
      (∀ v x, Walk st s v x → (st'.mem v).Length ≤ x) ∧
      (∀ v ∈ st.keys, (st'.mem v).Length ≠ ⊤ → Walk st s v (st'.mem v).Length) ∧
      (∀ v ∈ st.keys, v ≠ s → (st'.mem v).Length ≠ ⊤ → ∃ u ∈ st.keys,
        (st'.mem u).Length ≠ ⊤ ∧ ∃ e ∈ (st.mem u).Edges, e.HeadVertex = v ∧
          (st'.mem v).Length = (st'.mem u).Length + e.Distance) := by
  obtain ⟨stH, st', w', log, hmk, htr, _, hvh, _, hw', ⟨inv, _, _⟩, _⟩ :=
    search_spec order st s hLB hnn hs horder
  exact ⟨st', run_eq_of_trace order st stH st' s log hmk htr,
    dinv_final st s hnn st' w' hw' hvh (fun k hk e he => ((hLB.2 k hk).2.2 e he).2) inv⟩

/-- In exact arithmetic (`run`): on a loader-built finite graph with finite non-negative
weights, for every source `s` of the graph and every enumeration order of the vertex map,
`makeVertexHeap` followed by `dijkstra(s)` returns, and the `Length` of every vertex is the
minimum total weight of the directed paths from `s` to it, and `+∞` when there is no such
path. -/
theorem run_computes_shortest_paths (order : List Int) (st : State R) (s : Int)
    (hLB : LoaderBuilt st) (hnn : NonNegWeights st) (hfin : FiniteWeights st)
    (hs : s ∈ st.keys) (horder : order.Perm st.keys) :
    ∃ st' : State R, run order st s = some st' ∧
      ∀ v ∈ st.keys, IsShortest st s v (st'.mem v).Length := by
  obtain ⟨st', hrun, _, _, hlow, hreach, _⟩ := search_final order st s hLB hnn hs horder
  refine ⟨st', hrun, fun v hv => ⟨fun y hy => hlow v y hy, ?_, ?_⟩⟩
  · rintro ⟨y, hy⟩
    refine hreach v hv (fun htop => ?_)
    have := hlow v y hy
    rw [htop, top_le_iff] at this
    exact walk_finite st s hfin hy this
  · intro hno
    by_contra hne
    exact hno ⟨_, hreach v hv hne⟩

/-- In exact arithmetic (`run`): on a loader-built graph with finite non-negative weights,
after `makeVertexHeap` and `dijkstra(s)` a vertex has `Length = +∞` if and only if no
directed path leads from `s` to it. -/
theorem run_length_top_iff_unreachable (order : List Int) (st : State R) (s : Int)
    (hLB : LoaderBuilt st) (hnn : NonNegWeights st) (hfin : FiniteWeights st)
    (hs : s ∈ st.keys) (horder : order.Perm st.keys) :
    ∃ st' : State R, run order st s = some st' ∧
      ∀ v ∈ st.keys, ((st'.mem v).Length = ⊤ ↔ ¬ ∃ y, Walk st s v y) := by
  obtain ⟨st', hrun, _, _, hlow, hreach, _⟩ := search_final order st s hLB hnn hs horder
  refine ⟨st', hrun, fun v hv => ⟨?_, ?_⟩⟩
  · rintro htop ⟨y, hy⟩
    have := hlow v y hy
    rw [htop, top_le_iff] at this
    exact walk_finite st s hfin hy this
  · intro hno
    by_contra hne
    exact hno ⟨_, hreach v hv hne⟩

/-- C3: on a loader-built graph with non-negative weights (self-loops, zero weights and
cycles included), after `makeVertexHeap` and `dijkstra(s)` the `Length` of the source is
`0`. -/
theorem source_length_zero (order : List Int) (st : State R) (s : Int)
    (hLB : LoaderBuilt st) (hnn : NonNegWeights st) (hs : s ∈ st.keys)
    (horder : order.Perm st.keys) :
    ∃ st' : State R, run order st s = some st' ∧ (st'.mem s).Length = 0 := by
  obtain ⟨st', hrun, h0, _⟩ := search_final order st s hLB hnn hs horder
  exact ⟨st', hrun, h0⟩

/-- C4: on a loader-built graph with non-negative weights, after `makeVertexHeap` and
`dijkstra(s)` every edge `(u → v, w)` whose endpoints are both reachable from `s` satisfies
`Length(v) ≤ Length(u) + w`. -/
theorem triangle_inequality (order : List Int) (st : State R) (s : Int)
    (hLB : LoaderBuilt st) (hnn : NonNegWeights st) (hs : s ∈ st.keys)
    (horder : order.Perm st.keys) :
    ∃ st' : State R, run order st s = some st' ∧
      ∀ u ∈ st.keys, ∀ e ∈ (st.mem u).Edges, (∃ x, Walk st s u x) →
        (∃ y, Walk st s e.HeadVertex y) →
        (st'.mem e.HeadVertex).Length ≤ (st'.mem u).Length + e.Distance := by
  obtain ⟨st', hrun, _, htri, _⟩ := search_final order st s hLB hnn hs horder
  exact ⟨st', hrun, fun u hu e he _ _ => htri u hu e he⟩

/-- C5: on a loader-built graph with finite non-negative weights, after `makeVertexHeap` and
`dijkstra(s)` every vertex `v ≠ s` reachable from `s` has an incoming edge `(u → v, w)` from
a reachable vertex `u` with `Length(v) = Length(u) + w`. -/
theorem tight_incoming_edge (order : List Int) (st : State R) (s : Int)
    (hLB : LoaderBuilt st) (hnn : NonNegWeights st) (hfin : FiniteWeights st)
    (hs : s ∈ st.keys) (horder : order.Perm st.keys) :
    ∃ st' : State R, run order st s = some st' ∧
      ∀ v ∈ st.keys, v ≠ s → (∃ y, Walk st s v y) →
        ∃ u ∈ st.keys, (∃ x, Walk st s u x) ∧ ∃ e ∈ (st.mem u).Edges, e.HeadVertex = v ∧
          (st'.mem v).Length = (st'.mem u).Length + e.Distance := by
  obtain ⟨st', hrun, _, _, hlow, hreach, htight⟩ := search_final order st s hLB hnn hs horder
  refine ⟨st', hrun, ?_⟩
  rintro v hv hvs ⟨y, hy⟩
  have hne : (st'.mem v).Length ≠ ⊤ := by
    intro htop
    have := hlow v y hy
    rw [htop, top_le_iff] at this
    exact walk_finite st s hfin hy this
  obtain ⟨u, hu, hufin, e, he, hev, heq⟩ := htight v hv hvs hne
  exact ⟨u, hu, ⟨_, hreach u hu hufin⟩, e, he, hev, heq⟩

/-- C6: on a non-empty heap that is heap ordered and position consistent, `heap.Pop` returns
a vertex of the heap whose `DGS` is at most the `DGS` of every vertex of the heap, sets its
`Index` to `-1`, and leaves a heap one shorter that holds exactly the other vertices and is
again heap ordered and position consistent. -/
theorem heap_Pop_extracts_min (st : State R) (hne : st.vh ≠ []) (hord : HeapOrdered st)
    (hpos : PosConsistent st) :
    ∃ (st' : State R) (u : Int), heap.Pop st = some (st', u) ∧ u ∈ st.vh ∧
      (∀ p ∈ st.vh, (st.mem u).DGS ≤ (st.mem p).DGS) ∧ (st'.mem u).Index = -1 ∧
      st'.vh.length + 1 = st.vh.length ∧ st.vh.Perm (u :: st'.vh) ∧
      (∀ p, (st'.mem p).DGS = (st.mem p).DGS) ∧ HeapOrdered st' ∧ PosConsistent st' := by
  have hlen : 0 < st.vh.length := List.length_pos.2 hne
  obtain ⟨st', hpop, hpos', hord', _, hlen', hmem', _, hsd', hidx', hmin'⟩ :=
    pop_spec st hpos hord hlen
  refine ⟨st', st.ptr 0, hpop, ptr_mem st 0 hlen, ?_, hidx', hlen', ?_,
    fun p => (hsd' p).2.2.1, hord', hpos'⟩
  · intro p hp
    obtain ⟨k, hk, rfl⟩ := exists_ptr_of_mem st hp
    exact hmin' k hk
  · refine (List.perm_ext_iff_of_nodup (nodup_of_posConsistent st hpos) ?_).2 ?_
    · rw [List.nodup_cons]
      exact ⟨fun hin => ((hmem' _).1 hin).2 rfl, nodup_of_posConsistent st' hpos'⟩
    · intro p
      rw [List.mem_cons, hmem' p]
      constructor
      · intro hp
        by_cases h : p = st.ptr 0
        · exact Or.inl h
        · exact Or.inr ⟨hp, h⟩
      · rintro (h | h)
        · rw [h]; exact ptr_mem st 0 hlen
        · exact h.1

/-- C7: on a heap that is heap ordered and position consistent, for a vertex `v` of the heap
and a new score `x ≤ v.DGS`, `update(v, x)` sets `v.DGS` to `x` and leaves a heap that holds
exactly the same vertices, each once, and is again heap ordered and position consistent. -/
theorem update_decrease_key (st : State R) (v : Int) (x : Score R) (hord : HeapOrdered st)
    (hpos : PosConsistent st) (hv : v ∈ st.vh) (hx : x ≤ (st.mem v).DGS) :
    ∃ st' : State R, VertexHeap.update st v x = some st' ∧ (st'.mem v).DGS = x ∧
      (∀ p, p ≠ v → (st'.mem p).DGS = (st.mem p).DGS) ∧
      st'.vh.Perm st.vh ∧ st'.vh.Nodup ∧ HeapOrdered st' ∧ PosConsistent st' := by
  obtain ⟨st', hup, hpos', hord', hfr⟩ := update_in_heap st hpos hord v hv x hx
  refine ⟨st', hup, ?_, ?_, ?_, nodup_of_posConsistent st' hpos', hord', hpos'⟩
  · rw [(hfr.2.2.2.2 v).2.2.1, setDGS_mem_same]
  · intro p hp
    rw [(hfr.2.2.2.2 p).2.2.1, setDGS_mem_ne st v x hp]
  · exact (List.perm_ext_iff_of_nodup (nodup_of_posConsistent st' hpos')
      (nodup_of_posConsistent st hpos)).2 hfr.2.2.1

/-- C8: for every graph and every order `order` in which the vertex map is enumerated,
`makeVertexHeap` returns a heap of length `|V|` that contains every vertex of the graph
exactly once, is heap ordered on `DGS`, and in which every vertex's `Index` is its index in
the heap slice. -/
theorem makeVertexHeap_builds_heap (order : List Int) (st : State R) (hkeys : st.keys.Nodup)
    (horder : order.Perm st.keys) :
    ∃ st' : State R, makeVertexHeap order st = some st' ∧ st'.vh.length = st.keys.length ∧
      st'.vh.Perm st.keys ∧ st'.vh.Nodup ∧ HeapOrdered st' ∧ PosConsistent st' ∧
      (∀ k ∈ st.keys, st'.vhAt (st'.mem k).Index = some k) ∧
      ∀ p, (st'.mem p).DGS = (st.mem p).DGS := by
  have hnd : order.Nodup := horder.nodup_iff.2 hkeys
  obtain ⟨st', hmk, hpos', hord', _, hperm', hsd', _⟩ :=
    makeVertexHeap_spec order st hnd (fun v hv => horder.mem_iff.1 hv)
  have hp : st'.vh.Perm st.keys := hperm'.trans horder
  refine ⟨st', hmk, hp.length_eq, hp, nodup_of_posConsistent st' hpos', hord', hpos', ?_,
    fun p => (hsd' p).2.2.1⟩
  intro k hk
  obtain ⟨i, hi, rfl⟩ := exists_ptr_of_mem st' (hp.mem_iff.2 hk)
  rw [(hpos' i hi).2]
  exact vhAt_natCast st' i hi

/-- C9: on a loader-built graph, whatever the sign of the edge weights, `dijkstra(s)` run
after `makeVertexHeap` returns, its loop makes exactly `|V|` extractions, every vertex of the
graph is extracted exactly once, and at the end the heap is empty and every vertex is out of
the heap (`Index = -1`). -/
theorem dijkstra_extracts_each_vertex_once (order : List Int) (st : State R) (s : Int)
    (hLB : LoaderBuilt st) (hs : s ∈ st.keys) (horder : order.Perm st.keys) :
    ∃ (stH st' : State R) (log : List (Int × Score R)),
      makeVertexHeap order st = some stH ∧ dijkstraTrace stH s = some (st', log) ∧
      dijkstra stH s = some st' ∧ log.length = st.keys.length ∧
      (log.map Prod.fst).Perm st.keys ∧ (log.map Prod.fst).Nodup ∧ st'.vh = [] ∧
      ∀ k ∈ st.keys, (st'.mem k).Index = -1 := by
  obtain ⟨stH, st', w', log, hmk, htr, hS', hvh', hk', _, _, hperm⟩ :=
    run_generic (fun _ _ _ => True) (fun _ _ _ _ _ _ _ _ _ => trivial) order st s hLB hs horder
      (fun _ _ _ => trivial)
  refine ⟨stH, st', log, hmk, htr, by simp [dijkstra, htr], ?_, hperm,
    hperm.nodup_iff.2 hLB.1, hvh', ?_⟩
  · have := hperm.length_eq
    simpa using this
  · intro k hk
    exact hS'.2.2.1 k (hk' ▸ hk) (by rw [hvh']; simp)

/-- C10: on a loader-built graph with non-negative weights, the `DGS` values of the vertices
at the moments `dijkstra(s)` extracts them form a non-decreasing sequence (`+∞` being the
greatest score). -/
theorem extraction_scores_monotone (order : List Int) (st : State R) (s : Int)
    (hLB : LoaderBuilt st) (hnn : NonNegWeights st) (hs : s ∈ st.keys)
    (horder : order.Perm st.keys) :
    ∃ (stH st' : State R) (log : List (Int × Score R)),
      makeVertexHeap order st = some stH ∧ dijkstraTrace stH s = some (st', log) ∧
      (log.map Prod.fst).Perm st.keys ∧ LogMonotone log := by
  obtain ⟨stH, st', w', log, hmk, htr, _, _, _, _, ⟨_, hmono, _⟩, hperm⟩ :=
    search_spec order st s hLB hnn hs horder
  exact ⟨stH, st', log, hmk, htr, hperm, hmono⟩

/-! ## Witnesses on concrete graphs -/

/-- The search in exact arithmetic on scenario S4 with the enumeration order 3, 1, 2. -/
theorem run_computes_shortest_paths_on_S4 :
    LoaderBuilt scenarioS4 ∧ NonNegWeights scenarioS4 ∧ FiniteWeights scenarioS4 ∧
      (1 : Int) ∈ scenarioS4.keys ∧ [3, 1, 2].Perm scenarioS4.keys ∧
      ∃ st' : State ℤ, run [3, 1, 2] scenarioS4 1 = some st' ∧
        ∀ v ∈ scenarioS4.keys, IsShortest scenarioS4 1 v (st'.mem v).Length :=
  ⟨by unfold LoaderBuilt; decide, by unfold NonNegWeights; decide,
    by unfold FiniteWeights; decide, by decide, by decide,
    run_computes_shortest_paths [3, 1, 2] scenarioS4 1 (by unfold LoaderBuilt; decide)
      (by unfold NonNegWeights; decide) (by unfold FiniteWeights; decide) (by decide)
      (by decide)⟩

/-- The search in exact arithmetic on scenario S4: the run ends with lengths `0`, `1` and
`+∞` for the vertices 1, 2 and 3. -/
theorem run_length_top_iff_unreachable_on_S4 :
    LoaderBuilt scenarioS4 ∧ NonNegWeights scenarioS4 ∧ FiniteWeights scenarioS4 ∧
      (1 : Int) ∈ scenarioS4.keys ∧ [1, 2, 3].Perm scenarioS4.keys ∧
      ((run [1, 2, 3] scenarioS4 1).map fun st' =>
        ((st'.mem 1).Length, (st'.mem 2).Length, (st'.mem 3).Length))
        = some (0, ((1 : ℤ) : Score ℤ), ⊤) ∧
      ∃ st' : State ℤ, run [1, 2, 3] scenarioS4 1 = some st' ∧
        ∀ v ∈ scenarioS4.keys, ((st'.mem v).Length = ⊤ ↔ ¬ ∃ y, Walk scenarioS4 1 v y) :=
  ⟨by unfold LoaderBuilt; decide, by unfold NonNegWeights; decide,
    by unfold FiniteWeights; decide, by decide, by decide, by decide,
    run_length_top_iff_unreachable [1, 2, 3] scenarioS4 1 (by unfold LoaderBuilt; decide)
      (by unfold NonNegWeights; decide) (by unfold FiniteWeights; decide) (by decide)
      (by decide)⟩

/-- Witness for C3 on scenario S3. -/
theorem source_length_zero_witness :
    LoaderBuilt scenarioS3 ∧ NonNegWeights scenarioS3 ∧ (1 : Int) ∈ scenarioS3.keys ∧
      [2, 3, 1].Perm scenarioS3.keys ∧
      ∃ st' : State ℤ, run [2, 3, 1] scenarioS3 1 = some st' ∧ (st'.mem 1).Length = 0 :=
  ⟨by unfold LoaderBuilt; decide, by unfold NonNegWeights; decide, by decide, by decide,
    source_length_zero [2, 3, 1] scenarioS3 1 (by unfold LoaderBuilt; decide)
      (by unfold NonNegWeights; decide) (by decide) (by decide)⟩

/-- Witness for C4 on scenario S3. -/
theorem triangle_inequality_witness :
    LoaderBuilt scenarioS3 ∧ NonNegWeights scenarioS3 ∧ (1 : Int) ∈ scenarioS3.keys ∧
      [3, 2, 1].Perm scenarioS3.keys ∧
      ∃ st' : State ℤ, run [3, 2, 1] scenarioS3 1 = some st' ∧
        ∀ u ∈ scenarioS3.keys, ∀ e ∈ (scenarioS3.mem u).Edges,
          (∃ x, Walk scenarioS3 1 u x) → (∃ y, Walk scenarioS3 1 e.HeadVertex y) →
          (st'.mem e.HeadVertex).Length ≤ (st'.mem u).Length + e.Distance :=
  ⟨by unfold LoaderBuilt; decide, by unfold NonNegWeights; decide, by decide, by decide,
    triangle_inequality [3, 2, 1] scenarioS3 1 (by unfold LoaderBuilt; decide)
      (by unfold NonNegWeights; decide) (by decide) (by decide)⟩

/-- Witness for C5 on scenario S3. -/
theorem tight_incoming_edge_witness :
    LoaderBuilt scenarioS3 ∧ NonNegWeights scenarioS3 ∧ FiniteWeights scenarioS3 ∧
      (1 : Int) ∈ scenarioS3.keys ∧ [1, 3, 2].Perm scenarioS3.keys ∧
      ∃ st' : State ℤ, run [1, 3, 2] scenarioS3 1 = some st' ∧
        ∀ v ∈ scenarioS3.keys, v ≠ 1 → (∃ y, Walk scenarioS3 1 v y) →
          ∃ u ∈ scenarioS3.keys, (∃ x, Walk scenarioS3 1 u x) ∧
            ∃ e ∈ (scenarioS3.mem u).Edges, e.HeadVertex = v ∧
              (st'.mem v).Length = (st'.mem u).Length + e.Distance :=
  ⟨by unfold LoaderBuilt; decide, by unfold NonNegWeights; decide,
    by unfold FiniteWeights; decide, by decide, by decide,
    tight_incoming_edge [1, 3, 2] scenarioS3 1 (by unfold LoaderBuilt; decide)
      (by unfold NonNegWeights; decide) (by unfold FiniteWeights; decide) (by decide)
      (by decide)⟩

/-- Witness for C6 on a heap of three vertices. -/
theorem heap_Pop_extracts_min_witness :
    smallHeap.vh ≠ [] ∧ HeapOrdered smallHeap ∧ PosConsistent smallHeap ∧
      ∃ (st' : State ℤ) (u : Int), heap.Pop smallHeap = some (st', u) ∧ u ∈ smallHeap.vh ∧
        (∀ p ∈ smallHeap.vh, (smallHeap.mem u).DGS ≤ (smallHeap.mem p).DGS) ∧
        (st'.mem u).Index = -1 ∧ st'.vh.length + 1 = smallHeap.vh.length ∧
        smallHeap.vh.Perm (u :: st'.vh) ∧ (∀ p, (st'.mem p).DGS = (smallHeap.mem p).DGS) ∧
        HeapOrdered st' ∧ PosConsistent st' :=
  ⟨by decide, by unfold HeapOrdered HeapOrderedUpTo; decide, by unfold PosConsistent; decide,
    heap_Pop_extracts_min smallHeap (by decide) (by unfold HeapOrdered HeapOrderedUpTo; decide)
      (by unfold PosConsistent; decide)⟩

/-- Witness for C7: the score of vertex 20 in a heap of three vertices is lowered from 3 to 0. -/
theorem update_decrease_key_witness :
    HeapOrdered smallHeap ∧ PosConsistent smallHeap ∧ (20 : Int) ∈ smallHeap.vh ∧
      (0 : Score ℤ) ≤ (smallHeap.mem 20).DGS ∧
      ∃ st' : State ℤ, VertexHeap.update smallHeap 20 0 = some st' ∧ (st'.mem 20).DGS = 0 ∧
        (∀ p, p ≠ 20 → (st'.mem p).DGS = (smallHeap.mem p).DGS) ∧
        st'.vh.Perm smallHeap.vh ∧ st'.vh.Nodup ∧ HeapOrdered st' ∧ PosConsistent st' :=
  ⟨by unfold HeapOrdered HeapOrderedUpTo; decide, by unfold PosConsistent; decide, by decide,
    by decide,
    update_decrease_key smallHeap 20 0 (by unfold HeapOrdered HeapOrderedUpTo; decide)
      (by unfold PosConsistent; decide) (by decide) (by decide)⟩

/-- Witness for C8 on scenario S3 with the enumeration order 3, 1, 2. -/
theorem makeVertexHeap_builds_heap_witness :
    scenarioS3.keys.Nodup ∧ [3, 1, 2].Perm scenarioS3.keys ∧
      ∃ st' : State ℤ, makeVertexHeap [3, 1, 2] scenarioS3 = some st' ∧
        st'.vh.length = scenarioS3.keys.length ∧ st'.vh.Perm scenarioS3.keys ∧ st'.vh.Nodup ∧
        HeapOrdered st' ∧ PosConsistent st' ∧
        (∀ k ∈ scenarioS3.keys, st'.vhAt (st'.mem k).Index = some k) ∧
        ∀ p, (st'.mem p).DGS = (scenarioS3.mem p).DGS :=
  ⟨by decide, by decide,
    makeVertexHeap_builds_heap [3, 1, 2] scenarioS3 (by decide) (by decide)⟩

/-- Witness for C9 on a graph with a negative edge. -/
theorem dijkstra_extracts_each_vertex_once_witness :
    LoaderBuilt negativeGraph ∧ (1 : Int) ∈ negativeGraph.keys ∧
      [2, 1, 3].Perm negativeGraph.keys ∧
      ∃ (stH st' : State ℤ) (log : List (Int × Score ℤ)),
        makeVertexHeap [2, 1, 3] negativeGraph = some stH ∧
        dijkstraTrace stH 1 = some (st', log) ∧ dijkstra stH 1 = some st' ∧
        log.length = negativeGraph.keys.length ∧ (log.map Prod.fst).Perm negativeGraph.keys ∧
        (log.map Prod.fst).Nodup ∧ st'.vh = [] ∧
        ∀ k ∈ negativeGraph.keys, (st'.mem k).Index = -1 :=
  ⟨by unfold LoaderBuilt; decide, by decide, by decide,
    dijkstra_extracts_each_vertex_once [2, 1, 3] negativeGraph 1
      (by unfold LoaderBuilt; decide) (by decide) (by decide)⟩

/-- Witness for C10 on scenario S3. -/
theorem extraction_scores_monotone_witness :
    LoaderBuilt scenarioS3 ∧ NonNegWeights scenarioS3 ∧ (1 : Int) ∈ scenarioS3.keys ∧
      [3, 1, 2].Perm scenarioS3.keys ∧
      ∃ (stH st' : State ℤ) (log : List (Int × Score ℤ)),
        makeVertexHeap [3, 1, 2] scenarioS3 = some stH ∧
        dijkstraTrace stH 1 = some (st', log) ∧
        (log.map Prod.fst).Perm scenarioS3.keys ∧ LogMonotone log :=
  ⟨by unfold LoaderBuilt; decide, by unfold NonNegWeights; decide, by decide, by decide,
    extraction_scores_monotone [3, 1, 2] scenarioS3 1 (by unfold LoaderBuilt; decide)
      (by unfold NonNegWeights; decide) (by decide) (by decide)⟩

/-! ## The loader -/

/-- One pass of the inner loop of `readFile` on a token whose weight part converts without
error: the target vertex is created when absent, the edge is appended to the vertex of the
line, and the loop goes on with the remaining tokens.  The result of `Atoi` on the id part
is used whether or not that conversion failed. -/
theorem readEdges_cons (w : Int) (tok : EdgeToken R) (rest : List (EdgeToken R))
    (st : State R) (x : Score R) (hw : tok.weightPart = some ⟨x, false⟩) :
    readEdges w (tok :: rest) st = readEdges w rest
      ((getOrCreate st (Atoi tok.idPart).value).store w
        (((getOrCreate st (Atoi tok.idPart).value).mem w).AddEdge
          ⟨(Atoi tok.idPart).value, (Atoi tok.idPart).value, x⟩)) := by
  simp [readEdges, hw]

theorem getOrCreate_mem_keys (st : State R) (id : Int) : id ∈ (getOrCreate st id).keys := by
  unfold getOrCreate
  split
  · assumption
  · simp

/-- A failed `ParseInt` reports one of the two errors; on `ErrSyntax` its value is `0`, on
`ErrRange` it is the smallest `int` when the string starts with `-` and the largest `int`
otherwise. -/
theorem ParseInt_error_value (s : List Char) :
    ((ParseInt s).2 = some NumError.ErrSyntax → (ParseInt s).1 = 0) ∧
    ((ParseInt s).2 = some NumError.ErrRange →
      (ParseInt s).1 = if s.head? = some '-' then -(2 ^ 63) else 2 ^ 63 - 1) := by
  unfold ParseInt
  simp only
  generalize (if s.head? = some '+' ∨ s.head? = some '-' then s.tail else s) = body
  by_cases hb : body = []
  · simp [hb]
  · cases hp : parseUintLoop body 0 with
    | none => simp [hb, hp]
    | some o =>
      cases o with
      | none => by_cases hn : s.head? = some '-' <;> simp [hb, hp, hn]
      | some un =>
        simp only [hp, if_neg hb]
        by_cases hn : s.head? = some '-'
        · simp only [if_pos hn]
          by_cases hc : 2 ^ 63 < un
          · rw [if_pos hc]; simp
          · rw [if_neg hc]; simp
        · simp only [if_neg hn]
          by_cases hc : 2 ^ 63 ≤ un
          · rw [if_pos hc]; simp
          · rw [if_neg hc]; simp

theorem Atoi_failed_error (s : List Char) (h : (Atoi s).failed = true) :
    (ParseInt s).2 = some NumError.ErrSyntax ∨ (ParseInt s).2 = some NumError.ErrRange := by
  have h1 : (ParseInt s).2.isSome = true := h
  cases hp : (ParseInt s).2 with
  | none => rw [hp] at h1; simp at h1
  | some e => cases e <;> simp

theorem getOrCreate_mem_of_mem (st : State R) (id w : Int) (hw : w ∈ st.keys) :
    (getOrCreate st id).mem w = st.mem w ∧ w ∈ (getOrCreate st id).keys := by
  unfold getOrCreate
  split
  · exact ⟨rfl, hw⟩
  · rename_i h
    have hne : w ≠ id := fun e => h (e ▸ hw)
    exact ⟨by simp [Function.update_noteq hne], by simp [hw]⟩

/-- C14 (as amended): `AddEdge` appends every `NodeTuple` to the end of the vertex's `Edges`,
whatever its `Distance`, and the inner loop of `readFile` appends the edge of every token
whose weight converts without error, whatever the sign of the weight: it goes on with the
next token and the edge is the last edge of the line's vertex. -/
theorem AddEdge_appends_any_weight (v : Vertex R) (i : NodeTuple R) (w : Int)
    (tok : EdgeToken R) (rest : List (EdgeToken R)) (st : State R) (x : Score R)
    (hw : tok.weightPart = some ⟨x, false⟩) (hwk : w ∈ st.keys) :
    (v.AddEdge i).Edges = v.Edges ++ [i] ∧
    ∃ st2 : State R, readEdges w (tok :: rest) st = readEdges w rest st2 ∧
      (st2.mem w).Edges
        = (st.mem w).Edges ++ [⟨(Atoi tok.idPart).value, (Atoi tok.idPart).value, x⟩] := by
  refine ⟨rfl, _, readEdges_cons w tok rest st x hw, ?_⟩
  simp [State.store, Vertex.AddEdge, (getOrCreate_mem_of_mem st _ w hwk).1]

/-- Witness for C14 (as amended): a token with weight `-1` on the line of vertex 1. -/
theorem AddEdge_appends_any_weight_witness :
    (⟨['2'], some ⟨((-1 : ℤ) : Score ℤ), false⟩⟩ : EdgeToken ℤ).weightPart
        = some ⟨((-1 : ℤ) : Score ℤ), false⟩ ∧
      (1 : Int) ∈ scenarioS3.keys ∧
      (((loaderVertex 1 []).AddEdge ⟨2, 2, ((-1 : ℤ) : Score ℤ)⟩).Edges
        = (loaderVertex 1 []).Edges ++ [⟨2, 2, ((-1 : ℤ) : Score ℤ)⟩] ∧
      ∃ st2 : State ℤ,
        readEdges 1 [⟨['2'], some ⟨((-1 : ℤ) : Score ℤ), false⟩⟩] scenarioS3
          = readEdges 1 [] st2 ∧
        (st2.mem 1).Edges = (scenarioS3.mem 1).Edges
          ++ [⟨(Atoi ['2']).value, (Atoi ['2']).value, ((-1 : ℤ) : Score ℤ)⟩]) :=
  ⟨rfl, by decide,
    AddEdge_appends_any_weight (loaderVertex 1 []) ⟨2, 2, ((-1 : ℤ) : Score ℤ)⟩ 1
      ⟨['2'], some ⟨((-1 : ℤ) : Score ℤ), false⟩⟩ [] scenarioS3 ((-1 : ℤ) : Score ℤ) rfl
      (by decide)⟩

/-- Counterexample to C14: the edge `2,-1` is appended by `AddEdge`, and `readFile` on the
single line `1 2,-1` reports no error and gives vertex 1 the edge to 2 of weight `-1`. -/
theorem AddEdge_negative_weight_counterexample :
    ((-1 : ℤ) : Score ℤ) < 0 ∧
      (((loaderVertex 1 []).AddEdge ⟨2, 2, ((-1 : ℤ) : Score ℤ)⟩).Edges.map
        fun e => (e.HeadVertexId, e.Distance)) = [(2, ((-1 : ℤ) : Score ℤ))] ∧
      ((readFile ([⟨some ['1'], [⟨['2'], some ⟨((-1 : ℤ) : Score ℤ), false⟩⟩]⟩] :
          List (Line ℤ))).map fun r =>
        (r.2, r.1.keys, (r.1.mem 1).Edges.map fun e => (e.HeadVertexId, e.Distance)))
        = some (false, [1, 2], [(2, ((-1 : ℤ) : Score ℤ))]) := by
  decide

/-- C20 (as amended): in the inner loop of `readFile`, for an edge token whose id part fails
to convert while its weight part converts, no error is reported and the loop goes on with the
next token; the target vertex, whose id is the value that the failed `Atoi` returned, is in
the map afterwards, and the edge with that target and the token's weight is the last edge of
the line's vertex.  The failed conversion reports a syntax error or a range error: on a
syntax error the target id is `0`; on a range error it is the smallest `int` when the id part
starts with `-`, and the largest `int` otherwise. -/
theorem readFile_masks_failed_id (w : Int) (tok : EdgeToken R) (rest : List (EdgeToken R))
    (st : State R) (x : Score R) (hid : (Atoi tok.idPart).failed = true)
    (hw : tok.weightPart = some ⟨x, false⟩) (hwk : w ∈ st.keys) :
    ∃ st2 : State R, readEdges w (tok :: rest) st = readEdges w rest st2 ∧
      (Atoi tok.idPart).value ∈ st2.keys ∧
      (st2.mem w).Edges
        = (st.mem w).Edges ++ [⟨(Atoi tok.idPart).value, (Atoi tok.idPart).value, x⟩] ∧
      ((ParseInt tok.idPart).2 = some NumError.ErrSyntax ∨
        (ParseInt tok.idPart).2 = some NumError.ErrRange) ∧
      ((ParseInt tok.idPart).2 = some NumError.ErrSyntax → (Atoi tok.idPart).value = 0) ∧
      ((ParseInt tok.idPart).2 = some NumError.ErrRange →
        (Atoi tok.idPart).value
          = if tok.idPart.head? = some '-' then -(2 ^ 63) else 2 ^ 63 - 1) := by
  refine ⟨_, readEdges_cons w tok rest st x hw, ?_, ?_, Atoi_failed_error _ hid,
    (ParseInt_error_value _).1, (ParseInt_error_value _).2⟩
  · exact getOrCreate_mem_keys st _
  · simp [State.store, Vertex.AddEdge, (getOrCreate_mem_of_mem st _ w hwk).1]

/-- Witness for C20 (as amended): the token `x,1` on the line of vertex 1; the conversion of
`x` fails with a syntax error, and the edge goes to vertex `0`. -/
theorem readFile_masks_failed_id_witness :
    (Atoi ['x']).failed = true ∧ (1 : Int) ∈ scenarioS3.keys ∧
      (ParseInt ['x']).2 = some NumError.ErrSyntax ∧ (Atoi ['x']).value = 0 ∧
      ∃ st2 : State ℤ,
        readEdges 1 [⟨['x'], some ⟨((1 : ℤ) : Score ℤ), false⟩⟩] scenarioS3
          = readEdges 1 [] st2 ∧
        (Atoi ['x']).value ∈ st2.keys ∧
        (st2.mem 1).Edges = (scenarioS3.mem 1).Edges
          ++ [⟨(Atoi ['x']).value, (Atoi ['x']).value, ((1 : ℤ) : Score ℤ)⟩] ∧
        ((ParseInt ['x']).2 = some NumError.ErrSyntax ∨
          (ParseInt ['x']).2 = some NumError.ErrRange) ∧
        ((ParseInt ['x']).2 = some NumError.ErrSyntax → (Atoi ['x']).value = 0) ∧
        ((ParseInt ['x']).2 = some NumError.ErrRange →
          (Atoi ['x']).value = if ['x'].head? = some '-' then -(2 ^ 63) else 2 ^ 63 - 1) :=
  ⟨by decide, by decide, by decide, by decide,
    readFile_masks_failed_id 1 ⟨['x'], some ⟨((1 : ℤ) : Score ℤ), false⟩⟩ [] scenarioS3
      ((1 : ℤ) : Score ℤ) (by decide) rfl (by decide)⟩

/-- Counterexample to C20: on the single line `1 99999999999999999999,1` the conversion of
the id part fails with a range error, no error is reported, and the edge goes to the vertex
`9223372036854775807`, which is created; no vertex `0` exists. -/
theorem readFile_failed_id_not_zero_counterexample :
    (Atoi "99999999999999999999".toList).failed = true ∧
      (ParseInt "99999999999999999999".toList).2 = some NumError.ErrRange ∧
      ((readFile ([⟨some ['1'], [⟨"99999999999999999999".toList,
          some ⟨((1 : ℤ) : Score ℤ), false⟩⟩]⟩] : List (Line ℤ))).map fun r =>
        (r.2, r.1.keys, (r.1.mem 1).Edges.map fun e => (e.HeadVertexId, e.Distance)))
        = some (false, [1, 9223372036854775807],
            [(9223372036854775807, ((1 : ℤ) : Score ℤ))]) := by
  decide

/-- C16: on scenario S3 (edges 1→2 of weight 1, 1→3 of weight 4, 2→3 of weight 2), for
every order in which `makeVertexHeap` enumerates the three vertices, `makeVertexHeap`
followed by `dijkstra(1)` ends with `Length(1) = 0`, `Length(2) = 1` and `Length(3) = 3`. -/
theorem scenario_S3_lengths (order : List Int) (horder : order.Perm scenarioS3.keys) :
    (run order scenarioS3 1).map (fun st' =>
        ((st'.mem 1).Length, (st'.mem 2).Length, (st'.mem 3).Length))
      = some (0, ((1 : ℤ) : Score ℤ), ((3 : ℤ) : Score ℤ)) := by
  have hall : ∀ a ∈ [(1 : Int), 2, 3], ∀ b ∈ [(1 : Int), 2, 3], ∀ c ∈ [(1 : Int), 2, 3],
      [a, b, c].Perm [1, 2, 3] →
      (run [a, b, c] scenarioS3 1).map (fun st' =>
        ((st'.mem 1).Length, (st'.mem 2).Length, (st'.mem 3).Length))
      = some (0, ((1 : ℤ) : Score ℤ), ((3 : ℤ) : Score ℤ)) := by decide
  have hlen : order.length = 3 := horder.length_eq
  obtain ⟨a, b, c, rfl⟩ := List.length_eq_three.1 hlen
  exact hall a (horder.mem_iff.1 (by simp)) b (horder.mem_iff.1 (by simp)) c
    (horder.mem_iff.1 (by simp)) horder

/-- Witness for C16: the enumeration order 3, 2, 1. -/
theorem scenario_S3_lengths_witness :
    [3, 2, 1].Perm scenarioS3.keys ∧
      (run [3, 2, 1] scenarioS3 1).map (fun st' =>
          ((st'.mem 1).Length, (st'.mem 2).Length, (st'.mem 3).Length))
        = some (0, ((1 : ℤ) : Score ℤ), ((3 : ℤ) : Score ℤ)) :=
  ⟨by decide, scenario_S3_lengths [3, 2, 1] (by decide)⟩

/-- C13: on a loader-built graph, whatever the edge weights, `makeVertexHeap` returns and
afterwards `dijkstra(id)` aborts (nil dereference of `VertexMap[id]`) exactly when `id` is
not the id of a vertex of the graph; for every id present it runs to completion.  In
particular it aborts for every id on the empty graph. -/
theorem dijkstra_fails_iff_source_absent (order : List Int) (st : State R)
    (hLB : LoaderBuilt st) (horder : order.Perm st.keys) :
    ∃ stH : State R, makeVertexHeap order st = some stH ∧
      (∀ id, dijkstra stH id = none ↔ id ∉ st.keys) ∧
      (st.keys = [] → ∀ id, dijkstra stH id = none) := by
  have hnd : order.Nodup := horder.nodup_iff.2 hLB.1
  obtain ⟨stH, hmk, _, _, hkH, _⟩ :=
    makeVertexHeap_spec order st hnd (fun v hv => horder.mem_iff.1 hv)
  have hiff : ∀ id, dijkstra stH id = none ↔ id ∉ st.keys := by
    intro id
    constructor
    · intro hnone hid
      obtain ⟨stH', st', _, log, hmk', htr, _⟩ :=
        run_generic (fun _ _ _ => True) (fun _ _ _ _ _ _ _ _ _ => trivial) order st id hLB hid
          horder (fun _ _ _ => trivial)
      rw [hmk] at hmk'
      have e : stH' = stH := (Option.some.inj hmk').symm
      rw [e] at htr
      simp [dijkstra, htr] at hnone
    · intro hid
      have : stH.VertexMap id = none := by
        simp [State.VertexMap, hkH, hid]
      simp [dijkstra, dijkstraTrace, this]
  refine ⟨stH, hmk, hiff, ?_⟩
  intro hempty id
  exact (hiff id).2 (by rw [hempty]; simp)

/-- Witness for C13 on scenario S3. -/
theorem dijkstra_fails_iff_source_absent_witness :
    LoaderBuilt scenarioS3 ∧ [3, 1, 2].Perm scenarioS3.keys ∧
      ∃ stH : State ℤ, makeVertexHeap [3, 1, 2] scenarioS3 = some stH ∧
        (∀ id, dijkstra stH id = none ↔ id ∉ scenarioS3.keys) ∧
        (scenarioS3.keys = [] → ∀ id, dijkstra stH id = none) :=
  ⟨by unfold LoaderBuilt; decide, by decide,
    dijkstra_fails_iff_source_absent [3, 1, 2] scenarioS3 (by unfold LoaderBuilt; decide)
      (by decide)⟩

/-! ### `update` outside its precondition -/

theorem upExcept_of_heapFrom (key : Nat → Score R) (n j : Nat) (h : HeapFrom key 0 n)
    (hj : j < n) : UpExcept key n j := by
  constructor
  · intro c hc h0 _
    exact h c hc h0 (Nat.zero_le _)
  · intro hj0 c hc h0 hp
    have h1 := h c hc h0 (Nat.zero_le _)
    rw [hp] at h1
    exact (h j hj hj0 (Nat.zero_le _)).trans h1

theorem update_increase (st : State R) (hpos : PosConsistent st) (hord : HeapOrdered st)
    (v : Int) (hv : v ∈ st.vh) (x : Score R) (hx : (st.mem v).DGS ≤ x) :
    ∃ st' : State R, VertexHeap.update st v x = some st' ∧ PosConsistent st' ∧
      HeapOrdered st' ∧ Frame (st.setDGS v x) st' := by
  obtain ⟨i, hi, rfl⟩ := exists_ptr_of_mem st hv
  have hpos1 := setDGS_posConsistent st hpos (st.ptr i) x
  have hkey : ∀ k, k < st.vh.length →
      (st.setDGS (st.ptr i) x).key k = if k = i then x else st.key k := by
    intro k hk
    rw [setDGS_key]
    by_cases h : k = i
    · subst h; simp
    · rw [if_neg h, if_neg (fun e => h (ptr_inj st hpos hk hi e))]
  have hxi : st.key i ≤ x := hx
  have hlen : (st.setDGS (st.ptr i) x).vh.length = st.vh.length := rfl
  rw [update_eq_fix st _ x (hpos i hi).1, (hpos i hi).2]
  have hex : HeapExcept (st.setDGS (st.ptr i) x).key 0 st.vh.length i := by
    constructor
    · intro c hc h0 _ hp
      rw [hkey c hc, hkey _ (by omega), if_neg hp]
      have := hord c hc h0
      by_cases hci : c = i
      · rw [if_pos hci]; subst hci; exact this.trans hxi
      · rw [if_neg hci]; exact this
    · intro hi0 _ c hc h0 hp
      rw [hkey c hc, if_neg (by omega), hkey _ (by omega), if_neg (by omega)]
      have h1 := hord c hc h0
      rw [hp] at h1
      exact (hord i hi hi0).trans h1
  obtain ⟨st2, b, hdown, hpos2, hfr2, hfrom2, _⟩ :=
    down_spec (st.setDGS (st.ptr i) x) i st.vh.length 0 hpos1 (le_of_eq hlen.symm)
      (Nat.zero_le _) hex
  have hlen2 : st2.vh.length = st.vh.length := hfr2.2.1
  cases b with
  | true =>
    refine ⟨st2, ?_, hpos2, ?_, hfr2⟩
    · simp [heap.Fix, VertexHeap.Len, hlen, hdown]
    · rw [← heapFrom_zero_iff, hlen2]; exact hfrom2
  | false =>
    have hex2 : UpExcept st2.key st2.vh.length i := by
      rw [hlen2]; exact upExcept_of_heapFrom _ _ i hfrom2 hi
    obtain ⟨st3, hup, hpos3, hfr3, hfrom3, _⟩ := up_spec st2 i hpos2 (by omega) hex2
    refine ⟨st3, ?_, hpos3, ?_, frame_trans hfr2 hfr3⟩
    · simp [heap.Fix, VertexHeap.Len, hlen, hdown, hup]
    · rw [← heapFrom_zero_iff, hfr3.2.1]; exact hfrom3

/-- C12 (as amended): `update(v, x)` does not reject a call outside the precondition of
decrease-key.  On a heap that is heap ordered and position consistent, for a vertex `v` of
the map that is out of the heap (`Index = -1`) or is in the heap with `v.DGS < x`, the call
returns normally and overwrites `v.DGS` with `x`; the heap keeps the same vertices and is
again heap ordered and position consistent, and when `v` is out of the heap the heap slice
is left as it is. -/
theorem update_outside_precondition (st : State R) (v : Int) (x : Score R)
    (hpos : PosConsistent st) (hord : HeapOrdered st) (hv : v ∈ st.keys)
    (h : (st.mem v).Index = -1 ∨ (v ∈ st.vh ∧ (st.mem v).DGS < x)) :
    ∃ st' : State R, VertexHeap.update st v x = some st' ∧ (st'.mem v).DGS = x ∧
      st'.vh.Perm st.vh ∧ HeapOrdered st' ∧ PosConsistent st' ∧
      ((st.mem v).Index = -1 → st'.vh = st.vh) := by
  have hidx : (st.mem v).Index = -1 → v ∉ st.vh := by
    intro hi hin
    obtain ⟨i, hil, rfl⟩ := exists_ptr_of_mem st hin
    have := (hpos i hil).2
    omega
  by_cases hout : (st.mem v).Index = -1
  · have hnin := hidx hout
    refine ⟨st.setDGS v x, update_out_of_heap st v hv hout x, ?_, List.Perm.refl _, ?_,
      setDGS_posConsistent st hpos v x, fun _ => rfl⟩
    · rw [setDGS_mem_same]
    · intro k hk h0
      have hk' : k < st.vh.length := hk
      have h1 : st.ptr k ≠ v := fun e => hnin (e ▸ ptr_mem st k hk')
      have h2 : st.ptr ((k - 1) / 2) ≠ v := fun e => hnin (e ▸ ptr_mem st _ (by omega))
      rw [setDGS_key, setDGS_key, if_neg h1, if_neg h2]
      exact hord k hk' h0
  · rcases h with h | ⟨hin, hlt⟩
    · exact absurd h hout
    · obtain ⟨st', hup, hpos', hord', hfr⟩ := update_increase st hpos hord v hin x hlt.le
      refine ⟨st', hup, ?_, ?_, hord', hpos', fun h => absurd h hout⟩
      · rw [(hfr.2.2.2.2 v).2.2.1, setDGS_mem_same]
      · exact (List.perm_ext_iff_of_nodup (nodup_of_posConsistent st' hpos')
          (nodup_of_posConsistent st hpos)).2 hfr.2.2.1

/-- Witness for C12 (as amended): `update(10, 0)` on a heap that vertex 10 has left. -/
theorem update_outside_precondition_witness :
    PosConsistent settledHeap ∧ HeapOrdered settledHeap ∧ (10 : Int) ∈ settledHeap.keys ∧
      ((settledHeap.mem 10).Index = -1 ∨
        ((10 : Int) ∈ settledHeap.vh ∧ (settledHeap.mem 10).DGS < 0)) ∧
      ∃ st' : State ℤ, VertexHeap.update settledHeap 10 0 = some st' ∧
        (st'.mem 10).DGS = 0 ∧ st'.vh.Perm settledHeap.vh ∧ HeapOrdered st' ∧
        PosConsistent st' ∧ ((settledHeap.mem 10).Index = -1 → st'.vh = settledHeap.vh) :=
  ⟨by unfold PosConsistent; decide, by unfold HeapOrdered HeapOrderedUpTo; decide, by decide,
    by decide,
    update_outside_precondition settledHeap 10 0 (by unfold PosConsistent; decide)
      (by unfold HeapOrdered HeapOrderedUpTo; decide) (by decide) (by decide)⟩

/-- Counterexample to C12: `update(10, 0)` on a vertex with `Index = -1` returns normally
and overwrites its `DGS` `1` with `0`; `update(10, 5)` on the root of a heap, whose `DGS` is
`1 < 5`, returns normally and overwrites its `DGS` with `5`. -/
theorem update_does_not_reject_counterexample :
    (settledHeap.mem 10).Index = -1 ∧
      ((VertexHeap.update settledHeap 10 0).map fun st' => ((st'.mem 10).DGS, st'.vh))
        = some (0, [30, 20]) ∧
      (10 : Int) ∈ smallHeap.vh ∧ (smallHeap.mem 10).DGS < ((5 : ℤ) : Score ℤ) ∧
      ((VertexHeap.update smallHeap 10 ((5 : ℤ) : Score ℤ)).map fun st' =>
          ((st'.mem 10).DGS, st'.vh))
        = some (((5 : ℤ) : Score ℤ), [30, 20, 10]) := by
  decide

/-! ### Independence of the orders -/

theorem walk_of_perm (st1 st2 : State R) (s : Int) (hkeys : st2.keys.Perm st1.keys)
    (hedges : ∀ k ∈ st1.keys, (st2.mem k).Edges.Perm (st1.mem k).Edges) {v : Int}
    {x : Score R} (h : Walk st1 s v x) : Walk st2 s v x := by
  induction h with
  | nil => exact Walk.nil
  | cons u x e _ hu he ih =>
    exact Walk.cons u x e ih (hkeys.mem_iff.2 hu) ((hedges u hu).mem_iff.2 he)

/-- C15: on a loader-built graph with non-negative weights, two runs of `makeVertexHeap` and
`dijkstra(s)` that differ only in the order of the edges inside each `Edges` list, in the
order of the keys of the map and in the order in which `makeVertexHeap` enumerates the
vertices give every vertex the same `Length`. -/
theorem lengths_independent_of_order (o1 o2 : List Int) (st1 st2 : State R) (s : Int)
    (hLB1 : LoaderBuilt st1) (hLB2 : LoaderBuilt st2) (hnn : NonNegWeights st1)
    (hkeys : st2.keys.Perm st1.keys)
    (hedges : ∀ k ∈ st1.keys, (st2.mem k).Edges.Perm (st1.mem k).Edges)
    (hs : s ∈ st1.keys) (ho1 : o1.Perm st1.keys) (ho2 : o2.Perm st2.keys) :
    ∃ st1' st2' : State R, run o1 st1 s = some st1' ∧ run o2 st2 s = some st2' ∧
      ∀ v ∈ st1.keys, (st1'.mem v).Length = (st2'.mem v).Length := by
  have hnn2 : NonNegWeights st2 := by
    intro k hk e he
    have hk1 := hkeys.mem_iff.1 hk
    exact hnn k hk1 e ((hedges k hk1).mem_iff.1 he)
  have hedges' : ∀ k ∈ st2.keys, (st1.mem k).Edges.Perm (st2.mem k).Edges :=
    fun k hk => (hedges k (hkeys.mem_iff.1 hk)).symm
  obtain ⟨st1', hrun1, _, _, hlow1, hreach1, _⟩ := search_final o1 st1 s hLB1 hnn hs ho1
  obtain ⟨st2', hrun2, _, _, hlow2, hreach2, _⟩ :=
    search_final o2 st2 s hLB2 hnn2 (hkeys.mem_iff.2 hs) ho2
  refine ⟨st1', st2', hrun1, hrun2, fun v hv => ?_⟩
  have hv2 : v ∈ st2.keys := hkeys.mem_iff.2 hv
  by_cases h1 : (st1'.mem v).Length = ⊤
  · by_cases h2 : (st2'.mem v).Length = ⊤
    · rw [h1, h2]
    · have hw := walk_of_perm st2 st1 s hkeys.symm hedges' (hreach2 v hv2 h2)
      have := hlow1 v _ hw
      rw [h1, top_le_iff] at this
      exact absurd this h2
  · have hw1 := walk_of_perm st1 st2 s hkeys hedges (hreach1 v hv h1)
    have hle2 := hlow2 v _ hw1
    have h2 : (st2'.mem v).Length ≠ ⊤ := fun e => h1 (top_le_iff.1 (e ▸ hle2))
    have hw2 := walk_of_perm st2 st1 s hkeys.symm hedges' (hreach2 v hv2 h2)
    exact le_antisymm (hlow1 v _ hw2) hle2

/-- Witness for C15: scenario S7 and the same graph with its lines and the edges of vertex
1 in another order, under two enumeration orders. -/
theorem lengths_independent_of_order_witness :
    LoaderBuilt scenarioS7 ∧ LoaderBuilt scenarioS7shuffled ∧ NonNegWeights scenarioS7 ∧
      scenarioS7shuffled.keys.Perm scenarioS7.keys ∧
      (∀ k ∈ scenarioS7.keys, (scenarioS7shuffled.mem k).Edges.Perm (scenarioS7.mem k).Edges) ∧
      (1 : Int) ∈ scenarioS7.keys ∧ [1, 2, 3, 4].Perm scenarioS7.keys ∧
      [3, 4, 1, 2].Perm scenarioS7shuffled.keys ∧
      ∃ st1' st2' : State ℤ, run [1, 2, 3, 4] scenarioS7 1 = some st1' ∧
        run [3, 4, 1, 2] scenarioS7shuffled 1 = some st2' ∧
        ∀ v ∈ scenarioS7.keys, (st1'.mem v).Length = (st2'.mem v).Length :=
  ⟨by unfold LoaderBuilt; decide, by unfold LoaderBuilt; decide,
    by unfold NonNegWeights; decide, by decide, by
      intro k hk
      simp only [scenarioS7, List.mem_cons, List.mem_singleton, List.not_mem_nil,
        or_false] at hk
      rcases hk with rfl | rfl | rfl | rfl
      · exact List.Perm.swap _ _ _
      · exact List.Perm.refl _
      · exact List.Perm.refl _
      · exact List.Perm.refl _,
    by decide, by decide, by decide,
    lengths_independent_of_order [1, 2, 3, 4] [3, 4, 1, 2] scenarioS7 scenarioS7shuffled 1
      (by unfold LoaderBuilt; decide) (by unfold LoaderBuilt; decide)
      (by unfold NonNegWeights; decide) (by decide) (by
        intro k hk
        simp only [scenarioS7, List.mem_cons, List.mem_singleton, List.not_mem_nil,
          or_false] at hk
        rcases hk with rfl | rfl | rfl | rfl
        · exact List.Perm.swap _ _ _
        · exact List.Perm.refl _
        · exact List.Perm.refl _
        · exact List.Perm.refl _)
      (by decide) (by decide) (by decide)⟩

/-! ### The search with a record of its writes -/

theorem relaxE_eq (w : Int) (st : State R) (ev : List (Event R)) (e : NodeTuple R) :
    relaxE w (st, ev) e = (relax w st e).map fun st' =>
      (st', ev ++ (if (st.mem w).Length + e.Distance < (st.mem e.HeadVertex).DGS then
        [Event.update e.HeadVertex (st.mem e.HeadVertex).Index] else [])) := by
  by_cases hw : w ∈ st.keys
  · by_cases he : e.HeadVertex ∈ st.keys
    · simp only [relaxE, relax, VertexMap_of_mem st hw, VertexMap_of_mem st he,
        Option.bind_eq_bind, Option.some_bind, gt_iff_lt]
      by_cases hg : (st.mem w).Length + e.Distance < (st.mem e.HeadVertex).DGS
      · simp only [if_pos hg]
        cases VertexHeap.update st e.HeadVertex ((st.mem w).Length + e.Distance) <;> rfl
      · simp only [if_neg hg]
        simp
    · simp [relaxE, relax, State.VertexMap, hw, he]
  · simp [relaxE, relax, State.VertexMap, hw]

theorem foldlM_relaxE_fst (w : Int) : ∀ (es : List (NodeTuple R)) (st : State R)
    (ev : List (Event R)),
    (es.foldlM (relaxE w) (st, ev)).map Prod.fst = es.foldlM (relax w) st := by
  intro es
  induction es with
  | nil => intro st ev; rfl
  | cons e es ih =>
    intro st ev
    simp only [List.foldlM_cons, relaxE_eq]
    cases h : relax w st e with
    | none => rfl
    | some st1 =>
      simp only [Option.map_some', Option.bind_eq_bind, Option.some_bind]
      exact ih st1 _

theorem dijkstraLoopE_fst : ∀ (fuel : Nat) (st : State R) (w : Int) (ev : List (Event R))
    (log : List (Int × Score R)),
    (dijkstraLoopE fuel st w ev).map Prod.fst = (dijkstraLoop fuel st w log).map Prod.fst := by
  intro fuel
  induction fuel with
  | zero =>
    intro st w ev log
    simp only [dijkstraLoopE, dijkstraLoop]
    split <;> rfl
  | succ fuel ih =>
    intro st w ev log
    simp only [dijkstraLoopE, dijkstraLoop]
    split
    · cases hw : st.VertexMap w with
      | none => rfl
      | some wr =>
        simp only [Option.bind_eq_bind, Option.some_bind]
        have hf := foldlM_relaxE_fst w wr.Edges st ev
        cases hE : wr.Edges.foldlM (relaxE w) (st, ev) with
        | none =>
          rw [hE] at hf
          rw [← hf]; rfl
        | some p =>
          rw [hE] at hf
          rw [← hf]
          simp only [Option.map_some', Option.some_bind]
          cases hp : heap.Pop p.1 with
          | none => rfl
          | some q =>
            simp only [Option.some_bind]
            cases hu : q.1.VertexMap q.2 with
            | none => rfl
            | some r =>
              simp only [Option.some_bind]
              exact ih _ _ _ _
    · rfl

theorem dijkstraEvents_eq (st : State R) (s : Int) (hs : s ∈ st.keys) :
    dijkstraEvents st s = (VertexHeap.update (st.setLength s 0) s 0).bind
      fun st3 => dijkstraLoopE st3.vh.length st3 s
        [Event.setLength s (st.mem s).Index 0, Event.update s (st.mem s).Index] := by
  simp [dijkstraEvents, VertexHeap.update, State.VertexMap, hs, State.store, State.setLength]

theorem dijkstraEvents_fst (st : State R) (id : Int) :
    (dijkstraEvents st id).map Prod.fst = dijkstra st id := by
  by_cases hs : id ∈ st.keys
  · rw [dijkstraEvents_eq st id hs, dijkstra, dijkstraTrace_eq st id hs]
    cases VertexHeap.update (st.setLength id 0) id 0 with
    | none => rfl
    | some st3 =>
      simp only [Option.bind_eq_bind, Option.some_bind]
      exact dijkstraLoopE_fst _ _ _ _ _
  · simp [dijkstra, dijkstraEvents, dijkstraTrace, State.VertexMap, hs]

theorem index_ne_of_mem_vh (st : State R) (hpos : PosConsistent st) {v : Int}
    (hv : v ∈ st.vh) : (st.mem v).Index ≠ -1 := by
  obtain ⟨i, hi, rfl⟩ := exists_ptr_of_mem st hv
  rw [(hpos i hi).2]
  omega

theorem relaxAllE_spec (w : Int) : ∀ (es : List (NodeTuple R)) (st : State R)
    (ev : List (Event R)), StructInv st → w ∈ st.keys → (∀ e ∈ es, e.HeadVertex ∈ st.keys) →
    ∀ st' : State R, es.foldlM (relax w) st = some st' →
    ∃ upd : List (Event R), es.foldlM (relaxE w) (st, ev) = some (st', ev ++ upd) ∧
      ∀ x ∈ upd, ∃ e ∈ es, ∃ i : Int, x = Event.update e.HeadVertex i ∧
        (st.mem w).Length + e.Distance < (st.mem e.HeadVertex).DGS ∧
        (e.HeadVertex ∈ st.vh → i ≠ -1) ∧ (e.HeadVertex ∉ st.vh → i = -1) := by
  intro es
  induction es with
  | nil =>
    intro st ev _ _ _ st' h
    simp only [List.foldlM_nil, Option.pure_def, Option.some.injEq] at h
    subst h
    exact ⟨[], by simp, fun _ hx => by simp at hx⟩
  | cons e es ih =>
    intro st ev hS hw hes st' hrun
    obtain ⟨st1, hrel, hS1, hd1, hmin1, hne1⟩ :=
      relax_spec st hS w hw e (hes e (List.mem_cons_self _ _))
    simp only [List.foldlM_cons, hrel, Option.bind_eq_bind, Option.some_bind] at hrun
    have hL : (st1.mem w).Length = (st.mem w).Length := (hd1.2.2.2 w).2.2
    have hle1 : ∀ p, (st1.mem p).DGS ≤ (st.mem p).DGS := by
      intro p
      by_cases h : p = e.HeadVertex
      · subst h; rw [hmin1]; exact min_le_left _ _
      · rw [hne1 p h]
    obtain ⟨upd2, hrunE, hupd2⟩ :=
      ih st1 (ev ++ (if (st.mem w).Length + e.Distance < (st.mem e.HeadVertex).DGS then
        [Event.update e.HeadVertex (st.mem e.HeadVertex).Index] else [])) hS1
        (by rw [hd1.1]; exact hw)
        (fun e' he' => by rw [hd1.1]; exact hes e' (List.mem_cons_of_mem _ he')) st' hrun
    refine ⟨(if (st.mem w).Length + e.Distance < (st.mem e.HeadVertex).DGS then
        [Event.update e.HeadVertex (st.mem e.HeadVertex).Index] else []) ++ upd2, ?_, ?_⟩
    · simp only [List.foldlM_cons, relaxE_eq, hrel, Option.map_some', Option.bind_eq_bind,
        Option.some_bind]
      rw [hrunE, List.append_assoc]
    · intro x hx
      rcases List.mem_append.1 hx with h | h
      · by_cases hg : (st.mem w).Length + e.Distance < (st.mem e.HeadVertex).DGS
        · rw [if_pos hg, List.mem_singleton] at h
          refine ⟨e, List.mem_cons_self _ _, _, h, hg, ?_, ?_⟩
          · exact fun hin => index_ne_of_mem_vh st hS.1 hin
          · exact fun hnin => hS.2.2.1 _ (hes e (List.mem_cons_self _ _)) hnin
        · rw [if_neg hg] at h
          simp at h
      · obtain ⟨e', he', i, hxe, hlt, hin, hnin⟩ := hupd2 x h
        refine ⟨e', List.mem_cons_of_mem _ he', i, hxe, ?_, ?_, ?_⟩
        · rw [← hL]; exact lt_of_lt_of_le hlt (hle1 _)
        · exact fun hv => hin ((hd1.2.2.1 _).2 hv)
        · exact fun hv => hnin (fun h' => hv ((hd1.2.2.1 _).1 h'))

theorem dijkstraLoopE_spec (P : State R → Int → List (Event R) → Prop)
    (hstep : ∀ (st : State R) (w : Int) (ev : List (Event R)) (st3 : State R) (u : Int)
      (upd : List (Event R)), StructInv st → w ∈ st.keys → P st w ev → Iter st w st3 u →
      StructInv st3 → UpdEvents st w upd →
      P st3 u (ev ++ upd ++ [Event.setLength u (-1) (st3.mem u).DGS])) :
    ∀ (fuel : Nat) (st : State R) (w : Int) (ev : List (Event R)), StructInv st →
      w ∈ st.keys → st.vh.length ≤ fuel → P st w ev →
      ∃ (st' : State R) (w' : Int) (ev' : List (Event R)),
        dijkstraLoopE fuel st w ev = some (st', ev') ∧ StructInv st' ∧ st'.vh = [] ∧
        st'.keys = st.keys ∧ w' ∈ st'.keys ∧ P st' w' ev' := by
  intro fuel
  induction fuel with
  | zero =>
    intro st w ev hS hw hlen hP
    have h0 : st.vh = [] := List.length_eq_zero.1 (by omega)
    refine ⟨st, w, ev, ?_, hS, h0, rfl, hw, hP⟩
    simp [dijkstraLoopE, VertexHeap.Len, h0]
  | succ fuel ih =>
    intro st w ev hS hw hlen hP
    by_cases h0 : 0 < st.vh.length
    · obtain ⟨st1, st2, u, hrel, hpop, huk, hS3, hiter⟩ := body_spec st hS w hw h0
      obtain ⟨upd, hrelE, hupd⟩ :=
        relaxAllE_spec w (st.mem w).Edges st ev hS hw (hS.2.2.2 w hw) st1 hrel
      have hP3 := hstep st w ev _ u upd hS hw hP hiter hS3 hupd
      have hk3 : (st2.setLength u (st2.mem u).DGS).keys = st.keys := by
        obtain ⟨_, _, _, _, _, _, _, _, hk, _⟩ := hiter
        exact hk
      have hlen3 : (st2.setLength u (st2.mem u).DGS).vh.length ≤ fuel := by
        obtain ⟨_, hd, _, _, _, _, _, _, _, hl, _⟩ := hiter
        have := hd.2.1
        omega
      have hidx : (st2.mem u).Index = -1 := by
        obtain ⟨_, _, _, _, _, _, _, _, _, _, _, _, _, _, hi⟩ := hiter
        rw [← hi]
        exact ((setLength_sameIndex st2 u _ u).1).symm
      have hdgs : ((st2.setLength u (st2.mem u).DGS).mem u).DGS = (st2.mem u).DGS :=
        (setLength_sameIndex st2 u _ u).2.1
      rw [hdgs] at hP3
      obtain ⟨st', w', ev', hrun, hS', hvh', hk', hw', hP'⟩ :=
        ih _ u _ hS3 huk hlen3 hP3
      refine ⟨st', w', ev', ?_, hS', hvh', hk'.trans hk3, hw', hP'⟩
      have hL : VertexHeap.Len st > 0 := by
        unfold VertexHeap.Len; omega
      have e : Event.setLength u (st2.mem u).Index (st2.mem u).DGS
          = Event.setLength u (-1) (st2.mem u).DGS := by rw [hidx]
      simp only [dijkstraLoopE, hL, if_true, VertexMap_of_mem st hw, Option.bind_eq_bind,
        Option.some_bind, hrelE, hpop, VertexMap_of_mem st2 huk]
      rw [e]
      exact hrun
    · have h0' : st.vh = [] := List.length_eq_zero.1 (by omega)
      refine ⟨st, w, ev, ?_, hS, h0', rfl, hw, hP⟩
      simp [dijkstraLoopE, VertexHeap.Len, h0']

/-- The whole run with its record of events, for any property `P` of the loop that holds on
entry and that one pass of the loop preserves. -/
theorem runE_generic (P : State R → Int → List (Event R) → Prop)
    (hstep : ∀ (st : State R) (w : Int) (ev : List (Event R)) (st3 : State R) (u : Int)
      (upd : List (Event R)), StructInv st → w ∈ st.keys → P st w ev → Iter st w st3 u →
      StructInv st3 → UpdEvents st w upd →
      P st3 u (ev ++ upd ++ [Event.setLength u (-1) (st3.mem u).DGS]))
    (order : List Int) (st : State R) (s : Int) (hLB : LoaderBuilt st) (hs : s ∈ st.keys)
    (horder : order.Perm st.keys)
    (hinit : ∀ (stI : State R) (i0 : Int), StructInv stI → InitState st s stI → i0 ≠ -1 →
      P stI s [Event.setLength s i0 0, Event.update s i0]) :
    ∃ (stH st' : State R) (w' : Int) (ev : List (Event R)),
      makeVertexHeap order st = some stH ∧ dijkstraEvents stH s = some (st', ev) ∧
      dijkstra stH s = some st' ∧ StructInv st' ∧ st'.vh = [] ∧ st'.keys = st.keys ∧
      w' ∈ st'.keys ∧ P st' w' ev := by
  have hnd : order.Nodup := horder.nodup_iff.2 hLB.1
  obtain ⟨stH, hmk, hposH, hordH, hkH, hpermH, hsdH, _⟩ :=
    makeVertexHeap_spec order st hnd (fun v hv => horder.mem_iff.1 hv)
  have hSH : StructInv stH := by
    refine ⟨hposH, hordH, ?_, ?_⟩
    · intro k hk hnot
      rw [hkH] at hk
      exact absurd (hpermH.mem_iff.2 (horder.mem_iff.2 hk)) hnot
    · intro k hk e he
      rw [hkH] at hk ⊢
      rw [(hsdH k).2.1] at he
      exact ((hLB.2 k hk).2.2 e he).2
  have hsH : s ∈ stH.keys := hkH ▸ hs
  obtain ⟨stI, hup, hSI, hI⟩ := init_update st stH s hSH hsH hkH
    (hpermH.trans horder) hsdH (fun k hk => (hLB.2 k hk).1)
  have hi0 : (stH.mem s).Index ≠ -1 :=
    index_ne_of_mem_vh stH hposH (hpermH.mem_iff.2 (horder.mem_iff.2 hs))
  obtain ⟨st', w', ev', hrun, hS', hvh', hk', hw', hP'⟩ :=
    dijkstraLoopE_spec P hstep stI.vh.length stI s _ hSI (hI.1 ▸ hs) (le_refl _)
      (hinit stI (stH.mem s).Index hSI hI hi0)
  have hev : dijkstraEvents stH s = some (st', ev') := by
    rw [dijkstraEvents_eq stH s hsH, hup]
    exact hrun
  refine ⟨stH, st', w', ev', hmk, hev, ?_, hS', hvh', hk'.trans hI.1, hw', hP'⟩
  rw [← dijkstraEvents_fst, hev]
  rfl

theorem lengthWrites_append (l1 l2 : List (Event R)) :
    lengthWrites (l1 ++ l2) = lengthWrites l1 ++ lengthWrites l2 := by
  induction l1 with
  | nil => rfl
  | cons x rest ih =>
    cases x with
    | update v i => simpa [lengthWrites] using ih
    | setLength v i y => simp [lengthWrites, ih]

theorem updateCalls_append (l1 l2 : List (Event R)) :
    updateCalls (l1 ++ l2) = updateCalls l1 ++ updateCalls l2 := by
  induction l1 with
  | nil => rfl
  | cons x rest ih =>
    cases x with
    | update v i => simp [updateCalls, ih]
    | setLength v i y => simpa [updateCalls] using ih

theorem mem_updateCalls (l : List (Event R)) (v i : Int) :
    (v, i) ∈ updateCalls l ↔ Event.update v i ∈ l := by
  induction l with
  | nil => simp [updateCalls]
  | cons x rest ih =>
    cases x with
    | update v1 i1 => simp [updateCalls, ih]
    | setLength v1 i1 y => simp [updateCalls, ih]

theorem lengthWrites_of_updates (l : List (Event R))
    (h : ∀ x ∈ l, ∃ v i, x = Event.update v i) : lengthWrites l = [] := by
  induction l with
  | nil => rfl
  | cons x rest ih =>
    obtain ⟨v, i, rfl⟩ := h x (List.mem_cons_self _ _)
    simp only [lengthWrites]
    exact ih (fun y hy => h y (List.mem_cons_of_mem _ hy))

theorem updEvents_updates {st : State R} {w : Int} {upd : List (Event R)}
    (h : UpdEvents st w upd) : ∀ x ∈ upd, ∃ v i, x = Event.update v i := by
  intro x hx
  obtain ⟨e, _, i, hxe, _⟩ := h x hx
  exact ⟨_, _, hxe⟩

/-- C17 (as amended): in a run of `makeVertexHeap` and `dijkstra(s)` on a loader-built graph,
the assignments to `Length` fields are, in order: one to the source made before the loop,
while the source is in the heap (`Index ≠ -1`), then exactly one to every vertex of the
graph, the source included, made at the step that extracts it, when its `Index` is `-1`.  So
a vertex other than the source has its `Length` assigned exactly once and the source
twice. -/
theorem length_assignments (order : List Int) (st : State R) (s : Int)
    (hLB : LoaderBuilt st) (hs : s ∈ st.keys) (horder : order.Perm st.keys) :
    ∃ (stH st' : State R) (ev : List (Event R)) (i0 : Int) (extracted : List Int),
      makeVertexHeap order st = some stH ∧ dijkstraEvents stH s = some (st', ev) ∧
      dijkstra stH s = some st' ∧ i0 ≠ -1 ∧
      lengthWrites ev = (s, i0) :: extracted.map (fun v => (v, -1)) ∧
      extracted.Perm st.keys ∧
      ∀ v ∈ st.keys, ((lengthWrites ev).map Prod.fst).count v = if v = s then 2 else 1 := by
  obtain ⟨stH, st', w', ev, hmk, hev, hdj, _, hvh', _, _, i0, extracted, hi0, hlw, hperm⟩ :=
    runE_generic
      (fun st1 _ ev => ∃ (i0 : Int) (extracted : List Int), i0 ≠ -1 ∧
        lengthWrites ev = (s, i0) :: extracted.map (fun v => (v, -1)) ∧
        (extracted ++ st1.vh).Perm st.keys)
      (by
        rintro st1 w ev st3 u upd hS1 _ ⟨i0, extracted, hi0, hlw, hperm⟩ hiter hS3 hupd
        refine ⟨i0, extracted ++ [u], hi0, ?_, ?_⟩
        · rw [lengthWrites_append, lengthWrites_append, hlw,
            lengthWrites_of_updates upd (updEvents_updates hupd)]
          simp [lengthWrites]
        · have h1 := iter_perm hS1.1 hS3.1 hiter
          have h2 : (extracted ++ [u] ++ st3.vh).Perm (extracted ++ st1.vh) := by
            rw [List.append_assoc]
            exact List.Perm.append_left _ h1
          exact h2.trans hperm)
      order st s hLB hs horder
      (by
        intro stI i0 _ hI hi0
        exact ⟨i0, [], hi0, by simp [lengthWrites], by simpa using hI.2.2.1⟩)
  have hperm' : extracted.Perm st.keys := by
    rw [hvh', List.append_nil] at hperm
    exact hperm
  refine ⟨stH, st', ev, i0, extracted, hmk, hev, hdj, hi0, hlw, hperm', ?_⟩
  intro v hv
  have hc : extracted.count v = 1 :=
    List.count_eq_one_of_mem (hperm'.nodup_iff.2 hLB.1) (hperm'.mem_iff.2 hv)
  have hmap : (extracted.map (fun v => (v, (-1 : Int)))).map Prod.fst = extracted := by
    rw [List.map_map]
    exact List.map_id _
  rw [hlw, List.map_cons, hmap, List.count_cons, hc]
  by_cases hvs : v = s
  · simp [hvs]
  · have : ¬ (s = v) := fun e => hvs e.symm
    simp [hvs, this]

/-- Witness for C17 (as amended) on scenario S3. -/
theorem length_assignments_witness :
    LoaderBuilt scenarioS3 ∧ (1 : Int) ∈ scenarioS3.keys ∧ [1, 2, 3].Perm scenarioS3.keys ∧
      ∃ (stH st' : State ℤ) (ev : List (Event ℤ)) (i0 : Int) (extracted : List Int),
        makeVertexHeap [1, 2, 3] scenarioS3 = some stH ∧
        dijkstraEvents stH 1 = some (st', ev) ∧ dijkstra stH 1 = some st' ∧ i0 ≠ -1 ∧
        lengthWrites ev = (1, i0) :: extracted.map (fun v => (v, -1)) ∧
        extracted.Perm scenarioS3.keys ∧
        ∀ v ∈ scenarioS3.keys,
          ((lengthWrites ev).map Prod.fst).count v = if v = 1 then 2 else 1 :=
  ⟨by unfold LoaderBuilt; decide, by decide, by decide,
    length_assignments [1, 2, 3] scenarioS3 1 (by unfold LoaderBuilt; decide) (by decide)
      (by decide)⟩

/-- Counterexample to C17: on scenario S3 with source 1 the `Length` of vertex 1 is assigned
twice, the first time while vertex 1 is in the heap at index 0. -/
theorem source_length_assigned_twice_counterexample :
    ((makeVertexHeap [1, 2, 3] scenarioS3).bind fun stH =>
        (dijkstraEvents stH 1).map fun r => lengthWrites r.2)
      = some [(1, 0), (1, -1), (2, -1), (3, -1)] := by
  decide

theorem iter_done_dgs (st0 : State R) (s : Int) (hnn : NonNegWeights st0) (st : State R)
    (w : Int) (st3 : State R) (u : Int) (hw : w ∈ st.keys) (inv : DInv st0 s st w)
    (hiter : Iter st w st3 u) :
    (∀ p ∈ st.keys, Done st s p → (st3.mem p).DGS = (st.mem p).DGS ∧ Done st3 s p) ∧
    ∀ e ∈ (st.mem w).Edges, e.HeadVertex ∈ st.keys →
      (st.mem w).Length + e.Distance < (st.mem e.HeadVertex).DGS → e.HeadVertex ∈ st.vh := by
  obtain ⟨st1, hd, _, _, hcase, _, _, _, _, _, hmem3, hsd3, _⟩ := hiter
  have hLw : (st.mem w).Length = (st.mem w).DGS := inv.len_eq w hw inv.w_done
  have hwnn : ∀ e ∈ (st.mem w).Edges, (st.mem w).DGS ≤ (st.mem w).Length + e.Distance := by
    intro e he
    rw [hLw]
    have hw0 : w ∈ st0.keys := inv.keys_eq ▸ hw
    exact le_add_of_nonneg_right (hnn w hw0 e (inv.edges_eq w ▸ he))
  constructor
  · intro p hp hdone
    constructor
    · rw [(hsd3 p).2.2]
      rcases hcase p with h | ⟨e, he, _, _, hlt⟩
      · exact h
      · exact absurd (lt_of_lt_of_le hlt ((inv.done_le p hp hdone).trans (hwnn e he)))
          (lt_irrefl _)
    · rcases hdone with h | h
      · left
        intro hin
        exact h ((hd.2.2.1 p).1 ((hmem3 p).1 hin).1)
      · exact Or.inr h
  · intro e he hek hlt
    by_contra hnin
    exact absurd (lt_of_lt_of_le hlt ((inv.done_le _ hek (Or.inl hnin)).trans (hwnn e he)))
      (lt_irrefl _)

/-- C11: on a loader-built graph with non-negative weights, in a run of `makeVertexHeap` and
`dijkstra(s)` every call of `update` is made on a vertex that is in the heap (its `Index` is
not `-1`), so the guard `v.DGS > test_DGS` never fires for an extracted vertex; the `DGS` of
a vertex at the end of the run is the value that was assigned to its `Length`, at each
assignment, and it is equal to its `Length`. -/
theorem update_never_on_extracted (order : List Int) (st : State R) (s : Int)
    (hLB : LoaderBuilt st) (hnn : NonNegWeights st) (hs : s ∈ st.keys)
    (horder : order.Perm st.keys) :
    ∃ (stH st' : State R) (ev : List (Event R)),
      makeVertexHeap order st = some stH ∧ dijkstraEvents stH s = some (st', ev) ∧
      dijkstra stH s = some st' ∧ (∀ x ∈ updateCalls ev, x.2 ≠ -1) ∧
      (∀ v i x, Event.setLength v i x ∈ ev → (st'.mem v).DGS = x ∧ (st'.mem v).Length = x) ∧
      ∀ v ∈ st.keys, (st'.mem v).DGS = (st'.mem v).Length := by
  obtain ⟨stH, st', w', ev, hmk, hev, hdj, _, hvh', hk', hw', inv, hupd, hlen⟩ :=
    runE_generic
      (fun st1 w ev => DInv st s st1 w ∧ (∀ x ∈ updateCalls ev, x.2 ≠ -1) ∧
        ∀ v i x, Event.setLength v i x ∈ ev →
          v ∈ st1.keys ∧ Done st1 s v ∧ (st1.mem v).DGS = x ∧ (st1.mem v).Length = x)
      (by
        rintro st1 w ev st3 u upd hS1 hw ⟨inv, hcalls, hwrites⟩ hiter hS3 hupd
        obtain ⟨inv3, _⟩ := dinv_step st s hnn st1 w st3 u hw inv hiter
        obtain ⟨hdone, hguard⟩ := iter_done_dgs st s hnn st1 w st3 u hw inv hiter
        have hk3 : st3.keys = st1.keys := inv3.keys_eq.trans inv.keys_eq.symm
        refine ⟨inv3, ?_, ?_⟩
        · intro x hx
          rw [updateCalls_append, updateCalls_append] at hx
          rcases List.mem_append.1 hx with h | h
          · rcases List.mem_append.1 h with h' | h'
            · exact hcalls x h'
            · obtain ⟨e, he, i, hxe, hlt, hin, _⟩ :=
                hupd _ ((mem_updateCalls upd x.1 x.2).1 h')
              have hi : x.2 = i := by
                injection hxe with _ h2
              rw [hi]
              exact hin (hguard e he (hS1.2.2.2 w hw e he) hlt)
          · simp [updateCalls] at h
        · intro v i x hx
          rcases List.mem_append.1 hx with h | h
          · rcases List.mem_append.1 h with h' | h'
            · obtain ⟨hvk, hvd, hvdgs, hvlen⟩ := hwrites v i x h'
              have h3 := hdone v hvk hvd
              have hd3 : (st3.mem v).DGS = x := h3.1.trans hvdgs
              exact ⟨hk3 ▸ hvk, h3.2, hd3,
                (inv3.len_eq v (hk3 ▸ hvk) h3.2).trans hd3⟩
            · obtain ⟨_, _, hxe⟩ := updEvents_updates hupd _ h'
              exact absurd hxe (by simp)
          · simp only [List.mem_singleton, Event.setLength.injEq] at h
            obtain ⟨rfl, _, rfl⟩ := h
            have hu3 : v ∈ st3.keys := by
              obtain ⟨_, _, _, _, _, _, huk, _⟩ := hiter
              exact hk3 ▸ huk
            exact ⟨hu3, inv3.w_done, rfl, inv3.len_eq v hu3 inv3.w_done⟩)
      order st s hLB hs horder
      (by
        intro stI i0 _ hI hi0
        refine ⟨dinv_init st s hs stI hI, ?_, ?_⟩
        · intro x hx
          simp only [updateCalls, List.mem_singleton] at hx
          rw [hx]; exact hi0
        · intro v i x hx
          simp only [List.mem_cons, Event.setLength.injEq, List.mem_singleton,
            List.not_mem_nil, or_false] at hx
          rcases hx with ⟨rfl, _, rfl⟩ | h
          · exact ⟨hI.1 ▸ hs, Or.inr rfl, hI.2.2.2.2.1, hI.2.2.2.2.2.1⟩
          · exact absurd h (by simp))
  refine ⟨stH, st', ev, hmk, hev, hdj, hupd, fun v i x hx => (hlen v i x hx).2.2, ?_⟩
  intro v hv
  exact (inv.len_eq v (hk' ▸ hv) (Or.inl (by rw [hvh']; simp))).symm

/-- Witness for C11 on scenario S5 of the specification, a cycle through the source; the run
ends with the lengths `0`, `1`, `2`. -/
theorem update_never_on_extracted_witness :
    LoaderBuilt scenarioS5 ∧ NonNegWeights scenarioS5 ∧ (1 : Int) ∈ scenarioS5.keys ∧
      [2, 3, 1].Perm scenarioS5.keys ∧
      ((run [2, 3, 1] scenarioS5 1).map fun st' =>
        ((st'.mem 1).Length, (st'.mem 2).Length, (st'.mem 3).Length))
        = some (0, ((1 : ℤ) : Score ℤ), ((2 : ℤ) : Score ℤ)) ∧
      ∃ (stH st' : State ℤ) (ev : List (Event ℤ)),
        makeVertexHeap [2, 3, 1] scenarioS5 = some stH ∧
        dijkstraEvents stH 1 = some (st', ev) ∧ dijkstra stH 1 = some st' ∧
        (∀ x ∈ updateCalls ev, x.2 ≠ -1) ∧
        (∀ v i x, Event.setLength v i x ∈ ev →
          (st'.mem v).DGS = x ∧ (st'.mem v).Length = x) ∧
        ∀ v ∈ scenarioS5.keys, (st'.mem v).DGS = (st'.mem v).Length :=
  ⟨by unfold LoaderBuilt; decide, by unfold NonNegWeights; decide, by decide, by decide,
    by decide,
    update_never_on_extracted [2, 3, 1] scenarioS5 1 (by unfold LoaderBuilt; decide)
      (by unfold NonNegWeights; decide) (by decide) (by decide)⟩

/-! ### The source stays at the root -/

theorem upLoop_root : ∀ (fuel : Nat) (st : State R) (j : Nat), PosConsistent st →
    j < st.vh.length → 0 < j → st.key 0 ≤ st.key j →
    ∀ st' : State R, heap.upLoop fuel st (j : Int) = some st' → st'.ptr 0 = st.ptr 0 := by
  intro fuel
  induction fuel with
  | zero =>
    intro st j _ _ _ _ st' h
    simp [heap.upLoop] at h
  | succ fuel ih =>
    intro st j hpos hj hj0 hroot st' h
    simp only [heap.upLoop] at h
    rw [parent_natCast] at h
    have hne : ¬ ((((j - 1) / 2 : Nat) : Int) = (j : Int)) := by omega
    rw [if_neg hne] at h
    have hi : (j - 1) / 2 < st.vh.length := by omega
    rw [Less_spec st hpos _ _ j ((j - 1) / 2) rfl rfl hj hi] at h
    simp only [Option.bind_eq_bind, Option.some_bind] at h
    by_cases hlt : st.key j < st.key ((j - 1) / 2)
    · simp only [hlt, decide_True, Bool.not_true, Bool.false_eq_true, if_false] at h
      obtain ⟨st1, hsw, hpos1, hfr1, hptr1⟩ :=
        Swap_spec st hpos _ (j : Int) ((j - 1) / 2) j rfl rfl hi hj
      rw [hsw] at h
      simp only [Option.some_bind] at h
      have hkey1 := Swap_key hfr1 hptr1
      have hi0 : 0 < (j - 1) / 2 := by
        rcases Nat.eq_zero_or_pos ((j - 1) / 2) with h0 | h0
        · rw [h0] at hlt
          exact absurd (lt_of_lt_of_le hlt hroot) (lt_irrefl _)
        · exact h0
      have h1 : st1.ptr 0 = st.ptr 0 := by
        rw [hptr1 0, if_neg (by omega), if_neg (by omega)]
      have hk0 : st1.key 0 = st.key 0 := by
        rw [hkey1]; simp only [swapKey]
        rw [if_neg (by omega), if_neg (by omega)]
      have hki : st1.key ((j - 1) / 2) = st.key j := by
        rw [hkey1]; simp only [swapKey, if_true]
      rw [← h1]
      exact ih st1 ((j - 1) / 2) hpos1 (by rw [hfr1.2.1]; exact hi) hi0
        (by rw [hk0, hki]; exact hroot) st' h
    · simp only [hlt, decide_False, Bool.not_false, if_true, Option.some.injEq] at h
      rw [← h]

theorem update_root (st : State R) (hpos : PosConsistent st) (hord : HeapOrdered st)
    (v : Int) (hv : v ∈ st.vh) (x : Score R) (hx : x ≤ (st.mem v).DGS)
    (hne : v ≠ st.ptr 0) (hroot : (st.mem (st.ptr 0)).DGS ≤ x) :
    ∀ st' : State R, VertexHeap.update st v x = some st' → st'.ptr 0 = st.ptr 0 := by
  intro st' hup
  obtain ⟨i, hi, rfl⟩ := exists_ptr_of_mem st hv
  have hi0 : 0 < i := by
    rcases Nat.eq_zero_or_pos i with h0 | h0
    · exact absurd (by rw [h0]) hne
    · exact h0
  have hpos1 := setDGS_posConsistent st hpos (st.ptr i) x
  have hkey : ∀ k, k < st.vh.length →
      (st.setDGS (st.ptr i) x).key k = if k = i then x else st.key k := by
    intro k hk
    rw [setDGS_key]
    by_cases h : k = i
    · subst h; simp
    · rw [if_neg h, if_neg (fun e => h (ptr_inj st hpos hk hi e))]
  have hxi : x ≤ st.key i := hx
  have hlen : (st.setDGS (st.ptr i) x).vh.length = st.vh.length := rfl
  rw [update_eq_fix st _ x (hpos i hi).1, (hpos i hi).2] at hup
  have hdown : heap.down (st.setDGS (st.ptr i) x) (i : Int) (st.vh.length : Int) =
      some (st.setDGS (st.ptr i) x, false) := by
    refine down_noop _ i st.vh.length hpos1 (le_of_eq hlen.symm) hi ?_
    intro c hc h0 hp
    rw [hkey i hi, if_pos rfl, hkey c hc, if_neg (by omega)]
    have := hord c hc h0
    rw [hp] at this
    exact hxi.trans this
  simp only [heap.Fix, VertexHeap.Len, hlen, hdown, Option.bind_eq_bind, Option.some_bind,
    Bool.not_false, if_true] at hup
  unfold heap.up at hup
  rw [Int.toNat_ofNat] at hup
  have := upLoop_root (i + 1) (st.setDGS (st.ptr i) x) i hpos1 hi hi0
    (by rw [hkey 0 (by omega), if_neg (by omega), hkey i hi, if_pos rfl]; exact hroot) st' hup
  rw [this]
  rfl

theorem relax_root (s : Int) (st : State R) (hS : StructInv st) (hs : s ∈ st.keys)
    (e : NodeTuple R) (he : e.HeadVertex ∈ st.keys) (hd : 0 ≤ e.Distance)
    (hlen : 0 < st.vh.length) (hroot : st.ptr 0 = s) (hdgs : (st.mem s).DGS = 0)
    (hL : (st.mem s).Length = 0) :
    ∀ st' : State R, relax s st e = some st' →
      StructInv st' ∧ st'.keys = st.keys ∧ 0 < st'.vh.length ∧ st'.ptr 0 = s ∧
      (st'.mem s).DGS = 0 ∧ (st'.mem s).Length = 0 := by
  intro st' hrel
  obtain ⟨st1, hrel1, hS1, hd1, hmin1, hne1⟩ := relax_spec st hS s hs e he
  rw [hrel] at hrel1
  have e1 : st' = st1 := Option.some.inj hrel1
  subst e1
  have hcand : (0 : Score R) ≤ (st.mem s).Length + e.Distance := by
    rw [hL, zero_add]; exact hd
  have hsdgs : (st'.mem s).DGS = 0 := by
    by_cases h : s = e.HeadVertex
    · rw [h] at hdgs ⊢
      rw [hmin1, hdgs]
      exact min_eq_left hcand
    · rw [hne1 s h, hdgs]
  refine ⟨hS1, hd1.1, by rw [hd1.2.1]; exact hlen, ?_, hsdgs, by rw [(hd1.2.2.2 s).2.2, hL]⟩
  simp only [relax, VertexMap_of_mem st hs, VertexMap_of_mem st he, Option.bind_eq_bind,
    Option.some_bind, gt_iff_lt] at hrel
  by_cases hg : (st.mem s).Length + e.Distance < (st.mem e.HeadVertex).DGS
  · rw [if_pos hg] at hrel
    have hes : e.HeadVertex ≠ s := by
      intro h
      rw [h, hdgs] at hg
      exact absurd (lt_of_lt_of_le hg hcand) (lt_irrefl _)
    by_cases hv : e.HeadVertex ∈ st.vh
    · rw [← hroot]
      exact update_root st hS.1 hS.2.1 e.HeadVertex hv _ hg.le (by rw [hroot]; exact hes)
        (by rw [hroot, hdgs]; exact hcand) st' hrel
    · rw [update_out_of_heap st _ he (hS.2.2.1 _ he hv)] at hrel
      rw [← Option.some.inj hrel]
      exact hroot
  · rw [if_neg hg] at hrel
    rw [← Option.some.inj hrel]
    exact hroot

theorem relaxAll_root (s : Int) : ∀ (es : List (NodeTuple R)) (st : State R), StructInv st →
    s ∈ st.keys → (∀ e ∈ es, e.HeadVertex ∈ st.keys ∧ 0 ≤ e.Distance) →
    0 < st.vh.length → st.ptr 0 = s → (st.mem s).DGS = 0 → (st.mem s).Length = 0 →
    ∀ st' : State R, es.foldlM (relax s) st = some st' →
      st'.ptr 0 = s ∧ (st'.mem s).DGS = 0 := by
  intro es
  induction es with
  | nil =>
    intro st _ _ _ _ hroot hdgs _ st' h
    simp only [List.foldlM_nil, Option.pure_def, Option.some.injEq] at h
    rw [← h]
    exact ⟨hroot, hdgs⟩
  | cons e es ih =>
    intro st hS hs hes hlen hroot hdgs hL st' h
    simp only [List.foldlM_cons, Option.bind_eq_bind] at h
    cases hrel : relax s st e with
    | none => rw [hrel] at h; simp at h
    | some st1 =>
      rw [hrel, Option.some_bind] at h
      have he := hes e (List.mem_cons_self _ _)
      obtain ⟨hS1, hk1, hlen1, hroot1, hdgs1, hL1⟩ :=
        relax_root s st hS hs e he.1 he.2 hlen hroot hdgs hL st1 hrel
      exact ih st1 hS1 (hk1 ▸ hs)
        (fun e' he' => by rw [hk1]; exact hes e' (List.mem_cons_of_mem _ he'))
        hlen1 hroot1 hdgs1 hL1 st' h

theorem dijkstraInit_eq (st : State R) (s : Int) (hs : s ∈ st.keys) :
    dijkstraInit st s = VertexHeap.update (st.setLength s 0) s 0 := by
  simp [dijkstraInit, VertexHeap.update, State.VertexMap, hs, State.store, State.setLength]

/-- C18: on a loader-built graph with non-negative weights, after the lines of `dijkstra(s)`
that precede the loop the source is at heap index `0`; it is still at index `0` after the
first pass of the inner loop over its own edges; and the first vertex that the loop extracts
is the source, with `DGS = 0`. -/
theorem source_extracted_first (order : List Int) (st : State R) (s : Int)
    (hLB : LoaderBuilt st) (hnn : NonNegWeights st) (hs : s ∈ st.keys)
    (horder : order.Perm st.keys) :
    ∃ (stH stI st1 st' : State R) (log : List (Int × Score R)),
      makeVertexHeap order st = some stH ∧ dijkstraInit stH s = some stI ∧
      stI.vhAt 0 = some s ∧
      (stI.mem s).Edges.foldlM (relax s) stI = some st1 ∧ st1.vhAt 0 = some s ∧
      dijkstraTrace stH s = some (st', log) ∧ log.head? = some (s, 0) := by
  have hnd : order.Nodup := horder.nodup_iff.2 hLB.1
  obtain ⟨stH, hmk, hposH, hordH, hkH, hpermH, hsdH, _⟩ :=
    makeVertexHeap_spec order st hnd (fun v hv => horder.mem_iff.1 hv)
  have hSH : StructInv stH := by
    refine ⟨hposH, hordH, ?_, ?_⟩
    · intro k hk hnot
      rw [hkH] at hk
      exact absurd (hpermH.mem_iff.2 (horder.mem_iff.2 hk)) hnot
    · intro k hk e he
      rw [hkH] at hk ⊢
      rw [(hsdH k).2.1] at he
      exact ((hLB.2 k hk).2.2 e he).2
  have hsH : s ∈ stH.keys := hkH ▸ hs
  obtain ⟨stI, hup, hSI, hI⟩ := init_update st stH s hSH hsH hkH
    (hpermH.trans horder) hsdH (fun k hk => (hLB.2 k hk).1)
  obtain ⟨hkI, hallI, _, hEI, hd0, hl0, htop, _⟩ := hI
  have hsI : s ∈ stI.keys := hkI ▸ hs
  have hsvh : s ∈ stI.vh := hallI s hs
  have hlenI : 0 < stI.vh.length := List.length_pos_of_mem hsvh
  -- the source is at the root on entry of the loop
  have hrootI : stI.ptr 0 = s := by
    obtain ⟨i, hi, hpi⟩ := exists_ptr_of_mem stI hsvh
    have hle := root_le stI.key stI.vh.length ((heapFrom_zero_iff stI).2 hSI.2.1) i hi
    have hki : stI.key i = 0 := by
      unfold State.key; rw [hpi, hd0]
    rw [hki] at hle
    by_contra hne
    have hk0 : stI.ptr 0 ∈ st.keys := hkI ▸ (hSI.1 0 hlenI).1
    have := htop _ hk0 hne
    unfold State.key at hle
    rw [this, top_le_iff] at hle
    exact WithTop.zero_ne_top hle
  have hvhAt : ∀ stX : State R, 0 < stX.vh.length → stX.ptr 0 = s → stX.vhAt 0 = some s := by
    intro stX hl hp
    have := vhAt_natCast stX 0 hl
    rw [hp] at this
    exact this
  -- the first pass of the loop
  obtain ⟨st1, st2, u, hrel, hpop, huk, hS3, hiter⟩ := body_spec stI hSI s hsI hlenI
  have hedgesI : ∀ e ∈ (stI.mem s).Edges, e.HeadVertex ∈ stI.keys ∧ 0 ≤ e.Distance := by
    intro e he
    refine ⟨hSI.2.2.2 s hsI e he, ?_⟩
    rw [hEI s] at he
    exact hnn s hs e he
  obtain ⟨hroot1, hdgs1⟩ :=
    relaxAll_root s (stI.mem s).Edges stI hSI hsI hedgesI hlenI hrootI hd0 hl0 st1 hrel
  obtain ⟨st1w, hd1, _, _, _, hu1w, _, _, _, _, _, hsd3w, _⟩ := hiter
  have hlen1 : 0 < st1.vh.length := by
    have h1 := relaxAll_spec s (stI.mem s).Edges stI hSI hsI (hSI.2.2.2 s hsI)
    obtain ⟨st1', hrel', _, hd1', _⟩ := h1
    rw [hrel] at hrel'
    rw [Option.some.inj hrel', hd1'.2.1]
    exact hlenI
  have hS1 : StructInv st1 := by
    obtain ⟨st1', hrel', hS1', _⟩ :=
      relaxAll_spec s (stI.mem s).Edges stI hSI hsI (hSI.2.2.2 s hsI)
    rw [hrel] at hrel'
    rw [Option.some.inj hrel']
    exact hS1'
  obtain ⟨st2', hpop', _⟩ := pop_spec st1 hS1.1 hS1.2.1 hlen1
  rw [hpop] at hpop'
  have hus : u = s := by
    have := congrArg Prod.snd (Option.some.inj hpop')
    simp only at this
    rw [this, hroot1]
  have hdu : (st2.mem u).DGS = 0 := by
    have hst2 : st2 = st2' := congrArg Prod.fst (Option.some.inj hpop')
    obtain ⟨st2'', hpop'', _, _, _, _, _, _, hsd2, _⟩ := pop_spec st1 hS1.1 hS1.2.1 hlen1
    rw [hpop] at hpop''
    have hst2'' : st2 = st2'' := congrArg Prod.fst (Option.some.inj hpop'')
    rw [hst2'', hus, (hsd2 s).2.2.1, hdgs1]
  -- the rest of the run
  obtain ⟨st', w', ext, hrun, _⟩ :=
    dijkstraLoop_spec (fun _ _ _ => True) (fun _ _ _ _ _ _ _ _ _ => trivial)
      (stI.vh.length - 1) (st2.setLength u (st2.mem u).DGS) u [(u, (st2.mem u).DGS)] hS3 huk
      (by
        have h1 : (st2.setLength u (st2.mem u).DGS).vh.length + 1 = st1w.vh.length := by
          assumption
        have h2 := hd1.2.1
        omega)
      trivial
  have hloop : dijkstraLoop stI.vh.length stI s []
      = some (st', [(u, (st2.mem u).DGS)] ++ ext) := by
    obtain ⟨k, hk⟩ : ∃ k, stI.vh.length = k + 1 := ⟨stI.vh.length - 1, by omega⟩
    have hL : VertexHeap.Len stI > 0 := by
      unfold VertexHeap.Len; omega
    rw [hk] at hrun ⊢
    simp only [dijkstraLoop, hL, if_true, VertexMap_of_mem stI hsI, Option.bind_eq_bind,
      Option.some_bind, hrel, hpop, VertexMap_of_mem st2 huk]
    simpa using hrun
  refine ⟨stH, stI, st1, st', [(u, (st2.mem u).DGS)] ++ ext, hmk, ?_, hvhAt stI hlenI hrootI,
    hrel, hvhAt st1 hlen1 hroot1, ?_, ?_⟩
  · rw [dijkstraInit_eq stH s hsH, hup]
  · rw [dijkstraTrace_eq stH s hsH, hup]
    exact hloop
  · rw [hdu, hus]
    rfl

/-- Witness for C18 on scenario S6 of the specification, where every edge has weight `0`;
the run ends with all three lengths `0`. -/
theorem source_extracted_first_witness :
    LoaderBuilt scenarioS6 ∧ NonNegWeights scenarioS6 ∧ (1 : Int) ∈ scenarioS6.keys ∧
      [3, 2, 1].Perm scenarioS6.keys ∧
      ((run [3, 2, 1] scenarioS6 1).map fun st' =>
        ((st'.mem 1).Length, (st'.mem 2).Length, (st'.mem 3).Length))
        = some (0, 0, 0) ∧
      ∃ (stH stI st1 st' : State ℤ) (log : List (Int × Score ℤ)),
        makeVertexHeap [3, 2, 1] scenarioS6 = some stH ∧ dijkstraInit stH 1 = some stI ∧
        stI.vhAt 0 = some 1 ∧
        (stI.mem 1).Edges.foldlM (relax 1) stI = some st1 ∧ st1.vhAt 0 = some 1 ∧
        dijkstraTrace stH 1 = some (st', log) ∧ log.head? = some (1, 0) :=
  ⟨by unfold LoaderBuilt; decide, by unfold NonNegWeights; decide, by decide, by decide,
    by decide,
    source_extracted_first [3, 2, 1] scenarioS6 1 (by unfold LoaderBuilt; decide)
      (by unfold NonNegWeights; decide) (by decide) (by decide)⟩

/-! ### The reference driver -/

theorem index_ne_iff_mem_vh (st : State R) (hS : StructInv st) {v : Int} (hv : v ∈ st.keys) :
    (st.mem v).Index ≠ -1 ↔ v ∈ st.vh := by
  constructor
  · intro h
    by_contra hnin
    exact h (hS.2.2.1 v hv hnin)
  · exact fun h => index_ne_of_mem_vh st hS.1 h

theorem referenceRelax_spec (st : State R) (hS : StructInv st) (u : Int) (hu : u ∈ st.keys)
    (e : NodeTuple R) (he : e.HeadVertex ∈ st.keys) :
    ∃ st' : State R, referenceRelax u st e = some st' ∧ StructInv st' ∧ DataFrame st st' ∧
      (st'.mem e.HeadVertex).DGS
        = (if e.HeadVertex ∈ st.vh then
            min (st.mem e.HeadVertex).DGS ((st.mem u).Length + e.Distance)
          else (st.mem e.HeadVertex).DGS) ∧
      ∀ p, p ≠ e.HeadVertex → (st'.mem p).DGS = (st.mem p).DGS := by
  have hS' := hS
  obtain ⟨hpos, hord, hout, hedges⟩ := hS
  simp only [referenceRelax, VertexMap_of_mem st hu, VertexMap_of_mem st he,
    Option.bind_eq_bind, Option.some_bind]
  by_cases hv : e.HeadVertex ∈ st.vh
  · have hidx : (st.mem e.HeadVertex).Index ≠ -1 := index_ne_of_mem_vh st hpos hv
    by_cases hg : (st.mem u).Length + e.Distance < (st.mem e.HeadVertex).DGS
    · rw [if_pos ⟨hidx, hg⟩, if_pos hv]
      have hd0 := setDGS_dataFrame st e.HeadVertex ((st.mem u).Length + e.Distance)
      obtain ⟨st', hup, hpos', hord', hfr⟩ :=
        update_in_heap st hpos hord e.HeadVertex hv _ hg.le
      have hd : DataFrame st st' := dataFrame_trans hd0 (dataFrame_of_frame hfr)
      refine ⟨st', hup, ⟨hpos', hord', ?_, structInv_edges hd hedges⟩, hd, ?_, ?_⟩
      · refine outOfHeap_of_frame hfr ?_
        intro k hk hnot
        have hne : k ≠ e.HeadVertex := fun h => hnot (h ▸ hv)
        rw [setDGS_mem_ne st _ _ hne]
        exact hout k hk hnot
      · rw [(hfr.2.2.2.2 _).2.2.1, setDGS_mem_same, min_eq_right hg.le]
      · intro p hp
        rw [(hfr.2.2.2.2 _).2.2.1, setDGS_mem_ne st _ _ hp]
    · rw [if_neg (fun h => hg h.2), if_pos hv]
      exact ⟨st, rfl, hS', dataFrame_refl st, (min_eq_left (not_lt.1 hg)).symm,
        fun _ _ => rfl⟩
  · have hidx : (st.mem e.HeadVertex).Index = -1 := hout _ he hv
    rw [if_neg (fun h => h.1 hidx), if_neg hv]
    exact ⟨st, rfl, hS', dataFrame_refl st, rfl, fun _ _ => rfl⟩

theorem referenceRelaxAll_spec (u : Int) : ∀ (es : List (NodeTuple R)) (st : State R),
    StructInv st → u ∈ st.keys → (∀ e ∈ es, e.HeadVertex ∈ st.keys) →
    ∃ st' : State R, es.foldlM (referenceRelax u) st = some st' ∧ StructInv st' ∧
      DataFrame st st' ∧
      (∀ p, (st'.mem p).DGS ≤ (st.mem p).DGS) ∧
      (∀ p, p ∉ st.vh → (st'.mem p).DGS = (st.mem p).DGS) ∧
      (∀ e ∈ es, e.HeadVertex ∈ st.vh →
        (st'.mem e.HeadVertex).DGS ≤ (st.mem u).Length + e.Distance) ∧
      (∀ p, (st'.mem p).DGS = (st.mem p).DGS ∨ ∃ e ∈ es, e.HeadVertex = p ∧
        (st'.mem p).DGS = (st.mem u).Length + e.Distance) := by
  intro es
  induction es with
  | nil =>
    intro st hS _ _
    exact ⟨st, rfl, hS, dataFrame_refl st, fun _ => le_refl _, fun _ _ => rfl,
      fun _ h => by simp at h, fun _ => Or.inl rfl⟩
  | cons e es ih =>
    intro st hS hu hes
    obtain ⟨st1, hrel, hS1, hd1, hhead1, hne1⟩ :=
      referenceRelax_spec st hS u hu e (hes e (List.mem_cons_self _ _))
    obtain ⟨st2, hrun, hS2, hd2, hle2, hout2, hrelaxed2, hcase2⟩ :=
      ih st1 hS1 (by rw [hd1.1]; exact hu)
        (fun e' he' => by rw [hd1.1]; exact hes e' (List.mem_cons_of_mem _ he'))
    have hL : (st1.mem u).Length = (st.mem u).Length := (hd1.2.2.2 u).2.2
    have hle1 : ∀ p, (st1.mem p).DGS ≤ (st.mem p).DGS := by
      intro p
      by_cases h : p = e.HeadVertex
      · subst h
        rw [hhead1]
        split
        · exact min_le_left _ _
        · exact le_refl _
      · rw [hne1 p h]
    have hout1 : ∀ p, p ∉ st.vh → (st1.mem p).DGS = (st.mem p).DGS := by
      intro p hp
      by_cases h : p = e.HeadVertex
      · subst h; rw [hhead1, if_neg hp]
      · exact hne1 p h
    refine ⟨st2, ?_, hS2, dataFrame_trans hd1 hd2, fun p => (hle2 p).trans (hle1 p), ?_, ?_,
      ?_⟩
    · simp only [List.foldlM_cons, hrel, Option.bind_eq_bind, Option.some_bind]
      exact hrun
    · intro p hp
      rw [hout2 p (fun h => hp ((hd1.2.2.1 p).1 h)), hout1 p hp]
    · intro e' he' hin
      rcases List.mem_cons.1 he' with rfl | h
      · refine (hle2 _).trans ?_
        rw [hhead1, if_pos hin]; exact min_le_right _ _
      · rw [← hL]; exact hrelaxed2 e' h ((hd1.2.2.1 _).2 hin)
    · intro p
      rcases hcase2 p with h2 | ⟨e', he', hp, heq⟩
      · by_cases h : p = e.HeadVertex
        · by_cases hg : e.HeadVertex ∈ st.vh ∧
              (st.mem u).Length + e.Distance < (st.mem e.HeadVertex).DGS
          · right
            refine ⟨e, List.mem_cons_self _ _, h.symm, ?_⟩
            rw [h2, h, hhead1, if_pos hg.1, min_eq_right hg.2.le]
          · left
            rw [h2, h, hhead1]
            split
            · rename_i hin
              exact min_eq_left (not_lt.1 (fun hlt => hg ⟨hin, hlt⟩))
            · rfl
        · left; rw [h2, hne1 p h]
      · right
        exact ⟨e', List.mem_cons_of_mem _ he', hp, by rw [heq, hL]⟩

theorem reference_step (st0 : State R) (s : Int) (hnn : NonNegWeights st0) (st : State R)
    (hS : StructInv st) (inv : RInv st0 s st) (hne : 0 < st.vh.length) :
    ∃ (st1 : State R) (u : Int) (st3 : State R), heap.Pop st = some (st1, u) ∧
      u ∈ st1.keys ∧
      (st1.mem u).Edges.foldlM (referenceRelax u) (st1.setLength u (st1.mem u).DGS)
        = some st3 ∧
      StructInv st3 ∧ RInv st0 s st3 ∧ st3.vh.length + 1 = st.vh.length := by
  obtain ⟨hpos, hord, hout, hedges⟩ := hS
  obtain ⟨st1, hpop, hpos1, hord1, hk1, hlen1, hmem1, hout1, hsd1, hidx1, hmin⟩ :=
    pop_spec st hpos hord hne
  have huvh : st.ptr 0 ∈ st.vh := ptr_mem st 0 hne
  have huk : st.ptr 0 ∈ st.keys := (hpos 0 hne).1
  have hminv : ∀ v ∈ st.vh, (st.mem (st.ptr 0)).DGS ≤ (st.mem v).DGS := by
    intro v hv
    obtain ⟨k, hk, rfl⟩ := exists_ptr_of_mem st hv
    exact hmin k hk
  generalize st.ptr 0 = u at hpop hmem1 hidx1 huvh huk hminv
  have hS1 : StructInv st1 := by
    refine ⟨hpos1, hord1, ?_, ?_⟩
    · intro k hk hnot
      rw [hk1] at hk
      by_cases h : k = u
      · rw [h]; exact hidx1
      · have : k ∉ st.vh := fun hin => hnot ((hmem1 k).2 ⟨hin, h⟩)
        rw [hout1 k this]
        exact hout k hk this
    · intro k hk e he
      rw [hk1] at hk ⊢
      rw [(hsd1 k).2.1] at he
      exact hedges k hk e he
  have hS2 := setLength_structInv st1 hS1 u (st1.mem u).DGS
  have huk1 : u ∈ st1.keys := hk1 ▸ huk
  have hE2 : ((st1.setLength u (st1.mem u).DGS).mem u).Edges = (st1.mem u).Edges :=
    (setLength_sameIndex st1 u _ u).2.2.1
  obtain ⟨st3, hrun, hS3, hd3, hle3, hout3, hrelaxed3, hcase3⟩ :=
    referenceRelaxAll_spec u (st1.mem u).Edges (st1.setLength u (st1.mem u).DGS) hS2 huk1
      (fun e he => hS2.2.2.2 u huk1 e (hE2 ▸ he))
  -- the data of the three states
  have hDGS2 : ∀ p, ((st1.setLength u (st1.mem u).DGS).mem p).DGS = (st.mem p).DGS :=
    fun p => ((setLength_sameIndex st1 u _ p).2.1).trans (hsd1 p).2.2.1
  have hLu : ((st1.setLength u (st1.mem u).DGS).mem u).Length = (st.mem u).DGS := by
    rw [setLength_mem_same]; exact (hsd1 u).2.2.1
  have hLen2 : ∀ p, p ≠ u →
      ((st1.setLength u (st1.mem u).DGS).mem p).Length = (st.mem p).Length := by
    intro p hp
    rw [setLength_mem_ne st1 u _ hp]; exact (hsd1 p).2.2.2
  have hE3 : ∀ p, (st3.mem p).Edges = (st.mem p).Edges := by
    intro p
    rw [(hd3.2.2.2 p).2.1, (setLength_sameIndex st1 u _ p).2.2.1]
    exact (hsd1 p).2.1
  have hL3 : ∀ p, (st3.mem p).Length
      = ((st1.setLength u (st1.mem u).DGS).mem p).Length := fun p => (hd3.2.2.2 p).2.2
  have hvh3 : ∀ p, p ∈ st3.vh ↔ p ∈ st.vh ∧ p ≠ u := by
    intro p
    rw [hd3.2.2.1 p]
    exact hmem1 p
  have hk3 : st3.keys = st.keys := hd3.1.trans hk1
  have hout3' : ∀ p, p ∉ st3.vh → (st3.mem p).DGS = (st.mem p).DGS := by
    intro p hp
    rw [hout3 p (fun h => hp ((hd3.2.2.1 p).2 h)), hDGS2]
  have hsettled : ∀ p ∈ st.keys, p ∉ st3.vh → (st.mem p).DGS ≤ (st.mem u).DGS := by
    intro p hp hnot
    by_cases hpu : p = u
    · rw [hpu]
    · exact inv.settled_le p hp (fun hin => hnot ((hvh3 p).2 ⟨hin, hpu⟩)) u huvh
  have hdnn : ∀ e ∈ (st1.mem u).Edges, (0 : Score R) ≤ e.Distance := by
    intro e he
    rw [(hsd1 u).2.1, inv.edges_eq] at he
    exact hnn u (inv.keys_eq ▸ huk) e he
  have hcase : ∀ p, (st3.mem p).DGS = (st.mem p).DGS ∨ ∃ e ∈ (st1.mem u).Edges,
      e.HeadVertex = p ∧ (st3.mem p).DGS = (st.mem u).DGS + e.Distance := by
    intro p
    rcases hcase3 p with h | ⟨e, he, hp, heq⟩
    · left; rw [h, hDGS2]
    · right; exact ⟨e, he, hp, by rw [heq, hLu]⟩
  refine ⟨st1, u, st3, hpop, huk1, hrun, hS3,
    ⟨hk3.trans inv.keys_eq, fun p => (hE3 p).trans (inv.edges_eq p), hk3 ▸ inv.s_mem, ?_, ?_,
      ?_, ?_, ?_, ?_⟩, ?_⟩
  · -- nonneg
    intro v hv
    rw [hk3] at hv
    rcases hcase v with h | ⟨e, he, _, heq⟩
    · rw [h]; exact inv.nonneg v hv
    · rw [heq]; exact add_nonneg (inv.nonneg u huk) (hdnn e he)
  · -- src
    refine le_antisymm ?_ ?_
    · have := hle3 s
      rw [hDGS2, inv.src] at this
      exact this
    · rcases hcase s with h | ⟨e, he, _, heq⟩
      · rw [h, inv.src]
      · rw [heq]; exact add_nonneg (inv.nonneg u huk) (hdnn e he)
  · -- len_eq
    intro p hp hnot
    rw [hk3] at hp
    rw [hL3, hout3' p hnot]
    by_cases hpu : p = u
    · rw [hpu, hLu]
    · rw [hLen2 p hpu]
      exact inv.len_eq p hp (fun hin => hnot ((hvh3 p).2 ⟨hin, hpu⟩))
  · -- relaxed
    intro p hp hnot e he
    rw [hk3] at hp
    rw [hE3] at he
    rw [hL3]
    by_cases hpu : p = u
    · subst hpu
      by_cases hin : e.HeadVertex ∈ (st1.setLength p (st1.mem p).DGS).vh
      · exact hrelaxed3 e (by rw [(hsd1 p).2.1]; exact he) hin
      · have hin3 : e.HeadVertex ∉ st3.vh := fun h => hin ((hd3.2.2.1 _).1 h)
        rw [hout3' _ hin3, hLu]
        refine (hsettled _ (hedges p hp e he) hin3).trans ?_
        exact le_add_of_nonneg_right (hdnn e (by rw [(hsd1 p).2.1]; exact he))
    · rw [hLen2 p hpu]
      refine (hle3 _).trans ?_
      rw [hDGS2]
      exact inv.relaxed p hp (fun hin => hnot ((hvh3 p).2 ⟨hin, hpu⟩)) e he
  · -- settled_le
    intro p hp hnot v hv
    rw [hk3] at hp
    rw [hout3' p hnot]
    refine (hsettled p hp hnot).trans ?_
    rcases hcase v with h | ⟨e, he, _, heq⟩
    · rw [h]; exact hminv v ((hvh3 v).1 hv).1
    · rw [heq]; exact le_add_of_nonneg_right (hdnn e he)
  · -- reach
    intro v hv hfin
    rw [hk3] at hv
    rcases hcase v with h | ⟨e, he, hev, heq⟩
    · rw [h] at hfin ⊢
      exact inv.reach v hv hfin
    · rw [heq] at hfin ⊢
      have hufin : (st.mem u).DGS ≠ ⊤ := by
        intro htop
        rw [htop] at hfin
        exact hfin (WithTop.top_add _)
      have hwalk := inv.reach u huk hufin
      have he0 : e ∈ (st0.mem u).Edges := by
        rw [← inv.edges_eq, ← (hsd1 u).2.1]; exact he
      have := Walk.cons u _ e hwalk (inv.keys_eq ▸ huk) he0
      rw [hev] at this
      exact this
  · rw [hd3.2.1]
    exact hlen1

theorem referenceLoop_spec (st0 : State R) (s : Int) (hnn : NonNegWeights st0) :
    ∀ (fuel : Nat) (st : State R), StructInv st → RInv st0 s st → st.vh.length ≤ fuel →
    ∃ st' : State R, referenceLoop fuel st = some st' ∧ st'.vh = [] ∧ RInv st0 s st' := by
  intro fuel
  induction fuel with
  | zero =>
    intro st _ inv hlen
    have h0 : st.vh = [] := List.length_eq_zero.1 (by omega)
    exact ⟨st, by simp [referenceLoop, VertexHeap.Len, h0], h0, inv⟩
  | succ fuel ih =>
    intro st hS inv hlen
    by_cases h0 : 0 < st.vh.length
    · obtain ⟨st1, u, st3, hpop, huk, hrun, hS3, inv3, hlen3⟩ :=
        reference_step st0 s hnn st hS inv h0
      obtain ⟨st', hloop, hvh', inv'⟩ := ih st3 hS3 inv3 (by omega)
      refine ⟨st', ?_, hvh', inv'⟩
      have hL : VertexHeap.Len st > 0 := by
        unfold VertexHeap.Len; omega
      simp only [referenceLoop, hL, if_true, hpop, Option.bind_eq_bind, Option.some_bind,
        VertexMap_of_mem st1 huk]
      have e : st1.store u { (st1.mem u) with Length := (st1.mem u).DGS }
          = st1.setLength u (st1.mem u).DGS := rfl
      rw [e, hrun]
      exact hloop
    · have h0' : st.vh = [] := List.length_eq_zero.1 (by omega)
      exact ⟨st, by simp [referenceLoop, VertexHeap.Len, h0'], h0', inv⟩

/-- The final state of the reference driver on a loader-built graph with non-negative
weights. -/
theorem reference_final (order : List Int) (st : State R) (s : Int) (hLB : LoaderBuilt st)
    (hnn : NonNegWeights st) (hs : s ∈ st.keys) (horder : order.Perm st.keys) :
    ∃ st' : State R, referenceRun order st s = some st' ∧
      (∀ v x, Walk st s v x → (st'.mem v).Length ≤ x) ∧
      (∀ v ∈ st.keys, (st'.mem v).Length ≠ ⊤ → Walk st s v (st'.mem v).Length) := by
  have hnd : order.Nodup := horder.nodup_iff.2 hLB.1
  obtain ⟨stH, hmk, hposH, hordH, hkH, hpermH, hsdH, _⟩ :=
    makeVertexHeap_spec order st hnd (fun v hv => horder.mem_iff.1 hv)
  have hallH : ∀ k ∈ st.keys, k ∈ stH.vh :=
    fun k hk => hpermH.mem_iff.2 (horder.mem_iff.2 hk)
  have hsH : s ∈ stH.keys := hkH ▸ hs
  have htopH : ∀ k ∈ st.keys, (stH.mem k).DGS = ⊤ :=
    fun k hk => ((hsdH k).2.2.1).trans (hLB.2 k hk).1
  obtain ⟨stI, hup, hposI, hordI, hfr⟩ :=
    update_in_heap stH hposH hordH s (hallH s hs) 0 (by rw [htopH s hs]; exact le_top)
  have hdf : DataFrame stH stI :=
    dataFrame_trans (setDGS_dataFrame stH s 0) (dataFrame_of_frame hfr)
  have hkI : stI.keys = st.keys := hdf.1.trans hkH
  have hallI : ∀ k ∈ stI.keys, k ∈ stI.vh := by
    intro k hk
    exact (hdf.2.2.1 k).2 (hallH k (hkI ▸ hk))
  have hEI : ∀ p, (stI.mem p).Edges = (st.mem p).Edges :=
    fun p => ((hdf.2.2.2 p).2.1).trans (hsdH p).2.1
  have hedgesI : ∀ k ∈ stI.keys, ∀ e ∈ (stI.mem k).Edges, e.HeadVertex ∈ stI.keys := by
    intro k hk e he
    rw [hkI] at hk ⊢
    rw [hEI] at he
    exact ((hLB.2 k hk).2.2 e he).2
  have hSI : StructInv stI :=
    ⟨hposI, hordI, fun k hk hnot => absurd (hallI k hk) hnot, hedgesI⟩
  have hd0 : (stI.mem s).DGS = 0 := by
    rw [(hfr.2.2.2.2 s).2.2.1, setDGS_mem_same]
  have hdtop : ∀ p ∈ st.keys, p ≠ s → (stI.mem p).DGS = ⊤ := by
    intro p hp hps
    rw [(hfr.2.2.2.2 p).2.2.1, setDGS_mem_ne stH s 0 hps]
    exact htopH p hp
  have invI : RInv st s stI := by
    refine ⟨hkI, hEI, hkI ▸ hs, ?_, hd0, ?_, ?_, ?_, ?_⟩
    · intro v hv
      by_cases h : v = s
      · rw [h, hd0]
      · rw [hdtop v (hkI ▸ hv) h]; exact le_top
    · intro u hu hnot
      exact absurd (hallI u hu) hnot
    · intro u hu hnot
      exact absurd (hallI u hu) hnot
    · intro u hu hnot
      exact absurd (hallI u hu) hnot
    · intro v hv hfin
      by_cases h : v = s
      · rw [h, hd0]; exact Walk.nil
      · exact absurd (hdtop v (hkI ▸ hv) h) hfin
  obtain ⟨st', hloop, hvh', inv⟩ :=
    referenceLoop_spec st s hnn stI.vh.length stI hSI invI (le_refl _)
  have hlen : ∀ u ∈ st.keys, (st'.mem u).Length = (st'.mem u).DGS :=
    fun u hu => inv.len_eq u (inv.keys_eq ▸ hu) (by rw [hvh']; simp)
  have hsrc : (st'.mem s).Length = 0 := by rw [hlen s hs, inv.src]
  have htri : ∀ u ∈ st.keys, ∀ e ∈ (st.mem u).Edges,
      (st'.mem e.HeadVertex).Length ≤ (st'.mem u).Length + e.Distance := by
    intro u hu e he
    rw [hlen _ ((hLB.2 u hu).2.2 e he).2]
    exact inv.relaxed u (inv.keys_eq ▸ hu) (by rw [hvh']; simp) e
      (by rw [inv.edges_eq]; exact he)
  refine ⟨st', ?_, ?_, ?_⟩
  · simp [referenceRun, referenceDijkstra, hmk, hup, hloop]
  · intro v x hwalk
    induction hwalk with
    | nil => rw [hsrc]
    | cons u x e _ hu he ih => exact (htri u hu e he).trans (add_le_add_right ih _)
  · intro v hv hfin
    rw [hlen v hv] at hfin ⊢
    exact inv.reach v (inv.keys_eq ▸ hv) hfin

/-- C19: on a loader-built graph with non-negative weights, the driver of the code (relax
the edges of the working vertex, then extract, with no test of the neighbour's `Index`) and
the reference driver of the specification (extract the minimum, set its length, then update
a neighbour only when it is still in the heap and the candidate is strictly smaller than its
score) both return, and give every vertex the same `Length`. -/
theorem driver_agrees_with_reference (order : List Int) (st : State R) (s : Int)
    (hLB : LoaderBuilt st) (hnn : NonNegWeights st) (hs : s ∈ st.keys)
    (horder : order.Perm st.keys) :
    ∃ st1 st2 : State R, run order st s = some st1 ∧ referenceRun order st s = some st2 ∧
      ∀ v ∈ st.keys, (st1.mem v).Length = (st2.mem v).Length := by
  obtain ⟨st1, hrun1, _, _, hlow1, hreach1, _⟩ := search_final order st s hLB hnn hs horder
  obtain ⟨st2, hrun2, hlow2, hreach2⟩ := reference_final order st s hLB hnn hs horder
  refine ⟨st1, st2, hrun1, hrun2, fun v hv => ?_⟩
  by_cases h1 : (st1.mem v).Length = ⊤
  · by_cases h2 : (st2.mem v).Length = ⊤
    · rw [h1, h2]
    · have := hlow1 v _ (hreach2 v hv h2)
      rw [h1, top_le_iff] at this
      exact absurd this h2
  · have hle2 := hlow2 v _ (hreach1 v hv h1)
    have h2 : (st2.mem v).Length ≠ ⊤ := fun e => h1 (top_le_iff.1 (e ▸ hle2))
    exact le_antisymm (hlow1 v _ (hreach2 v hv h2)) hle2

/-- Witness for C19 on scenario S5 of the specification, whose cycle leads back to the
extracted source. -/
theorem driver_agrees_with_reference_witness :
    LoaderBuilt scenarioS5 ∧ NonNegWeights scenarioS5 ∧ (1 : Int) ∈ scenarioS5.keys ∧
      [3, 1, 2].Perm scenarioS5.keys ∧
      ∃ st1 st2 : State ℤ, run [3, 1, 2] scenarioS5 1 = some st1 ∧
        referenceRun [3, 1, 2] scenarioS5 1 = some st2 ∧
        ∀ v ∈ scenarioS5.keys, (st1.mem v).Length = (st2.mem v).Length :=
  ⟨by unfold LoaderBuilt; decide, by unfold NonNegWeights; decide, by decide, by decide,
    driver_agrees_with_reference [3, 1, 2] scenarioS5 1 (by unfold LoaderBuilt; decide)
      (by unfold NonNegWeights; decide) (by decide) (by decide)⟩

/-! ### The search in `float64` arithmetic: when the sums are exact -/

theorem addFloat_top_left (rnd : R → Score R) (b : Score R) : addFloat rnd ⊤ b = ⊤ := rfl

theorem addFloat_top_right (rnd : R → Score R) (a : Score R) : addFloat rnd a ⊤ = ⊤ := by
  cases a <;> rfl

theorem addFloat_coe (rnd : R → Score R) (x y : R) :
    addFloat rnd (x : Score R) (y : Score R) = rnd (x + y) := rfl

theorem relaxFloat_eq (rnd : R → Score R) (w : Int) (st : State R) (e : NodeTuple R)
    (hw : w ∈ st.keys)
    (hx : addFloat rnd (st.mem w).Length e.Distance = (st.mem w).Length + e.Distance) :
    relaxFloat rnd w st e = relax w st e := by
  simp only [relaxFloat, relax, VertexMap_of_mem st hw, Option.bind_eq_bind, Option.some_bind,
    hx]

theorem relaxAllFloat_eq (rnd : R → Score R) (w : Int) : ∀ (es : List (NodeTuple R))
    (st : State R), StructInv st → w ∈ st.keys → (∀ e ∈ es, e.HeadVertex ∈ st.keys) →
    (∀ e ∈ es, addFloat rnd (st.mem w).Length e.Distance = (st.mem w).Length + e.Distance) →
    es.foldlM (relaxFloat rnd w) st = es.foldlM (relax w) st := by
  intro es
  induction es with
  | nil => intro st _ _ _ _; simp only [List.foldlM_nil]
  | cons e es ih =>
    intro st hS hw hes hex
    obtain ⟨st1, hrel, hS1, hd1, _, _⟩ :=
      relax_spec st hS w hw e (hes e (List.mem_cons_self _ _))
    have hF := relaxFloat_eq rnd w st e hw (hex e (List.mem_cons_self _ _))
    have h1 : (e :: es).foldlM (relaxFloat rnd w) st = es.foldlM (relaxFloat rnd w) st1 := by
      rw [List.foldlM_cons, hF, hrel]
      exact Option.some_bind _ _
    have h2 : (e :: es).foldlM (relax w) st = es.foldlM (relax w) st1 := by
      rw [List.foldlM_cons, hrel]
      exact Option.some_bind _ _
    rw [h1, h2]
    refine ih st1 hS1 (by rw [hd1.1]; exact hw)
      (fun e' he' => by rw [hd1.1]; exact hes e' (List.mem_cons_of_mem _ he')) ?_
    intro e' he'
    rw [(hd1.2.2.2 w).2.2]
    exact hex e' (List.mem_cons_of_mem _ he')

/-- Under the invariant of the search, every path from the source to a vertex `v` weighs at
least the score of `v` or at least the score of the working vertex. -/
theorem dinv_lower (st0 : State R) (s : Int) (hnn : NonNegWeights st0) (st : State R)
    (w : Int) (inv : DInv st0 s st w) {v : Int} {y : Score R} (hwalk : Walk st0 s v y) :
    (st.mem v).DGS ≤ y ∨ (st.mem w).DGS ≤ y := by
  induction hwalk with
  | nil => left; rw [inv.src]
  | cons u x e _ hu he ih =>
    have hd : x ≤ x + e.Distance := le_add_of_nonneg_right (hnn u hu e he)
    have huk : u ∈ st.keys := inv.keys_eq ▸ hu
    rcases ih with h | h
    · by_cases hdone : Done st s u
      · by_cases huw : u = w
        · right; rw [← huw]; exact h.trans hd
        · left
          have h1 := inv.relaxed u huk hdone huw e (by rw [inv.edges_eq]; exact he)
          rw [inv.len_eq u huk hdone] at h1
          exact h1.trans (add_le_add_right h _)
      · right
        have huv : u ∈ st.vh := by
          by_contra hn
          exact hdone (Or.inl hn)
        exact ((inv.le_heap u huv).trans h).trans hd
    · right; exact h.trans hd

/-- Under the invariant of the search, the `Length` of the working vertex is the minimum
weight of the paths from the source to it. -/
theorem dinv_working_shortest (st0 : State R) (s : Int) (hnn : NonNegWeights st0)
    (hfin : FiniteWeights st0) (st : State R) (w : Int) (hw : w ∈ st.keys)
    (inv : DInv st0 s st w) : IsShortest st0 s w (st.mem w).Length := by
  rw [inv.len_eq w hw inv.w_done]
  have hlow : ∀ y, Walk st0 s w y → (st.mem w).DGS ≤ y := by
    intro y hy
    rcases dinv_lower st0 s hnn st w inv hy with h | h <;> exact h
  refine ⟨hlow, ?_, ?_⟩
  · rintro ⟨y, hy⟩
    refine inv.reach w hw (fun htop => ?_)
    have := hlow y hy
    rw [htop, top_le_iff] at this
    exact walk_finite st0 s hfin hy this
  · intro hno
    by_contra hne
    exact hno ⟨_, inv.reach w hw hne⟩

theorem dijkstraLoopFloat_eq (rnd : R → Score R) (st0 : State R) (s : Int)
    (hnn : NonNegWeights st0) (hfin : FiniteWeights st0)
    (hexact : ∀ u ∈ st0.keys, ∀ d, IsShortest st0 s u d → ∀ e ∈ (st0.mem u).Edges,
      addFloat rnd d e.Distance = d + e.Distance) :
    ∀ (fuel : Nat) (st : State R) (w : Int) (log : List (Int × Score R)), StructInv st →
      w ∈ st.keys → DInv st0 s st w →
      dijkstraLoopFloat rnd fuel st w = (dijkstraLoop fuel st w log).map Prod.fst := by
  intro fuel
  induction fuel with
  | zero =>
    intro st w log _ _ _
    by_cases h : VertexHeap.Len st > 0 <;> simp [dijkstraLoopFloat, dijkstraLoop, h]
  | succ fuel ih =>
    intro st w log hS hw inv
    by_cases h0 : 0 < st.vh.length
    · obtain ⟨st1, st2, u, hrel, hpop, huk, hS3, hiter⟩ := body_spec st hS w hw h0
      obtain ⟨inv3, _⟩ := dinv_step st0 s hnn st w _ u hw inv hiter
      have hsh := dinv_working_shortest st0 s hnn hfin st w hw inv
      have hrelF : (st.mem w).Edges.foldlM (relaxFloat rnd w) st = some st1 := by
        rw [relaxAllFloat_eq rnd w (st.mem w).Edges st hS hw (hS.2.2.2 w hw) ?_, hrel]
        intro e he
        exact hexact w (inv.keys_eq ▸ hw) _ hsh e (inv.edges_eq w ▸ he)
      have hL : VertexHeap.Len st > 0 := by
        unfold VertexHeap.Len; omega
      simp only [dijkstraLoopFloat, dijkstraLoop, hL, if_true, VertexMap_of_mem st hw,
        Option.bind_eq_bind, Option.some_bind, hrel, hrelF, hpop, VertexMap_of_mem st2 huk]
      exact ih _ u _ hS3 huk inv3
    · have h0' : st.vh = [] := List.length_eq_zero.1 (by omega)
      simp [dijkstraLoopFloat, dijkstraLoop, VertexHeap.Len, h0']

theorem dijkstraFloat_eq (rnd : R → Score R) (st : State R) (s : Int) (hs : s ∈ st.keys) :
    dijkstraFloat rnd st s = (VertexHeap.update (st.setLength s 0) s 0).bind
      fun st3 => dijkstraLoopFloat rnd st3.vh.length st3 s := by
  simp [dijkstraFloat, VertexHeap.update, State.VertexMap, hs, State.store, State.setLength]

/-- The heap that `makeVertexHeap` builds from a loader-built graph, and the state in which
`dijkstra(s)` enters its loop. -/
theorem search_entry (order : List Int) (st : State R) (s : Int) (hLB : LoaderBuilt st)
    (hs : s ∈ st.keys) (horder : order.Perm st.keys) :
    ∃ stH stI : State R, makeVertexHeap order st = some stH ∧ s ∈ stH.keys ∧
      VertexHeap.update (stH.setLength s 0) s 0 = some stI ∧ StructInv stI ∧
      InitState st s stI := by
  have hnd : order.Nodup := horder.nodup_iff.2 hLB.1
  obtain ⟨stH, hmk, hposH, hordH, hkH, hpermH, hsdH, _⟩ :=
    makeVertexHeap_spec order st hnd (fun v hv => horder.mem_iff.1 hv)
  have hSH : StructInv stH := by
    refine ⟨hposH, hordH, ?_, ?_⟩
    · intro k hk hnot
      rw [hkH] at hk
      exact absurd (hpermH.mem_iff.2 (horder.mem_iff.2 hk)) hnot
    · intro k hk e he
      rw [hkH] at hk ⊢
      rw [(hsdH k).2.1] at he
      exact ((hLB.2 k hk).2.2 e he).2
  obtain ⟨stI, hup, hSI, hI⟩ := init_update st stH s hSH (hkH ▸ hs) hkH
    (hpermH.trans horder) hsdH (fun k hk => (hLB.2 k hk).1)
  exact ⟨stH, stI, hmk, hkH ▸ hs, hup, hSI, hI⟩

/-- When the `float64` sum of the minimum path weight of `u` and the weight of an edge of `u`
is exact, for every vertex `u` and every edge of `u`, the search in `float64` arithmetic goes
through the same states as the search in exact arithmetic. -/
theorem runFloat_eq_run (rnd : R → Score R) (order : List Int) (st : State R) (s : Int)
    (hLB : LoaderBuilt st) (hnn : NonNegWeights st) (hfin : FiniteWeights st)
    (hs : s ∈ st.keys) (horder : order.Perm st.keys)
    (hexact : ∀ u ∈ st.keys, ∀ d, IsShortest st s u d → ∀ e ∈ (st.mem u).Edges,
      addFloat rnd d e.Distance = d + e.Distance) :
    runFloat rnd order st s = run order st s := by
  obtain ⟨stH, stI, hmk, hsH, hup, hSI, hI⟩ := search_entry order st s hLB hs horder
  have inv := dinv_init st s hs stI hI
  simp only [runFloat, run, hmk, Option.some_bind, dijkstra, dijkstraFloat_eq rnd stH s hsH,
    dijkstraTrace_eq stH s hsH, hup]
  exact dijkstraLoopFloat_eq rnd st s hnn hfin hexact _ stI s [] hSI (hI.1 ▸ hs) inv

theorem isShortest_unique (st : State R) (s v : Int) {x y : Score R}
    (hx : IsShortest st s v x) (hy : IsShortest st s v y) : x = y := by
  by_cases h : ∃ z, Walk st s v z
  · exact le_antisymm (hx.1 _ (hy.2.1 h)) (hy.1 _ (hx.2.1 h))
  · rw [hx.2.2 h, hy.2.2 h]


/-- The exactness condition on the sums can be checked on the lengths that the search in
exact arithmetic returns, since these are the minimum path weights. -/
theorem exact_sums_of_run (rnd : R → Score R) (order : List Int) (st : State R) (s : Int)
    (hLB : LoaderBuilt st) (hnn : NonNegWeights st) (hfin : FiniteWeights st)
    (hs : s ∈ st.keys) (horder : order.Perm st.keys)
    (hcheck : ∀ st' ∈ run order st s, ∀ u ∈ st.keys, ∀ e ∈ (st.mem u).Edges,
      addFloat rnd (st'.mem u).Length e.Distance = (st'.mem u).Length + e.Distance) :
    ∀ u ∈ st.keys, ∀ d, IsShortest st s u d → ∀ e ∈ (st.mem u).Edges,
      addFloat rnd d e.Distance = d + e.Distance := by
  obtain ⟨st', hrun, hsh⟩ := run_computes_shortest_paths order st s hLB hnn hfin hs horder
  intro u hu d hd e he
  rw [isShortest_unique st s u hd (hsh u hu)]
  exact hcheck st' hrun u hu e he

/-- C1 (as amended): on a loader-built finite graph with finite non-negative weights, for
every source `s` of the graph and every enumeration order of the vertex map: if for every
vertex `u` and every edge `(u → v, w)` of the graph the `float64` sum `d + w` is exact, `d`
being the minimum total weight of the directed paths from `s` to `u` (`+∞` when there is
none), then `makeVertexHeap` followed by `dijkstra(s)`, its sums formed in `float64`,
returns, and the `Length` of every vertex is the minimum total weight of the directed paths
from `s` to it, and `+∞` when there is no such path.  The statement holds for every rounding
function `rnd`, the rounding of `float64` among them. -/
theorem dijkstra_shortest_when_sums_exact (rnd : R → Score R) (order : List Int)
    (st : State R) (s : Int) (hLB : LoaderBuilt st) (hnn : NonNegWeights st)
    (hfin : FiniteWeights st) (hs : s ∈ st.keys) (horder : order.Perm st.keys)
    (hexact : ∀ u ∈ st.keys, ∀ d, IsShortest st s u d → ∀ e ∈ (st.mem u).Edges,
      addFloat rnd d e.Distance = d + e.Distance) :
    ∃ st' : State R, runFloat rnd order st s = some st' ∧
      ∀ v ∈ st.keys, IsShortest st s v (st'.mem v).Length := by
  rw [runFloat_eq_run rnd order st s hLB hnn hfin hs horder hexact]
  exact run_computes_shortest_paths order st s hLB hnn hfin hs horder

/-- Witness for C1 (as amended): scenario S3 in `float64` arithmetic, with the enumeration
order 3, 1, 2; the sums `0 + 1`, `0 + 4` and `1 + 2` are exact, and the lengths are `0`, `1`
and `3`. -/
theorem dijkstra_shortest_when_sums_exact_witness :
    LoaderBuilt scenarioS3 ∧ NonNegWeights scenarioS3 ∧ FiniteWeights scenarioS3 ∧
      (1 : Int) ∈ scenarioS3.keys ∧ [3, 1, 2].Perm scenarioS3.keys ∧
      (∀ u ∈ scenarioS3.keys, ∀ d, IsShortest scenarioS3 1 u d →
        ∀ e ∈ (scenarioS3.mem u).Edges, addFloat round64 d e.Distance = d + e.Distance) ∧
      (runFloat round64 [3, 1, 2] scenarioS3 1).map (fun st' =>
          ((st'.mem 1).Length, (st'.mem 2).Length, (st'.mem 3).Length))
        = some (0, ((1 : ℤ) : Score ℤ), ((3 : ℤ) : Score ℤ)) ∧
      ∃ st' : State ℤ, runFloat round64 [3, 1, 2] scenarioS3 1 = some st' ∧
        ∀ v ∈ scenarioS3.keys, IsShortest scenarioS3 1 v (st'.mem v).Length :=
  ⟨by unfold LoaderBuilt; decide, by unfold NonNegWeights; decide,
    by unfold FiniteWeights; decide, by decide, by decide,
    exact_sums_of_run round64 [3, 1, 2] scenarioS3 1 (by unfold LoaderBuilt; decide)
      (by unfold NonNegWeights; decide) (by unfold FiniteWeights; decide) (by decide)
      (by decide) (by decide),
    by decide,
    dijkstra_shortest_when_sums_exact round64 [3, 1, 2] scenarioS3 1
      (by unfold LoaderBuilt; decide) (by unfold NonNegWeights; decide)
      (by unfold FiniteWeights; decide) (by decide) (by decide)
      (exact_sums_of_run round64 [3, 1, 2] scenarioS3 1 (by unfold LoaderBuilt; decide)
        (by unfold NonNegWeights; decide) (by unfold FiniteWeights; decide) (by decide)
        (by decide) (by decide))⟩

/-- Counterexample to C1: on the loader-built graph of the lines `1 2,1e16`, `2 3,1` (finite
non-negative weights), `makeVertexHeap` and `dijkstra(1)` end with `Length(3) = 10^16`,
because the `float64` sum `1e16 + 1` is `1e16`; the minimum total weight of the paths from 1
to 3 is `10^16 + 1`. -/
theorem rounded_sum_counterexample :
    LoaderBuilt roundingGraph ∧ NonNegWeights roundingGraph ∧ FiniteWeights roundingGraph ∧
      [1, 2, 3].Perm roundingGraph.keys ∧
      addFloat round64 ((10 ^ 16 : ℤ) : Score ℤ) ((1 : ℤ) : Score ℤ)
        = ((10 ^ 16 : ℤ) : Score ℤ) ∧
      (runFloat round64 [1, 2, 3] roundingGraph 1).map (fun st' =>
          ((st'.mem 1).Length, (st'.mem 2).Length, (st'.mem 3).Length))
        = some (0, ((10 ^ 16 : ℤ) : Score ℤ), ((10 ^ 16 : ℤ) : Score ℤ)) ∧
      IsShortest roundingGraph 1 3 ((10 ^ 16 + 1 : ℤ) : Score ℤ) ∧
      ¬ IsShortest roundingGraph 1 3 ((10 ^ 16 : ℤ) : Score ℤ) := by
  have hLB : LoaderBuilt roundingGraph := by unfold LoaderBuilt; decide
  have hnn : NonNegWeights roundingGraph := by unfold NonNegWeights; decide
  have hfin : FiniteWeights roundingGraph := by unfold FiniteWeights; decide
  have hsh : IsShortest roundingGraph 1 3 ((10 ^ 16 + 1 : ℤ) : Score ℤ) := by
    obtain ⟨st', hrun, h⟩ :=
      run_computes_shortest_paths [1, 2, 3] roundingGraph 1 hLB hnn hfin (by decide) (by decide)
    have hval : (run [1, 2, 3] roundingGraph 1).map (fun st' => (st'.mem 3).Length)
        = some ((10 ^ 16 + 1 : ℤ) : Score ℤ) := by decide
    rw [hrun] at hval
    have h3 := h 3 (by decide)
    simp only [Option.map_some', Option.some.injEq] at hval
    rw [hval] at h3
    exact h3
  refine ⟨hLB, hnn, hfin, by decide, by decide, by decide, hsh, fun h => ?_⟩
  have := isShortest_unique roundingGraph 1 3 h hsh
  revert this
  decide


/-! ### The search in `float64` arithmetic: the loop -/

theorem relaxFloat_spec (rnd : R → Score R) (st : State R) (hS : StructInv st) (w : Int)
    (hw : w ∈ st.keys) (e : NodeTuple R) (he : e.HeadVertex ∈ st.keys) :
    ∃ st' : State R, relaxFloat rnd w st e = some st' ∧ StructInv st' ∧ DataFrame st st' ∧
      (st'.mem e.HeadVertex).DGS
        = min (st.mem e.HeadVertex).DGS (addFloat rnd (st.mem w).Length e.Distance) ∧
      ∀ p, p ≠ e.HeadVertex → (st'.mem p).DGS = (st.mem p).DGS := by
  obtain ⟨hpos, hord, hout, hedges⟩ := hS
  simp only [relaxFloat, VertexMap_of_mem st hw, VertexMap_of_mem st he, Option.bind_eq_bind,
    Option.some_bind, gt_iff_lt]
  generalize addFloat rnd (st.mem w).Length e.Distance = c
  by_cases hg : c < (st.mem e.HeadVertex).DGS
  · rw [if_pos hg]
    have hd0 := setDGS_dataFrame st e.HeadVertex c
    by_cases hv : e.HeadVertex ∈ st.vh
    · obtain ⟨st', hup, hpos', hord', hfr⟩ :=
        update_in_heap st hpos hord e.HeadVertex hv _ hg.le
      have hd : DataFrame st st' := dataFrame_trans hd0 (dataFrame_of_frame hfr)
      refine ⟨st', hup, ⟨hpos', hord', ?_, structInv_edges hd hedges⟩, hd, ?_, ?_⟩
      · refine outOfHeap_of_frame hfr ?_
        intro k hk hnot
        have hne : k ≠ e.HeadVertex := fun h => hnot (h ▸ hv)
        rw [setDGS_mem_ne st _ _ hne]
        exact hout k hk hnot
      · rw [(hfr.2.2.2.2 _).2.2.1, setDGS_mem_same, min_eq_right hg.le]
      · intro p hp
        rw [(hfr.2.2.2.2 _).2.2.1, setDGS_mem_ne st _ _ hp]
    · rw [update_out_of_heap st _ he (hout _ he hv)]
      refine ⟨_, rfl, ⟨setDGS_posConsistent st hpos _ _, ?_, ?_, structInv_edges hd0 hedges⟩,
        hd0, ?_, ?_⟩
      · intro k hk h0
        have hk' : k < st.vh.length := hk
        have h1 : st.ptr k ≠ e.HeadVertex := fun h => hv (h ▸ ptr_mem st k hk')
        have h2 : st.ptr ((k - 1) / 2) ≠ e.HeadVertex :=
          fun h => hv (h ▸ ptr_mem st _ (by omega))
        rw [setDGS_key, setDGS_key, if_neg h1, if_neg h2]
        exact hord k hk' h0
      · intro k hk hnot
        by_cases h : k = e.HeadVertex
        · subst h; rw [setDGS_mem_same]; exact hout _ hk hnot
        · rw [setDGS_mem_ne st _ _ h]; exact hout k hk hnot
      · rw [setDGS_mem_same, min_eq_right hg.le]
      · intro p hp
        rw [setDGS_mem_ne st _ _ hp]
  · rw [if_neg hg]
    exact ⟨st, rfl, ⟨hpos, hord, hout, hedges⟩, dataFrame_refl st,
      (min_eq_left (not_lt.1 hg)).symm, fun _ _ => rfl⟩

theorem relaxAllFloat_spec (rnd : R → Score R) (w : Int) : ∀ (es : List (NodeTuple R))
    (st : State R), StructInv st → w ∈ st.keys → (∀ e ∈ es, e.HeadVertex ∈ st.keys) →
    ∃ st' : State R, es.foldlM (relaxFloat rnd w) st = some st' ∧ StructInv st' ∧
      DataFrame st st' ∧
      (∀ p, (st'.mem p).DGS ≤ (st.mem p).DGS) ∧
      (∀ e ∈ es, (st'.mem e.HeadVertex).DGS ≤ addFloat rnd (st.mem w).Length e.Distance) ∧
      (∀ p, (st'.mem p).DGS = (st.mem p).DGS ∨ ∃ e ∈ es, e.HeadVertex = p ∧
        (st'.mem p).DGS = addFloat rnd (st.mem w).Length e.Distance ∧
        addFloat rnd (st.mem w).Length e.Distance < (st.mem p).DGS) := by
  intro es
  induction es with
  | nil =>
    intro st hS _ _
    exact ⟨st, by simp only [List.foldlM_nil]; rfl, hS, dataFrame_refl st, fun _ => le_refl _,
      fun _ h => by simp at h, fun _ => Or.inl rfl⟩
  | cons e es ih =>
    intro st hS hw hes
    obtain ⟨st1, hrel, hS1, hd1, hmin1, hne1⟩ :=
      relaxFloat_spec rnd st hS w hw e (hes e (List.mem_cons_self _ _))
    obtain ⟨st2, hrun, hS2, hd2, hle2, hrelaxed2, hcase2⟩ :=
      ih st1 hS1 (by rw [hd1.1]; exact hw)
        (fun e' he' => by rw [hd1.1]; exact hes e' (List.mem_cons_of_mem _ he'))
    have hL : (st1.mem w).Length = (st.mem w).Length := (hd1.2.2.2 w).2.2
    have hle1 : ∀ p, (st1.mem p).DGS ≤ (st.mem p).DGS := by
      intro p
      by_cases h : p = e.HeadVertex
      · subst h; rw [hmin1]; exact min_le_left _ _
      · rw [hne1 p h]
    refine ⟨st2, ?_, hS2, dataFrame_trans hd1 hd2, fun p => (hle2 p).trans (hle1 p), ?_, ?_⟩
    · simp only [List.foldlM_cons, hrel, Option.bind_eq_bind, Option.some_bind]
      exact hrun
    · intro e' he'
      rcases List.mem_cons.1 he' with rfl | h
      · refine (hle2 _).trans ?_
        rw [hmin1]; exact min_le_right _ _
      · rw [← hL]; exact hrelaxed2 e' h
    · intro p
      rcases hcase2 p with h2 | ⟨e', he', hp, heq, hlt⟩
      · by_cases h : p = e.HeadVertex
        · by_cases hg : addFloat rnd (st.mem w).Length e.Distance < (st.mem e.HeadVertex).DGS
          · right
            refine ⟨e, List.mem_cons_self _ _, h.symm, ?_, ?_⟩
            · rw [h2, h, hmin1, min_eq_right hg.le]
            · rw [h]; exact hg
          · left
            rw [h2, h, hmin1, min_eq_left (not_lt.1 hg)]
        · left; rw [h2, hne1 p h]
      · right
        refine ⟨e', List.mem_cons_of_mem _ he', hp, by rw [heq, hL], ?_⟩
        rw [← hL]
        exact lt_of_lt_of_le hlt (hle1 p)

theorem bodyFloat_spec (rnd : R → Score R) (st : State R) (hS : StructInv st) (w : Int)
    (hw : w ∈ st.keys) (hne : 0 < st.vh.length) :
    ∃ (st1 st2 : State R) (u : Int),
      (st.mem w).Edges.foldlM (relaxFloat rnd w) st = some st1 ∧
      heap.Pop st1 = some (st2, u) ∧
      u ∈ st2.keys ∧ StructInv (st2.setLength u (st2.mem u).DGS) ∧
      IterFloat rnd st w (st2.setLength u (st2.mem u).DGS) u := by
  obtain ⟨st1, hrel, hS1, hd1, hle1, hrelaxed1, hcase1⟩ :=
    relaxAllFloat_spec rnd w (st.mem w).Edges st hS hw (hS.2.2.2 w hw)
  obtain ⟨hpos1, hord1, hout1, hedges1⟩ := hS1
  have hne1 : 0 < st1.vh.length := by rw [hd1.2.1]; exact hne
  obtain ⟨st2, hpop, hpos2, hord2, hk2, hlen2, hmem2, hout2, hsd2, hidx2, hmin2⟩ :=
    pop_spec st1 hpos1 hord1 hne1
  have hu1 : st1.ptr 0 ∈ st1.vh := ptr_mem st1 0 hne1
  have huk : st1.ptr 0 ∈ st1.keys := (hpos1 0 hne1).1
  have hS2 : StructInv st2 := by
    refine ⟨hpos2, hord2, ?_, ?_⟩
    · intro k hk hnot
      rw [hk2] at hk
      by_cases h : k = st1.ptr 0
      · rw [h]; exact hidx2
      · have : k ∉ st1.vh := fun hin => hnot ((hmem2 k).2 ⟨hin, h⟩)
        rw [hout2 k this]
        exact hout1 k hk this
    · intro k hk e he
      rw [hk2] at hk ⊢
      rw [(hsd2 k).2.1] at he
      exact hedges1 k hk e he
  refine ⟨st1, st2, st1.ptr 0, hrel, hpop, hk2 ▸ huk, setLength_structInv st2 hS2 _ _, ?_⟩
  refine ⟨st1, hd1, hle1, hrelaxed1, hcase1, hu1, hd1.1 ▸ huk, ?_, hk2.trans hd1.1, hlen2,
    hmem2, ?_, ?_, ?_, ?_⟩
  · intro p hp
    obtain ⟨k, hk, rfl⟩ := exists_ptr_of_mem st1 hp
    exact hmin2 k hk
  · intro p
    have := setLength_sameIndex st2 (st1.ptr 0) (st2.mem (st1.ptr 0)).DGS p
    exact ⟨this.2.2.2.trans (hsd2 p).1, this.2.2.1.trans (hsd2 p).2.1,
      this.2.1.trans (hsd2 p).2.2.1⟩
  · intro p hp
    rw [setLength_mem_ne st2 _ _ hp]
    exact (hsd2 p).2.2.2
  · rw [setLength_mem_same]
    exact (hsd2 _).2.2.1
  · exact (setLength_sameIndex st2 _ _ _).1.trans hidx2

/-- The loop of `dijkstra` in `float64` arithmetic returns, with an empty heap, and every
property `P` that one pass of the loop preserves holds at the end. -/
theorem dijkstraLoopFloat_spec (rnd : R → Score R) (P : State R → Int → Prop)
    (hstep : ∀ (st : State R) (w : Int) (st3 : State R) (u : Int),
      StructInv st → w ∈ st.keys → P st w → IterFloat rnd st w st3 u → P st3 u) :
    ∀ (fuel : Nat) (st : State R) (w : Int), StructInv st →
      w ∈ st.keys → st.vh.length ≤ fuel → P st w →
      ∃ (st' : State R) (w' : Int),
        dijkstraLoopFloat rnd fuel st w = some st' ∧ StructInv st' ∧ st'.vh = [] ∧
        st'.keys = st.keys ∧ w' ∈ st'.keys ∧ P st' w' := by
  intro fuel
  induction fuel with
  | zero =>
    intro st w hS hw hlen hP
    have h0 : st.vh = [] := List.length_eq_zero.1 (by omega)
    refine ⟨st, w, ?_, hS, h0, rfl, hw, hP⟩
    simp [dijkstraLoopFloat, VertexHeap.Len, h0]
  | succ fuel ih =>
    intro st w hS hw hlen hP
    by_cases h0 : 0 < st.vh.length
    · obtain ⟨st1, st2, u, hrel, hpop, huk, hS3, hiter⟩ := bodyFloat_spec rnd st hS w hw h0
      have hP3 := hstep st w _ u hS hw hP hiter
      have hk3 : (st2.setLength u (st2.mem u).DGS).keys = st.keys := by
        obtain ⟨_, _, _, _, _, _, _, _, hk, _⟩ := hiter
        exact hk
      have hlen3 : (st2.setLength u (st2.mem u).DGS).vh.length ≤ fuel := by
        obtain ⟨_, hd, _, _, _, _, _, _, _, hl, _⟩ := hiter
        have := hd.2.1
        omega
      obtain ⟨st', w', hrun, hS', hvh', hk', hw', hP'⟩ := ih _ u hS3 huk hlen3 hP3
      refine ⟨st', w', ?_, hS', hvh', hk'.trans hk3, hw', hP'⟩
      have hL : VertexHeap.Len st > 0 := by
        unfold VertexHeap.Len; omega
      simp only [dijkstraLoopFloat, hL, if_true, VertexMap_of_mem st hw, Option.bind_eq_bind,
        Option.some_bind, hrel, hpop, VertexMap_of_mem st2 huk]
      exact hrun
    · have h0' : st.vh = [] := List.length_eq_zero.1 (by omega)
      refine ⟨st, w, ?_, hS, h0', rfl, hw, hP⟩
      simp [dijkstraLoopFloat, VertexHeap.Len, h0']

/-- The whole run in `float64` arithmetic, for any property `P` of the loop that holds on
entry and that one pass of the loop preserves. -/
theorem runFloat_generic (rnd : R → Score R) (P : State R → Int → Prop)
    (hstep : ∀ (st : State R) (w : Int) (st3 : State R) (u : Int),
      StructInv st → w ∈ st.keys → P st w → IterFloat rnd st w st3 u → P st3 u)
    (order : List Int) (st : State R) (s : Int) (hLB : LoaderBuilt st) (hs : s ∈ st.keys)
    (horder : order.Perm st.keys)
    (hinit : ∀ stI : State R, StructInv stI → InitState st s stI → P stI s) :
    ∃ (st' : State R) (w' : Int), runFloat rnd order st s = some st' ∧ StructInv st' ∧
      st'.vh = [] ∧ st'.keys = st.keys ∧ w' ∈ st'.keys ∧ P st' w' := by
  obtain ⟨stH, stI, hmk, hsH, hup, hSI, hI⟩ := search_entry order st s hLB hs horder
  obtain ⟨st', w', hrun, hS', hvh', hk', hw', hP'⟩ :=
    dijkstraLoopFloat_spec rnd P hstep stI.vh.length stI s hSI (hI.1 ▸ hs) (le_refl _)
      (hinit stI hSI hI)
  refine ⟨st', w', ?_, hS', hvh', hk'.trans hI.1, hw', hP'⟩
  simp only [runFloat, hmk, Option.some_bind, dijkstraFloat_eq rnd stH s hsH, hup]
  exact hrun


/-! ### The search in `float64` arithmetic: which lengths are finite -/

theorem addFloat_nonneg (rnd : R → Score R) (hr0 : ∀ x, 0 ≤ x → 0 ≤ rnd x) {a b : Score R}
    (ha : 0 ≤ a) (hb : 0 ≤ b) : 0 ≤ addFloat rnd a b := by
  induction a using WithTop.recTopCoe with
  | top => rw [addFloat_top_left]; exact le_top
  | coe x =>
    induction b using WithTop.recTopCoe with
    | top => rw [addFloat_top_right]; exact le_top
    | coe y =>
      rw [addFloat_coe]
      exact hr0 _ (add_nonneg (WithTop.coe_nonneg.1 ha) (WithTop.coe_nonneg.1 hb))

theorem ite_top_nonneg (c : Prop) [Decidable c] (m : Nat) :
    (0 : Score ℤ) ≤ if c then ⊤ else (((m : Nat) : ℤ) : Score ℤ) := by
  split
  · exact le_top
  · exact WithTop.coe_nonneg.2 (Int.natCast_nonneg _)

theorem roundNat64_nonneg (n : Nat) : 0 ≤ roundNat64 n := by
  unfold roundNat64
  exact ite_top_nonneg _ _

/-- Rounding to `float64` keeps a whole number that is not negative from becoming negative. -/
theorem round64_nonneg (x : ℤ) (hx : 0 ≤ x) : 0 ≤ round64 x := by
  unfold round64
  rw [if_pos hx]
  exact roundNat64_nonneg _

theorem finv_init (rnd : R → Score R) (st : State R) (s : Int) (hs : s ∈ st.keys)
    (stI : State R) (hI : InitState st s stI) : FInv rnd st s stI s := by
  obtain ⟨hk, hall, hperm, hE, hd0, hl0, htop, _⟩ := hI
  have hdone : ∀ u ∈ stI.keys, Done stI s u → u = s := by
    intro u hu hdn
    rcases hdn with h | h
    · exact absurd (hall u (hk ▸ hu)) h
    · exact h
  refine ⟨hk, hE, hk ▸ hs, Or.inr rfl, ?_, ?_, hd0, hl0, ?_, ?_, ?_, ?_, ?_, ?_⟩
  · intro p hp
    by_cases h : p = s
    · rw [h, hd0]
    · rw [htop p (hk ▸ hp) h]; exact le_top
  · intro u hu hdn
    rw [hdone u hu hdn, hl0]
  · intro v hv hfin
    by_cases h : v = s
    · rw [h]; exact ⟨0, Walk.nil⟩
    · exact absurd (htop v (hk ▸ hv) h) hfin
  · intro u hu hdn _
    rw [hdone u hu hdn]; exact ⟨0, Walk.nil⟩
  · intro u hu hdn hne
    exact absurd (hdone u hu hdn) hne
  · intro h
    rw [hl0] at h
    exact absurd h WithTop.zero_ne_top
  · intro u hu hdn h
    rw [hdone u hu hdn, hl0] at h
    exact absurd h WithTop.zero_ne_top
  · intro u hu hdn h
    rw [hdone u hu hdn, hl0] at h
    exact absurd h WithTop.zero_ne_top

theorem finv_step (rnd : R → Score R) (hr0 : ∀ x, 0 ≤ x → 0 ≤ rnd x) (st0 : State R)
    (s : Int) (hnn : NonNegWeights st0) (st : State R) (w : Int) (st3 : State R) (u : Int)
    (hw : w ∈ st.keys) (inv : FInv rnd st0 s st w) (hiter : IterFloat rnd st w st3 u) :
    FInv rnd st0 s st3 u := by
  obtain ⟨st1, hd, hle1, hrelaxed, hcase, hu1, huk, hmin, hk3, hlen3, hmem3, hsd3, hlenne,
    hLu, hidx⟩ := hiter
  have hw0 : w ∈ st0.keys := inv.keys_eq ▸ hw
  have hcnn : ∀ e ∈ (st.mem w).Edges, 0 ≤ addFloat rnd (st.mem w).Length e.Distance := by
    intro e he
    exact addFloat_nonneg rnd hr0 (inv.len_nonneg w hw inv.w_done)
      (hnn w hw0 e (inv.edges_eq w ▸ he))
  -- a working vertex with `Length = +∞` changes no score
  have hA : (st.mem w).Length = ⊤ → ∀ p, (st1.mem p).DGS = (st.mem p).DGS := by
    intro htop p
    rcases hcase p with h | ⟨e, he, _, _, hlt⟩
    · exact h
    · rw [htop, addFloat_top_left] at hlt
      exact absurd hlt not_top_lt
  have hC : ∀ p, Done st3 s p → p ≠ u → Done st s p := by
    intro p hdone hpu
    rcases hdone with h | h
    · left
      intro hin
      exact h ((hmem3 p).2 ⟨(hd.2.2.1 p).2 hin, hpu⟩)
    · exact Or.inr h
  have hDGS3 : ∀ p, (st3.mem p).DGS = (st1.mem p).DGS := fun p => (hsd3 p).2.2
  have hE3 : ∀ p, (st3.mem p).Edges = (st.mem p).Edges :=
    fun p => (hsd3 p).2.1.trans (hd.2.2.2 p).2.1
  have hL3 : ∀ p, p ≠ u → (st3.mem p).Length = (st.mem p).Length :=
    fun p hp => (hlenne p hp).trans (hd.2.2.2 p).2.2
  have hu : u ∈ st.vh := (hd.2.2.1 u).1 hu1
  have hnn1 : ∀ p ∈ st.keys, 0 ≤ (st1.mem p).DGS := by
    intro p hp
    rcases hcase p with h | ⟨e, he, _, heq, _⟩
    · rw [h]; exact inv.dgs_nonneg p hp
    · rw [heq]; exact hcnn e he
  have hs1 : (st1.mem s).DGS = 0 := by
    rcases hcase s with h | ⟨e, he, _, _, hlt⟩
    · rw [h]; exact inv.src_dgs
    · rw [inv.src_dgs] at hlt
      exact absurd hlt (not_lt.2 (hcnn e he))
  have hreach1 : ∀ v ∈ st.keys, (st1.mem v).DGS ≠ ⊤ → ∃ y, Walk st0 s v y := by
    intro v hv hfin
    rcases hcase v with h | ⟨e, he, hev, heq, _⟩
    · rw [h] at hfin; exact inv.reach_dgs v hv hfin
    · rw [heq] at hfin
      have hwfin : (st.mem w).Length ≠ ⊤ :=
        fun htop => hfin (by rw [htop, addFloat_top_left])
      obtain ⟨x, hx⟩ := inv.reach_len w hw inv.w_done hwfin
      have := Walk.cons w x e hx hw0 (inv.edges_eq w ▸ he)
      rw [hev] at this
      exact ⟨_, this⟩
  refine ⟨hk3.trans inv.keys_eq, fun p => (hE3 p).trans (inv.edges_eq p), hk3 ▸ inv.s_mem,
    Or.inl (fun hin => ((hmem3 u).1 hin).2 rfl), ?_, ?_, ?_, ?_, ?_, ?_, ?_, ?_, ?_, ?_⟩
  · -- dgs_nonneg
    intro p hp
    rw [hk3] at hp
    rw [hDGS3]; exact hnn1 p hp
  · -- len_nonneg
    intro p hp hdone
    rw [hk3] at hp
    by_cases hpu : p = u
    · rw [hpu, hLu]; exact hnn1 u huk
    · rw [hL3 p hpu]; exact inv.len_nonneg p hp (hC p hdone hpu)
  · -- src_dgs
    rw [hDGS3]; exact hs1
  · -- src_len
    by_cases hsu : s = u
    · rw [hsu, hLu, ← hsu]; exact hs1
    · rw [hL3 s hsu]; exact inv.src_len
  · -- reach_dgs
    intro v hv hfin
    rw [hk3] at hv
    rw [hDGS3] at hfin
    exact hreach1 v hv hfin
  · -- reach_len
    intro p hp hdone hfin
    rw [hk3] at hp
    by_cases hpu : p = u
    · rw [hpu, hLu] at hfin
      rw [hpu]; exact hreach1 u huk hfin
    · rw [hL3 p hpu] at hfin
      exact inv.reach_len p hp (hC p hdone hpu) hfin
  · -- fin_relaxed
    intro p hp hdone hpu e he hne
    rw [hk3] at hp
    rw [hE3] at he
    rw [hL3 p hpu] at hne
    rw [hDGS3]
    by_cases hpw : p = w
    · rw [hpw] at he hne
      exact ne_of_lt (lt_of_le_of_lt (hrelaxed e he) (lt_top_iff_ne_top.2 hne))
    · have := inv.fin_relaxed p hp (hC p hdone hpu) hpw e he hne
      exact ne_of_lt (lt_of_le_of_lt (hle1 _) (lt_top_iff_ne_top.2 this))
  · -- top_heap
    intro htop p hp
    rw [hLu] at htop
    rw [hDGS3]
    have := hmin p ((hmem3 p).1 hp).1
    rw [htop] at this
    exact top_le_iff.1 this
  · -- top_all
    intro p hp hdone htop
    rw [hk3] at hp
    by_cases hpu : p = u
    · rw [← hpu]; exact htop
    · rw [hL3 p hpu] at htop
      have hwtop := inv.top_all p hp (hC p hdone hpu) htop
      rw [hLu, hA hwtop u]
      exact inv.top_heap hwtop u hu
  · -- len_top
    intro p hp hdone htop
    rw [hk3] at hp
    by_cases hpu : p = u
    · rw [hpu] at htop ⊢
      rw [hDGS3, ← hLu]; exact htop
    · rw [hL3 p hpu] at htop
      have hdn := hC p hdone hpu
      have hwtop := inv.top_all p hp hdn htop
      rw [hDGS3, hA hwtop p]
      exact inv.len_top p hp hdn htop

/-- What the invariant says once the heap is empty: a finite `Length` needs a path, and when
no `float64` sum of a finite `Length` and the weight of an outgoing edge is `+∞`, every vertex
with a path has a finite `Length`. -/
theorem finv_final (rnd : R → Score R) (st0 : State R) (s : Int) (st : State R) (w : Int)
    (hvh : st.vh = [])
    (hedges : ∀ k ∈ st0.keys, ∀ e ∈ (st0.mem k).Edges, e.HeadVertex ∈ st0.keys)
    (inv : FInv rnd st0 s st w) :
    (∀ v ∈ st0.keys, (st.mem v).Length ≠ ⊤ → ∃ y, Walk st0 s v y) ∧
    ((∀ u ∈ st0.keys, ∀ e ∈ (st0.mem u).Edges, (st.mem u).Length ≠ ⊤ →
        addFloat rnd (st.mem u).Length e.Distance ≠ ⊤) →
      ∀ v y, Walk st0 s v y → (st.mem v).Length ≠ ⊤) := by
  have hdone : ∀ u, Done st s u := fun u => Or.inl (by rw [hvh]; simp)
  refine ⟨fun v hv hfin => inv.reach_len v (inv.keys_eq ▸ hv) (hdone v) hfin, ?_⟩
  intro hno v y hwalk
  induction hwalk with
  | nil => rw [inv.src_len]; exact WithTop.zero_ne_top
  | cons u x e _ hu he ih =>
    have hv : e.HeadVertex ∈ st.keys := inv.keys_eq ▸ hedges u hu e he
    have huk : u ∈ st.keys := inv.keys_eq ▸ hu
    intro htop
    by_cases huw : u = w
    · have := inv.top_all _ hv (hdone _) htop
      rw [← huw] at this
      exact ih this
    · have h1 := inv.fin_relaxed u huk (hdone u) huw e (by rw [inv.edges_eq]; exact he)
        (hno u hu e he ih)
      exact h1 (inv.len_top _ hv (hdone _) htop)

/-- C2 (as amended): on a loader-built graph with non-negative weights, for every source `s`
of the graph and every enumeration order, `makeVertexHeap` followed by `dijkstra(s)`, its
sums formed in `float64`, returns; a vertex to which no directed path leads from `s` has
`Length = +∞`; and when no `float64` sum `Length(u) + w` is `+∞`, over the edges `(u → v, w)`
whose tail `u` ends with a finite `Length`, a vertex has `Length = +∞` if and only if no
directed path leads from `s` to it.  The statement holds for every rounding function `rnd`
that gives a non-negative result on a non-negative sum, as the rounding of `float64`
does. -/
theorem length_top_iff_unreachable_without_overflow (rnd : R → Score R)
    (hr0 : ∀ x, 0 ≤ x → 0 ≤ rnd x) (order : List Int) (st : State R) (s : Int)
    (hLB : LoaderBuilt st) (hnn : NonNegWeights st) (hs : s ∈ st.keys)
    (horder : order.Perm st.keys) :
    ∃ st' : State R, runFloat rnd order st s = some st' ∧
      (∀ v ∈ st.keys, (¬ ∃ y, Walk st s v y) → (st'.mem v).Length = ⊤) ∧
      ((∀ u ∈ st.keys, ∀ e ∈ (st.mem u).Edges, (st'.mem u).Length ≠ ⊤ →
          addFloat rnd (st'.mem u).Length e.Distance ≠ ⊤) →
        ∀ v ∈ st.keys, ((st'.mem v).Length = ⊤ ↔ ¬ ∃ y, Walk st s v y)) := by
  obtain ⟨st', w', hrun, _, hvh, _, _, inv⟩ :=
    runFloat_generic rnd (fun st1 w => FInv rnd st s st1 w)
      (fun st1 w st3 u _ hw hP hiter => finv_step rnd hr0 st s hnn st1 w st3 u hw hP hiter)
      order st s hLB hs horder (fun stI _ hI => finv_init rnd st s hs stI hI)
  obtain ⟨h1, h2⟩ :=
    finv_final rnd st s st' w' hvh (fun k hk e he => ((hLB.2 k hk).2.2 e he).2) inv
  refine ⟨st', hrun, fun v hv hno => ?_, fun hov v hv => ⟨?_, fun hno => ?_⟩⟩
  · by_contra hne
    exact hno (h1 v hv hne)
  · rintro htop ⟨y, hy⟩
    exact h2 hov v y hy htop
  · by_contra hne
    exact hno (h1 v hv hne)

/-- Witness for C2 (as amended): scenario S4 in `float64` arithmetic with the enumeration
order 3, 1, 2.  The run ends with lengths `0`, `1` and `+∞` for the vertices 1, 2 and 3, and
no sum of a finite length and an edge weight is `+∞`. -/
theorem length_top_iff_unreachable_without_overflow_witness :
    (∀ x : ℤ, 0 ≤ x → 0 ≤ round64 x) ∧ LoaderBuilt scenarioS4 ∧ NonNegWeights scenarioS4 ∧
      (1 : Int) ∈ scenarioS4.keys ∧ [3, 1, 2].Perm scenarioS4.keys ∧
      (runFloat round64 [3, 1, 2] scenarioS4 1).map (fun st' =>
          ((st'.mem 1).Length, (st'.mem 2).Length, (st'.mem 3).Length))
        = some (0, ((1 : ℤ) : Score ℤ), ⊤) ∧
      (∀ st' ∈ runFloat round64 [3, 1, 2] scenarioS4 1, ∀ u ∈ scenarioS4.keys,
        ∀ e ∈ (scenarioS4.mem u).Edges, (st'.mem u).Length ≠ ⊤ →
          addFloat round64 (st'.mem u).Length e.Distance ≠ ⊤) ∧
      ∃ st' : State ℤ, runFloat round64 [3, 1, 2] scenarioS4 1 = some st' ∧
        (∀ v ∈ scenarioS4.keys, (¬ ∃ y, Walk scenarioS4 1 v y) → (st'.mem v).Length = ⊤) ∧
        ((∀ u ∈ scenarioS4.keys, ∀ e ∈ (scenarioS4.mem u).Edges, (st'.mem u).Length ≠ ⊤ →
            addFloat round64 (st'.mem u).Length e.Distance ≠ ⊤) →
          ∀ v ∈ scenarioS4.keys,
            ((st'.mem v).Length = ⊤ ↔ ¬ ∃ y, Walk scenarioS4 1 v y)) :=
  ⟨round64_nonneg, by unfold LoaderBuilt; decide, by unfold NonNegWeights; decide, by decide,
    by decide, by decide, by decide,
    length_top_iff_unreachable_without_overflow round64 round64_nonneg [3, 1, 2] scenarioS4 1
      (by unfold LoaderBuilt; decide) (by unfold NonNegWeights; decide) (by decide)
      (by decide)⟩

/-- Counterexample to C2: on the loader-built graph of the lines `1 2,0x1p1023`,
`2 3,0x1p1023`, whose two weights are the finite `float64` `2^1023`, the `float64` sum
`2^1023 + 2^1023` is `+∞`, and `makeVertexHeap` and `dijkstra(1)` end with `Length(3) = +∞`
although the path 1 → 2 → 3 leads from the source to vertex 3. -/
theorem overflow_counterexample :
    LoaderBuilt overflowGraph ∧ NonNegWeights overflowGraph ∧ FiniteWeights overflowGraph ∧
      [1, 2, 3].Perm overflowGraph.keys ∧
      addFloat round64 (((2 ^ 1023 : ℕ) : ℤ) : Score ℤ) (((2 ^ 1023 : ℕ) : ℤ) : Score ℤ) = ⊤ ∧
      (runFloat round64 [1, 2, 3] overflowGraph 1).map (fun st' =>
          ((st'.mem 1).Length, (st'.mem 2).Length, (st'.mem 3).Length))
        = some (0, (((2 ^ 1023 : ℕ) : ℤ) : Score ℤ), ⊤) ∧
      ∃ y, Walk overflowGraph 1 3 y := by
  refine ⟨by unfold LoaderBuilt; decide, by unfold NonNegWeights; decide,
    by unfold FiniteWeights; decide, by decide, by decide, by decide, ?_⟩
  have h1 : Walk overflowGraph 1 2 (0 + (((2 ^ 1023 : ℕ) : ℤ) : Score ℤ)) :=
    Walk.cons 1 0 ⟨2, 2, (((2 ^ 1023 : ℕ) : ℤ) : Score ℤ)⟩ Walk.nil (by decide)
      (List.Mem.head _)
  exact ⟨_, Walk.cons 2 _ ⟨3, 3, (((2 ^ 1023 : ℕ) : ℤ) : Score ℤ)⟩ h1 (by decide)
    (List.Mem.head _)⟩


/-! ### The rounding `round64` -/

theorem excessBits_step (n k j : Nat)
    (h : (k = 0 ∨ 2 ^ (52 + k) ≤ n) ∧ n < 2 ^ (52 + k + 2 * j)) :
    ((if 2 ^ (52 + k + j) ≤ n then k + j else k) = 0 ∨
        2 ^ (52 + (if 2 ^ (52 + k + j) ≤ n then k + j else k)) ≤ n) ∧
      n < 2 ^ (52 + (if 2 ^ (52 + k + j) ≤ n then k + j else k) + j) := by
  by_cases hc : 2 ^ (52 + k + j) ≤ n
  · rw [if_pos hc]
    refine ⟨Or.inr ?_, ?_⟩
    · rw [← Nat.add_assoc]; exact hc
    · have e : 52 + (k + j) + j = 52 + k + 2 * j := by omega
      rw [e]; exact h.2
  · rw [if_neg hc]
    exact ⟨h.1, not_le.1 hc⟩

theorem excessBits_foldl (n : Nat) : ∀ (m k : Nat),
    (k = 0 ∨ 2 ^ (52 + k) ≤ n) ∧ n < 2 ^ (52 + k + 2 ^ m) →
    ∃ k' : Nat, List.foldl (fun k j => if 2 ^ (52 + k + j) ≤ n then k + j else k) k
        ((List.range m).reverse.map fun i => 2 ^ i) = k' ∧
      (k' = 0 ∨ 2 ^ (52 + k') ≤ n) ∧ n < 2 ^ (52 + k' + 1) := by
  intro m
  induction m with
  | zero =>
    intro k h
    exact ⟨k, rfl, h.1, by simpa using h.2⟩
  | succ m ih =>
    intro k h
    have e : ((List.range (m + 1)).reverse.map fun i => 2 ^ i)
        = 2 ^ m :: ((List.range m).reverse.map fun i => 2 ^ i) := by
      simp [List.range_succ]
    rw [e, List.foldl_cons]
    refine ih _ (excessBits_step n k (2 ^ m) ⟨h.1, ?_⟩)
    have e2 : 2 * 2 ^ m = 2 ^ (m + 1) := (pow_succ' 2 m).symm
    rw [e2]
    exact h.2

/-- What the bisection of `excessBits` finds, for `n` below `2^1076`: `0` when `n` has at
most 53 bits, and otherwise the `k` with `2^(52+k) ≤ n < 2^(53+k)`, so that `n / 2^k` has
exactly 53 bits. -/
theorem excessBits_spec (n : Nat) (hn : n < 2 ^ 1076) :
    (n < 2 ^ 53 → excessBits n = 0) ∧
      (2 ^ 53 ≤ n → 2 ^ (52 + excessBits n) ≤ n ∧ n < 2 ^ (53 + excessBits n)) := by
  have e : [512, 256, 128, 64, 32, 16, 8, 4, 2, 1]
      = ((List.range 10).reverse.map fun i => 2 ^ i) := by decide
  obtain ⟨k', hk', ha, hb⟩ := excessBits_foldl n 10 0 ⟨Or.inl rfl, hn⟩
  have hk : excessBits n = k' := by
    unfold excessBits
    rw [e]
    exact hk'
  rw [hk]
  have e3 : 52 + k' + 1 = 53 + k' := by omega
  rw [e3] at hb
  constructor
  · intro hlt
    rcases ha with ha | ha
    · exact ha
    · by_contra hne
      have : 2 ^ 53 ≤ 2 ^ (52 + k') := Nat.pow_le_pow_right (by decide) (by omega)
      omega
  · intro hge
    refine ⟨?_, hb⟩
    rcases ha with ha | ha
    · rw [ha] at hb
      omega
    · exact ha

/-- Some values of `round64`: a whole number of at most 53 bits is kept; `2^53 + 1` lies
halfway between two `float64` and goes to the even one, `2^53`; `2^53 + 3` goes to
`2^53 + 4`; the largest finite `float64` is `2^1024 - 2^971`, and the sums from
`2^1024 - 2^970` on are `+∞`. -/
theorem round64_values :
    round64 (2 ^ 53 - 1) = ((2 ^ 53 - 1 : ℤ) : Score ℤ) ∧
      round64 (2 ^ 53 + 1) = ((2 ^ 53 : ℤ) : Score ℤ) ∧
      round64 (2 ^ 53 + 3) = ((2 ^ 53 + 4 : ℤ) : Score ℤ) ∧
      round64 (10 ^ 16 + 1) = ((10 ^ 16 : ℤ) : Score ℤ) ∧
      round64 (-(2 ^ 53 + 1)) = ((-(2 ^ 53) : ℤ) : Score ℤ) ∧
      round64 ((2 ^ 1024 - 2 ^ 971 : ℕ) : ℤ) = (((2 ^ 1024 - 2 ^ 971 : ℕ) : ℤ) : Score ℤ) ∧
      round64 ((2 ^ 1024 - 2 ^ 970 - 1 : ℕ) : ℤ)
        = (((2 ^ 1024 - 2 ^ 971 : ℕ) : ℤ) : Score ℤ) ∧
      round64 ((2 ^ 1024 - 2 ^ 970 : ℕ) : ℤ) = ⊤ ∧
      round64 ((2 ^ 1024 : ℕ) : ℤ) = ⊤ := by
  decide


end Dijkstra
